import Mathlib

/-!
The kcov `Reporter` (src/reporter.cc): a shallow embedding.

The embedding follows `class Reporter` and its nested `LineId` / `Line`
classes of `src/src/reporter.cc`.

Modelling conventions.

* A `std::unordered_map<K, V>` is an association list `List (K × V)` with
  pairwise distinct keys.  `find` is `mapFind`, `m[k] = v` is `mapAssign`
  (overwrite in place when the key is present, insert otherwise), and iterating
  the map is iterating the list.  The iteration order of an unordered map is
  unspecified; the round-trip theorems are therefore stated for every
  permutation of the marshalled entries, not only for the list order.
* A `Line *` is the key of the line it points to (`Reporter::onLine` creates
  exactly one `Line` per key and lines are never deleted); `NULL` is `none`.
  Dereferencing `NULL` is a fault, so operations that dereference return
  `Option`: `none` is the fault.
* Memory is a list of bytes, 64-bit words are little endian, `unsigned long`
  is 64 bits wide (LP64) and `unsigned int` 32 bits wide.  The values read from
  a buffer are truncated the way the C++ assignments truncate them.
* Counters and container sizes (`m_nrLines`, `m_nrExecutedLines`, `hits()`,
  `possibleHits()`, `size_t` sizes) are natural numbers: each of them is
  bounded by the number of nodes allocated in the maps, which is assumed to stay
  below `2 ^ 32`.
* `malloc` in `marshal` is assumed to succeed, and `file_exists` is a fixed
  predicate passed as a parameter.
-/

namespace Kcov

/-! ## Maps -/

/-- Lookup, `std::unordered_map::find`: `none` is `end()`. -/
def mapFind {K V : Type} [DecidableEq K] (k : K) : List (K × V) → Option V
  | [] => none
  | (k', v) :: t => if k' = k then some v else mapFind k t

/-- Assignment `m[k] = v`: overwrites the value of an existing key, inserts a new
node otherwise. -/
def mapAssign {K V : Type} [DecidableEq K] (k : K) (v : V) : List (K × V) → List (K × V)
  | [] => [(k, v)]
  | (k', v') :: t => if k' = k then (k', v) :: t else (k', v') :: mapAssign k v t

/-! ## Bytes and 64-bit words -/

/-- One byte of memory (`uint8_t`). -/
abbrev Byte := Fin 256

/-- The store `*data++ = x` of a `uint64_t`: the eight bytes of `x`, least
significant first. -/
def putU64 (x : Nat) : List Byte :=
  (List.range 8).map (fun i => (⟨x / 256 ^ i % 256, Nat.mod_lt _ (by decide)⟩ : Byte))

/-- The load `*data` of a `uint64_t` at the start of `p`. -/
def getU64 (p : List Byte) : Nat :=
  (p.take 8).foldr (fun b acc => b.val + 256 * acc) 0

/-! ## LineId and Line -/

/-- The class `LineId`: file name and line number; `operator==` compares both. -/
structure LineId where
  m_file : String
  m_lineNr : Nat
deriving DecidableEq, Repr

/-- The class `Line`.  `m_addrs` maps an address to its hit state (an `int` that
only ever holds 0 or 1).  The member `m_hits` is never read or written and is
left out. -/
structure Line where
  m_file : String
  m_lineNr : Nat
  m_addrs : List (Nat × Nat)
deriving DecidableEq, Repr

/-- The constructor `Line(LineId id)`. -/
def Line.new (id : LineId) : Line :=
  { m_file := id.m_file, m_lineNr := id.m_lineNr, m_addrs := [] }

/-- `Line::addAddress`: `m_addrs[addr] = 0`. -/
def Line.addAddress (l : Line) (addr : Nat) : Line :=
  { l with m_addrs := mapAssign addr 0 l.m_addrs }

/-- `Line::registerHit`: `out = !m_addrs[addr]; m_addrs[addr] = 1; return out`.
`operator[]` yields 0 for an address that is not in the map yet. -/
def Line.registerHit (l : Line) (addr : Nat) : Nat × Line :=
  let out := if (mapFind addr l.m_addrs).getD 0 = 0 then 1 else 0
  (out, { l with m_addrs := mapAssign addr 1 l.m_addrs })

/-- `Line::clearHits`: every hit state becomes 0. -/
def Line.clearHits (l : Line) : Line :=
  { l with m_addrs := l.m_addrs.map (fun p => (p.1, 0)) }

/-- `Line::hits`: the sum of the hit states. -/
def Line.hits (l : Line) : Nat :=
  l.m_addrs.foldl (fun out p => out + p.2) 0

/-- `Line::possibleHits`: `m_addrs.size()`. -/
def Line.possibleHits (l : Line) : Nat :=
  l.m_addrs.length

/-- `Line::marshal`: appends, for every address, the address and its hit state
as two 64-bit words; `start` is what has been written so far. -/
def Line.marshal (l : Line) (start : List Byte) : List Byte :=
  l.m_addrs.foldl (fun data p => data ++ putU64 p.1 ++ putU64 p.2) start

/-- `Line::unMarshal`: reads `*outAddr` (an `unsigned long`) and `*outHits` (an
`unsigned int`) from two 64-bit words and returns the advanced pointer. -/
def Line.unMarshal (p : List Byte) : List Byte × Nat × Nat :=
  (p.drop 16, getU64 p % 2 ^ 64, getU64 (p.drop 8) % 2 ^ 32)

/-! ## Reporter -/

/-- The state of the class `Reporter`. -/
structure Reporter where
  m_lines : List (LineId × Line)
  m_addrToLine : List (Nat × Option LineId)
  m_nrLines : Nat
  m_nrExecutedLines : Nat
deriving DecidableEq, Repr

namespace Reporter

/-- The constructor: empty maps, both counters 0. -/
def init : Reporter :=
  { m_lines := [], m_addrToLine := [], m_nrLines := 0, m_nrExecutedLines := 0 }

/-- `Reporter::lineIsCode`. -/
def lineIsCode (r : Reporter) (file : String) (lineNr : Nat) : Bool :=
  (mapFind (LineId.mk file lineNr) r.m_lines).isSome

/-- `Reporter::getLineExecutionCount`: the pair `(hits, possibleHits)`. -/
def getLineExecutionCount (r : Reporter) (file : String) (lineNr : Nat) : Nat × Nat :=
  match mapFind (LineId.mk file lineNr) r.m_lines with
  | none => (0, 0)
  | some line => (line.hits, line.possibleHits)

/-- `Reporter::getExecutionSummary`: the pair `(nrLines, nrExecutedLines)`. -/
def getExecutionSummary (r : Reporter) : Nat × Nat :=
  (r.m_nrLines, r.m_nrExecutedLines)

/-- `Reporter::getMarshalEntrySize`: `2 * sizeof(uint64_t)`. -/
def getMarshalEntrySize : Nat := 2 * 8

/-- `Reporter::getMarshalSize`. -/
def getMarshalSize (r : Reporter) : Nat :=
  r.m_lines.foldl (fun out e => out + e.2.m_addrs.length) 0 * getMarshalEntrySize

/-- `Reporter::marshalHeader`: writes nothing. -/
def marshalHeader (p : List Byte) : List Byte := p

/-- `Reporter::unMarshalHeader`: reads nothing. -/
def unMarshalHeader (p : List Byte) : List Byte := p

/-- The write position of `Reporter::marshal` after its loop, as the list of the
bytes written from `start` on. -/
def marshalWritten (r : Reporter) : List Byte :=
  r.m_lines.foldl (fun p e => e.2.marshal p) (marshalHeader [])

/-- `Reporter::marshal`: the buffer and `*szOut`. -/
def marshal (r : Reporter) : List Byte × Nat :=
  (marshalWritten r, getMarshalSize r)

/-- `Reporter::onLine`. -/
def onLine (fileExists : String → Bool) (r : Reporter) (file : String) (lineNr : Nat)
    (addr : Nat) : Reporter :=
  let key := LineId.mk file lineNr
  match mapFind key r.m_lines with
  | none =>
    if !fileExists file then r
    else
      { m_lines := mapAssign key ((Line.new key).addAddress addr) r.m_lines
        m_addrToLine := mapAssign addr (some key) r.m_addrToLine
        m_nrLines := r.m_nrLines + 1
        m_nrExecutedLines := r.m_nrExecutedLines }
  | some line =>
    { r with
      m_lines := mapAssign key (line.addAddress addr) r.m_lines
      m_addrToLine := mapAssign addr (some key) r.m_addrToLine }

/-- The call `line->registerHit(addr)` through a `Line *`: `none` when the pointer
is `NULL` (or does not point to a line of `m_lines`). -/
def registerHitAt (lines : List (LineId × Line)) (line : Option LineId) (addr : Nat) :
    Option (Nat × List (LineId × Line)) :=
  match line with
  | none => none
  | some id =>
    match mapFind id lines with
    | none => none
    | some l => some ((l.registerHit addr).1, mapAssign id (l.registerHit addr).2 lines)

/-- `Reporter::onBreakpoint`. -/
def onBreakpoint (r : Reporter) (addr : Nat) : Option Reporter :=
  match mapFind addr r.m_addrToLine with
  | none => some r
  | some line =>
    match registerHitAt r.m_lines line addr with
    | none => none
    | some (out, lines) =>
      some { r with m_lines := lines, m_nrExecutedLines := r.m_nrExecutedLines + out }

/-- The reset loop of `Reporter::unMarshal`: `it->second->clearHits()` for every
node of `m_addrToLine`. -/
def clearAll : List (Nat × Option LineId) → List (LineId × Line) →
    Option (List (LineId × Line))
  | [], lines => some lines
  | (_, none) :: _, _ => none
  | (_, some id) :: t, lines =>
    match mapFind id lines with
    | none => none
    | some l => clearAll t (mapAssign id l.clearHits lines)

/-- The loop `while (hits--) line->registerHit(addr)`. -/
def registerHits (lines : List (LineId × Line)) (line : Option LineId) (addr : Nat) :
    Nat → Option (List (LineId × Line))
  | 0 => some lines
  | hits + 1 =>
    match registerHitAt lines line addr with
    | none => none
    | some (_, lines') => registerHits lines' line addr hits

/-- The body of the entry loop of `Reporter::unMarshal` for one entry
`(addr, hits)`. -/
def unMarshalEntry (r : Reporter) (addr hits : Nat) : Option Reporter :=
  match mapFind addr r.m_addrToLine with
  | none =>
    -- `m_addrToLine[addr]` inserts a node holding `NULL`
    some { r with m_addrToLine := mapAssign addr none r.m_addrToLine }
  | some none => some r
  | some (some id) =>
    if hits = 0 then some r
    else
      match mapFind id r.m_lines with
      | none => none
      | some l =>
        let hits' := if hits > l.possibleHits then l.possibleHits else hits
        match registerHits r.m_lines (some id) addr hits' with
        | none => none
        | some lines =>
          some { r with m_lines := lines, m_nrExecutedLines := r.m_nrExecutedLines + 1 }

/-- The entry loop of `Reporter::unMarshal`: `n` entries read from `p`. -/
def unMarshalLoop : Nat → List Byte → Reporter → Option Reporter
  | 0, _, r => some r
  | n + 1, p, r =>
    match unMarshalEntry r (Line.unMarshal p).2.1 (Line.unMarshal p).2.2 with
    | none => none
    | some r' => unMarshalLoop n (Line.unMarshal p).1 r'

/-- `Reporter::unMarshal(data, sz)` with `sz = data.length`: the new state and the
returned flag, or `none` when a `NULL` line is dereferenced. -/
def unMarshal (r : Reporter) (data : List Byte) : Option (Reporter × Bool) :=
  let p := unMarshalHeader data
  let n := (data.length - (data.length - p.length)) / getMarshalEntrySize
  match clearAll r.m_addrToLine r.m_lines with
  | none => none
  | some lines =>
    match unMarshalLoop n p { r with m_lines := lines, m_nrExecutedLines := 0 } with
    | none => none
    | some r' => some (r', true)

end Reporter

/-! ## Event sequences -/

/-- A call made on the Reporter by one of its collaborators. -/
inductive Event where
  | onLine (file : String) (lineNr : Nat) (addr : Nat)
  | onBreakpoint (addr : Nat)
  | unMarshal (data : List Byte)
deriving DecidableEq, Repr

/-- One call; `none` when the call faults. -/
def step (fileExists : String → Bool) (r : Reporter) : Event → Option Reporter
  | .onLine file lineNr addr => some (r.onLine fileExists file lineNr addr)
  | .onBreakpoint addr => r.onBreakpoint addr
  | .unMarshal data => (r.unMarshal data).map Prod.fst

/-- A sequence of calls, stopping at the first fault. -/
def run (fileExists : String → Bool) : Reporter → List Event → Option Reporter
  | r, [] => some r
  | r, e :: es =>
    match step fileExists r e with
    | none => none
    | some r' => run fileExists r' es

/-- The static phase: one `onLine` call per triple `(file, lineNr, addr)`. -/
def lineEvents (ls : List (String × Nat × Nat)) : List Event :=
  ls.map (fun x => Event.onLine x.1 x.2.1 x.2.2)

/-- The runtime phase: one `onBreakpoint` call per address. -/
def breakpointEvents (bs : List Nat) : List Event :=
  bs.map Event.onBreakpoint

/-! ## The scenario of the specification -/

/-- The file system of the scenario: only `a.c` exists. -/
def onlyA : String → Bool := fun f => f == "a.c"

/-- The key of line 10 of `a.c`. -/
def lineA : LineId := { m_file := "a.c", m_lineNr := 10 }

/-- Line 10 of `a.c` is mapped to the addresses 0x1000 and 0x1004. -/
def scenarioLines : List (String × Nat × Nat) :=
  [("a.c", 10, 0x1000), ("a.c", 10, 0x1004)]

/-- The state after the static phase of the scenario. -/
def scenarioStatic : Reporter :=
  { m_lines := [(lineA, { m_file := "a.c", m_lineNr := 10, m_addrs := [(0x1000, 0), (0x1004, 0)] })]
    m_addrToLine := [(0x1000, some lineA), (0x1004, some lineA)]
    m_nrLines := 1
    m_nrExecutedLines := 0 }

/-- The state of the scenario after both addresses have been reached. -/
def scenarioHit : Reporter :=
  { m_lines := [(lineA, { m_file := "a.c", m_lineNr := 10, m_addrs := [(0x1000, 1), (0x1004, 1)] })]
    m_addrToLine := [(0x1000, some lineA), (0x1004, some lineA)]
    m_nrLines := 1
    m_nrExecutedLines := 2 }

/-! ## The persisted format as a list of entries -/

/-- The sixteen bytes of one entry: the address, then the hit count. -/
def putEntry (e : Nat × Nat) : List Byte :=
  putU64 e.1 ++ putU64 e.2

/-- A buffer holding the given entries, one after the other. -/
def encodeEntries (es : List (Nat × Nat)) : List Byte :=
  es.flatMap putEntry

/-- The first `n` entries of a buffer, as `Line::unMarshal` reads them. -/
def decodeEntries : Nat → List Byte → List (Nat × Nat)
  | 0, _ => []
  | n + 1, p =>
    ((Line.unMarshal p).2.1, (Line.unMarshal p).2.2) :: decodeEntries n (Line.unMarshal p).1

/-- The pairs (address, hit state) of all lines, in the iteration order of
`Reporter::marshal`. -/
def Reporter.marshalEntries (r : Reporter) : List (Nat × Nat) :=
  r.m_lines.flatMap (fun e => e.2.m_addrs)

/-- The entry loop of `Reporter::unMarshal` run on a list of decoded entries. -/
def applyEntries : Reporter → List (Nat × Nat) → Option Reporter
  | r, [] => some r
  | r, e :: es =>
    match r.unMarshalEntry e.1 e.2 with
    | none => none
    | some r' => applyEntries r' es

/-- The buffer `p` of `n` whole entries (and possibly a partial one after them)
without the entries whose address has no node in the address index `idx`. -/
def removeUnknown (idx : List (Nat × Option LineId)) : Nat → List Byte → List Byte
  | 0, p => p
  | n + 1, p =>
    if (mapFind (Line.unMarshal p).2.1 idx).isSome then
      p.take 16 ++ removeUnknown idx n (p.drop 16)
    else removeUnknown idx n (p.drop 16)

/-- The buffer `data` without the entries whose address is not in the address
index of `r`. -/
def Reporter.dropUnknownEntries (r : Reporter) (data : List Byte) : List Byte :=
  removeUnknown r.m_addrToLine (data.length / 16) data

/-! ## Observations and invariants used in the statements -/

/-- No node of `m_addrToLine` holds `NULL`. -/
def NoNull (r : Reporter) : Prop :=
  ∀ x ∈ r.m_addrToLine, x.2 ≠ none

/-- The hit state stored for `addr` in the line of key `id`, when there is one. -/
def hitBit (r : Reporter) (id : LineId) (addr : Nat) : Option Nat :=
  (mapFind id r.m_lines).bind (fun l => mapFind addr l.m_addrs)

/-- Every stored hit state is 0 or 1. -/
def BitsOK (lines : List (LineId × Line)) : Prop :=
  ∀ e ∈ lines, ∀ p ∈ e.2.m_addrs, p.2 ≤ 1

/-- Every non-`NULL` pointer of `m_addrToLine` points to a line of `m_lines` whose
address set holds the address. -/
def IndexOK (r : Reporter) : Prop :=
  ∀ x ∈ r.m_addrToLine, ∀ id, x.2 = some id →
    ∃ l, mapFind id r.m_lines = some l ∧ (mapFind x.1 l.m_addrs).isSome = true

/-- The lines of `m'` are the lines of `m`, each with the same addresses (hit
states may differ). -/
def SameShape (m m' : List (LineId × Line)) : Prop :=
  m'.map Prod.fst = m.map Prod.fst ∧
  ∀ id l, mapFind id m = some l →
    ∃ l', mapFind id m' = some l' ∧ l'.m_addrs.map Prod.fst = l.m_addrs.map Prod.fst

/-- The state `s₁` is `s₂` up to `NULL` nodes: `s₂` has the address index `idx`,
`s₁` may hold additional nodes, all `NULL`; lines and counters are the same. -/
def AgreeUpToNull (idx : List (Nat × Option LineId)) (s₁ s₂ : Reporter) : Prop :=
  s₂.m_addrToLine = idx ∧ s₁.m_lines = s₂.m_lines ∧ s₁.m_nrLines = s₂.m_nrLines ∧
  s₁.m_nrExecutedLines = s₂.m_nrExecutedLines ∧
  ∀ a, mapFind a s₁.m_addrToLine = mapFind a idx ∨
    (mapFind a idx = none ∧ mapFind a s₁.m_addrToLine = some none)

/-- The invariant of the static phase (only `onLine` calls so far): keys and
addresses are pairwise distinct, every address is a 64-bit value with a
non-`NULL` node in the address index, and nothing is reached. -/
def StaticInv (r : Reporter) : Prop :=
  (r.m_lines.map Prod.fst).Nodup ∧
  (∀ e ∈ r.m_lines, (e.2.m_addrs.map Prod.fst).Nodup) ∧
  (∀ e ∈ r.m_lines, ∀ p ∈ e.2.m_addrs, p.1 < 2 ^ 64 ∧ p.2 = 0 ∧
    ∃ id, mapFind p.1 r.m_addrToLine = some (some id)) ∧
  r.m_nrExecutedLines = 0

/-- The invariant of the runtime phase (`onLine` calls, then `onBreakpoint`
calls): as in the static phase, but an address may be reached, and then the
address index resolves it to the line that marks it reached; the counter is the
number of reached addresses. -/
def RuntimeInv (r : Reporter) : Prop :=
  (r.m_lines.map Prod.fst).Nodup ∧
  (∀ e ∈ r.m_lines, (e.2.m_addrs.map Prod.fst).Nodup) ∧
  (∀ e ∈ r.m_lines, ∀ p ∈ e.2.m_addrs, p.1 < 2 ^ 64 ∧ p.2 ≤ 1 ∧
    (∃ id, mapFind p.1 r.m_addrToLine = some (some id)) ∧
    (p.2 = 1 → mapFind p.1 r.m_addrToLine = some (some e.1))) ∧
  r.m_nrExecutedLines = (r.m_lines.map (fun e => e.2.hits)).sum

/-- The line `l` with exactly those of its reached addresses marked that have an
entry with hit count 1 in `seen`. -/
def restoreLine (seen : List (Nat × Nat)) (l : Line) : Line :=
  { l with
    m_addrs := l.m_addrs.map (fun p => (p.1, if p.2 = 1 ∧ (p.1, 1) ∈ seen then 1 else 0)) }

/-- The state of `unMarshal` on the marshalled entries of `r` once the entries
`seen` have been processed. -/
def restored (r : Reporter) (seen : List (Nat × Nat)) : Reporter :=
  { r with
    m_lines := r.m_lines.map (fun e => (e.1, restoreLine seen e.2))
    m_nrExecutedLines := (seen.map Prod.snd).sum }

/-- The invariant of all states reachable from the constructor. -/
def Inv (r : Reporter) : Prop :=
  BitsOK r.m_lines ∧ IndexOK r

/-- The structural invariant of all states reachable from the constructor: the
keys of `m_lines` are pairwise distinct, every line has pairwise distinct
addresses and at least one, and `m_nrLines` is the number of lines. -/
def KeysInv (r : Reporter) : Prop :=
  (r.m_lines.map Prod.fst).Nodup ∧
  (∀ e ∈ r.m_lines, (e.2.m_addrs.map Prod.fst).Nodup ∧ e.2.m_addrs ≠ []) ∧
  r.m_nrLines = r.m_lines.length

/-- Every address of every line is a 64-bit value. -/
def AddrBound (lines : List (LineId × Line)) : Prop :=
  ∀ e ∈ lines, ∀ a ∈ e.2.m_addrs.map Prod.fst, a < 2 ^ 64

/-- The first `n` entries of a buffer read as pairs of 64-bit unsigned integers. -/
def readPairs : Nat → List Byte → List (Nat × Nat)
  | 0, _ => []
  | n + 1, p => (getU64 p, getU64 (p.drop 8)) :: readPairs n (p.drop 16)

/-- The line that the address index resolves `addr` to: `none` when there is no
node for `addr` or the node holds `NULL`. -/
def resolve (idx : List (Nat × Option LineId)) (addr : Nat) : Option LineId :=
  (mapFind addr idx).join

/-- The pairs (line, address) for which the entry loop of `unMarshal` counts and
registers a hit: one per entry whose address is resolved and whose hit count,
as read, is not 0. -/
def survivors (idx : List (Nat × Option LineId)) (es : List (Nat × Nat)) :
    List (LineId × Nat) :=
  es.filterMap (fun e => if e.2 = 0 then none else (resolve idx e.1).map (fun id => (id, e.1)))

/-- The line `l` of key `id` with the addresses listed for `id` in `S` marked
reached. -/
def markLine (S : List (LineId × Nat)) (id : LineId) (l : Line) : Line :=
  { l with m_addrs := l.m_addrs.map (fun p => (p.1, if (id, p.1) ∈ S then 1 else p.2)) }

/-- The lines `m` with the pairs (line, address) of `S` marked reached. -/
def markAll (S : List (LineId × Nat)) (m : List (LineId × Line)) : List (LineId × Line) :=
  m.map (fun e => (e.1, markLine S e.1 e.2))

/-- The lines after the reset loop of `unMarshal`: a line is cleared when some
node of the address index points to it. -/
def resetLines (idx : List (Nat × Option LineId)) (m : List (LineId × Line)) :
    List (LineId × Line) :=
  m.map (fun e => (e.1, if some e.1 ∈ idx.map Prod.snd then e.2.clearHits else e.2))

/-- The first `n` entries of a buffer as blocks of sixteen bytes. -/
def chunks16 : Nat → List Byte → List (List Byte)
  | 0, _ => []
  | n + 1, p => p.take 16 :: chunks16 n (p.drop 16)

/-- The buffer `p` of `n` whole entries in which the hit count of an entry is
replaced by 1 whenever the stored 64-bit count, reduced modulo `2 ^ w`, is at
least 1.  With `w = 64` the stored count itself is tested, with `w = 32` the
count as `unMarshal` reads it into an `unsigned int`. -/
def saturateHits (w : Nat) : Nat → List Byte → List Byte
  | 0, p => p
  | n + 1, p =>
    p.take 8 ++ (if 1 ≤ getU64 (p.drop 8) % 2 ^ w then putU64 1 else (p.drop 8).take 8)
      ++ saturateHits w n (p.drop 16)

end Kcov

namespace Kcov

/-! ## Lemmas on maps -/

section MapLemmas

variable {K V : Type} [DecidableEq K]

theorem mapFind_assign_same (k : K) (v : V) (m : List (K × V)) :
    mapFind k (mapAssign k v m) = some v := by
  induction m with
  | nil => simp [mapAssign, mapFind]
  | cons e t ih =>
    obtain ⟨k', v'⟩ := e
    by_cases h : k' = k
    · simp [mapAssign, mapFind, h]
    · simp [mapAssign, mapFind, h, ih]

theorem mapFind_assign_ne {k k' : K} (h : k' ≠ k) (v : V) (m : List (K × V)) :
    mapFind k' (mapAssign k v m) = mapFind k' m := by
  induction m with
  | nil => simp [mapAssign, mapFind, Ne.symm h]
  | cons e t ih =>
    obtain ⟨k₁, v₁⟩ := e
    by_cases h₁ : k₁ = k
    · subst h₁
      simp [mapAssign, mapFind, Ne.symm h]
    · by_cases h₂ : k₁ = k'
      · subst h₂
        simp [mapAssign, mapFind, h₁]
      · simp [mapAssign, mapFind, h₁, h₂, ih]

theorem mapFind_assign (k k' : K) (v : V) (m : List (K × V)) :
    mapFind k' (mapAssign k v m) = if k' = k then some v else mapFind k' m := by
  by_cases h : k' = k
  · subst h
    simp [mapFind_assign_same]
  · simp [h, mapFind_assign_ne h]

theorem mapFind_mem {k : K} {v : V} {m : List (K × V)} (h : mapFind k m = some v) :
    (k, v) ∈ m := by
  induction m with
  | nil => simp [mapFind] at h
  | cons e t ih =>
    obtain ⟨k', v'⟩ := e
    by_cases hk : k' = k
    · simp [mapFind, hk] at h
      simp [hk, h]
    · simp [mapFind, hk] at h
      exact List.mem_cons_of_mem _ (ih h)

theorem mapFind_eq_none_iff {k : K} {m : List (K × V)} :
    mapFind k m = none ↔ k ∉ m.map Prod.fst := by
  induction m with
  | nil => simp [mapFind]
  | cons e t ih =>
    obtain ⟨k', v'⟩ := e
    by_cases hk : k' = k
    · simp [mapFind, hk]
    · simp [mapFind, hk, ih, Ne.symm hk]

theorem mapFind_isSome_iff {k : K} {m : List (K × V)} :
    (mapFind k m).isSome = true ↔ k ∈ m.map Prod.fst := by
  rw [← not_iff_not, ← mapFind_eq_none_iff]
  cases mapFind k m <;> simp

theorem mapFind_of_mem {k : K} {v : V} {m : List (K × V)} (hn : (m.map Prod.fst).Nodup)
    (h : (k, v) ∈ m) : mapFind k m = some v := by
  induction m with
  | nil => simp at h
  | cons e t ih =>
    obtain ⟨k', v'⟩ := e
    simp only [List.map_cons, List.nodup_cons] at hn
    rcases List.mem_cons.1 h with h | h
    · simp only [Prod.mk.injEq] at h
      simp [mapFind, h.1, h.2]
    · have hk : k' ≠ k := by
        intro hk
        subst hk
        exact hn.1 (List.mem_map.2 ⟨_, h, rfl⟩)
      simp [mapFind, hk, ih hn.2 h]

theorem mem_mapAssign {k : K} {v : V} {m : List (K × V)} {x : K × V}
    (h : x ∈ mapAssign k v m) : x = (k, v) ∨ x ∈ m := by
  induction m with
  | nil => simpa [mapAssign] using h
  | cons e t ih =>
    obtain ⟨k', v'⟩ := e
    by_cases hk : k' = k
    · simp only [mapAssign, hk, if_true, List.mem_cons] at h
      rcases h with h | h
      · exact Or.inl h
      · exact Or.inr (List.mem_cons_of_mem _ h)
    · simp only [mapAssign, hk, if_false, List.mem_cons] at h
      rcases h with h | h
      · exact Or.inr (by simp [h])
      · rcases ih h with h | h
        · exact Or.inl h
        · exact Or.inr (List.mem_cons_of_mem _ h)

theorem keys_mapAssign_of_some {k : K} {v₀ : V} {m : List (K × V)}
    (h : mapFind k m = some v₀) (v : V) :
    (mapAssign k v m).map Prod.fst = m.map Prod.fst := by
  induction m with
  | nil => simp [mapFind] at h
  | cons e t ih =>
    obtain ⟨k', v'⟩ := e
    by_cases hk : k' = k
    · simp [mapAssign, hk]
    · simp only [mapFind, hk, if_false] at h
      simp [mapAssign, hk, ih h]

theorem keys_mapAssign_of_none {k : K} {m : List (K × V)}
    (h : mapFind k m = none) (v : V) :
    (mapAssign k v m).map Prod.fst = m.map Prod.fst ++ [k] := by
  induction m with
  | nil => simp [mapAssign]
  | cons e t ih =>
    obtain ⟨k', v'⟩ := e
    by_cases hk : k' = k
    · simp [mapFind, hk] at h
    · simp only [mapFind, hk, if_false] at h
      simp [mapAssign, hk, ih h]

theorem nodup_keys_mapAssign {m : List (K × V)} (hn : (m.map Prod.fst).Nodup) (k : K) (v : V) :
    ((mapAssign k v m).map Prod.fst).Nodup := by
  cases h : mapFind k m with
  | none =>
    rw [keys_mapAssign_of_none h]
    have hk := mapFind_eq_none_iff.1 h
    exact List.nodup_append.2 ⟨hn, by simp, by
      intro a ha hb
      simp at hb
      exact hk (hb ▸ ha)⟩
  | some v₀ => rw [keys_mapAssign_of_some h]; exact hn

theorem length_mapAssign_of_some {k : K} {v₀ : V} {m : List (K × V)}
    (h : mapFind k m = some v₀) (v : V) : (mapAssign k v m).length = m.length := by
  have := congrArg List.length (keys_mapAssign_of_some h v)
  simpa using this

/-- Assigning to a present key rewrites exactly the node of that key. -/
theorem mapAssign_eq_map {k : K} {v₀ : V} {m : List (K × V)} (hn : (m.map Prod.fst).Nodup)
    (h : mapFind k m = some v₀) (v : V) :
    mapAssign k v m = m.map (fun e => (e.1, if e.1 = k then v else e.2)) := by
  induction m with
  | nil => simp [mapFind] at h
  | cons e t ih =>
    obtain ⟨k', v'⟩ := e
    simp only [List.map_cons, List.nodup_cons] at hn
    by_cases hk : k' = k
    · subst hk
      have : t.map (fun e => (e.1, if e.1 = k' then v else e.2)) = t := by
        conv_rhs => rw [← List.map_id t]
        apply List.map_congr_left
        intro e he
        have : e.1 ≠ k' := fun hh => hn.1 (hh ▸ List.mem_map.2 ⟨e, he, rfl⟩)
        simp [this]
      simp [mapAssign, this]
    · simp only [mapFind, hk, if_false] at h
      simp [mapAssign, hk, ih hn.2 h]

theorem sum_mapAssign (g : V → Nat) {k : K} {v₀ : V} {m : List (K × V)}
    (h : mapFind k m = some v₀) (v : V) :
    ((mapAssign k v m).map (fun e => g e.2)).sum + g v₀ = (m.map (fun e => g e.2)).sum + g v := by
  induction m with
  | nil => simp [mapFind] at h
  | cons e t ih =>
    obtain ⟨k', v'⟩ := e
    by_cases hk : k' = k
    · simp only [mapFind, hk, if_true, Option.some.injEq] at h
      subst h
      simp [mapAssign, hk]
      omega
    · simp only [mapFind, hk, if_false] at h
      have := ih h
      simp [mapAssign, hk]
      omega

theorem sum_mapAssign_of_none (g : V → Nat) {k : K} {m : List (K × V)}
    (h : mapFind k m = none) (v : V) :
    ((mapAssign k v m).map (fun e => g e.2)).sum = (m.map (fun e => g e.2)).sum + g v := by
  induction m with
  | nil => simp [mapAssign]
  | cons e t ih =>
    obtain ⟨k', v'⟩ := e
    by_cases hk : k' = k
    · simp [mapFind, hk] at h
    · simp only [mapFind, hk, if_false] at h
      have := ih h
      simp [mapAssign, hk]
      omega

theorem mapFind_map_values (f : K → V → V) (k : K) (m : List (K × V)) :
    mapFind k (m.map (fun e => (e.1, f e.1 e.2))) = (mapFind k m).map (f k) := by
  induction m with
  | nil => simp [mapFind]
  | cons e t ih =>
    obtain ⟨k', v'⟩ := e
    by_cases hk : k' = k
    · simp [mapFind, hk]
    · simp [mapFind, hk, ih]

end MapLemmas

theorem keys_map_values {K V : Type} (f : K → V → V) (m : List (K × V)) :
    (m.map (fun e => (e.1, f e.1 e.2))).map Prod.fst = m.map Prod.fst := by
  simp [List.map_map, Function.comp_def]

/-! ## Lines: hits, sizes, marshalling -/

theorem foldl_add_eq_sum {α : Type} (f : α → Nat) (l : List α) (init : Nat) :
    l.foldl (fun out p => out + f p) init = init + (l.map f).sum := by
  induction l generalizing init with
  | nil => simp
  | cons a t ih => simp [ih]; omega

theorem Line.hits_eq_sum (l : Line) : l.hits = (l.m_addrs.map Prod.snd).sum := by
  simp [Line.hits, foldl_add_eq_sum]

theorem sum_le_length_of_le_one (l : List (Nat × Nat)) (h : ∀ p ∈ l, p.2 ≤ 1) :
    (l.map Prod.snd).sum ≤ l.length := by
  induction l with
  | nil => simp
  | cons a t ih =>
    have h₁ := h a (List.mem_cons_self _ _)
    have h₂ := ih (fun p hp => h p (List.mem_cons_of_mem _ hp))
    simp only [List.map_cons, List.sum_cons, List.length_cons]
    omega

theorem length_putU64 (x : Nat) : (putU64 x).length = 8 := by
  simp [putU64]

theorem foldl_append_eq_flatMap {α β : Type} (f : α → List β) (l : List α) (init : List β) :
    l.foldl (fun acc x => acc ++ f x) init = init ++ l.flatMap f := by
  induction l generalizing init with
  | nil => simp
  | cons a t ih => simp [ih]

theorem length_putEntry (e : Nat × Nat) : (putEntry e).length = 16 := by
  simp [putEntry, length_putU64]

theorem length_encodeEntries (es : List (Nat × Nat)) :
    (encodeEntries es).length = 16 * es.length := by
  induction es with
  | nil => simp [encodeEntries]
  | cons e t ih =>
    simp only [encodeEntries, List.flatMap_cons, List.length_append, length_putEntry,
      List.length_cons] at ih ⊢
    omega

theorem Line.marshal_eq (l : Line) (start : List Byte) :
    l.marshal start = start ++ encodeEntries l.m_addrs := by
  have h : (fun (data : List Byte) (p : Nat × Nat) => data ++ putU64 p.1 ++ putU64 p.2)
      = (fun data p => data ++ putEntry p) := by
    funext data p
    simp [putEntry]
  simp only [Line.marshal, h, foldl_append_eq_flatMap, encodeEntries]

theorem encodeEntries_append (xs ys : List (Nat × Nat)) :
    encodeEntries (xs ++ ys) = encodeEntries xs ++ encodeEntries ys := by
  simp [encodeEntries]

theorem foldl_marshal_eq (m : List (LineId × Line)) (start : List Byte) :
    m.foldl (fun p e => e.2.marshal p) start
      = start ++ encodeEntries (m.flatMap (fun e => e.2.m_addrs)) := by
  induction m generalizing start with
  | nil => simp [encodeEntries]
  | cons e t ih =>
    rw [List.foldl_cons, ih, Line.marshal_eq, List.flatMap_cons, encodeEntries_append,
      List.append_assoc]

theorem Reporter.marshalWritten_eq (r : Reporter) :
    r.marshalWritten = encodeEntries r.marshalEntries := by
  simp [Reporter.marshalWritten, Reporter.marshalHeader, foldl_marshal_eq,
    Reporter.marshalEntries]

theorem length_marshalEntries (m : List (LineId × Line)) :
    (m.flatMap (fun e => e.2.m_addrs)).length = (m.map (fun e => e.2.possibleHits)).sum := by
  induction m with
  | nil => simp
  | cons e t ih => simp [List.flatMap_cons, ih, Line.possibleHits]

/-- C10. The size returned by `marshal` is 16 times the sum of `possibleHits()`
over all lines, and the marshal loop writes exactly that many bytes: the write
position after the last line is `start + size`. -/
theorem marshal_size (r : Reporter) :
    r.marshal.2 = 16 * (r.m_lines.map (fun e => e.2.possibleHits)).sum ∧
    r.marshalWritten.length = r.marshal.2 ∧
    r.marshal.1.length = r.marshal.2 := by
  have h₁ : r.marshal.2 = 16 * (r.m_lines.map (fun e => e.2.possibleHits)).sum := by
    simp only [Reporter.marshal, Reporter.getMarshalSize, Reporter.getMarshalEntrySize,
      foldl_add_eq_sum, Line.possibleHits]
    omega
  have h₂ : r.marshalWritten.length = r.marshal.2 := by
    rw [h₁, Reporter.marshalWritten_eq, length_encodeEntries, Reporter.marshalEntries,
      length_marshalEntries]
  exact ⟨h₁, h₂, h₂⟩

/-- C7. `onLine` for a key that has no line yet and whose file does not exist
leaves the whole state unchanged: lines, address index and both counters; the
key is still not code afterwards. -/
theorem onLine_missing_file (fileExists : String → Bool) (r : Reporter) (file : String)
    (lineNr addr : Nat) (hline : r.lineIsCode file lineNr = false)
    (hfile : fileExists file = false) :
    r.onLine fileExists file lineNr addr = r ∧
    (r.onLine fileExists file lineNr addr).m_lines = r.m_lines ∧
    (r.onLine fileExists file lineNr addr).m_addrToLine = r.m_addrToLine ∧
    (r.onLine fileExists file lineNr addr).getExecutionSummary = r.getExecutionSummary ∧
    mapFind addr (r.onLine fileExists file lineNr addr).m_addrToLine
      = mapFind addr r.m_addrToLine ∧
    (r.onLine fileExists file lineNr addr).lineIsCode file lineNr = false := by
  have h : r.onLine fileExists file lineNr addr = r := by
    unfold Reporter.lineIsCode at hline
    unfold Reporter.onLine
    cases hf : mapFind (LineId.mk file lineNr) r.m_lines with
    | none => simp [hfile, hf]
    | some l => simp [hf] at hline
  rw [h]
  exact ⟨rfl, rfl, rfl, rfl, rfl, hline⟩

/-- Witness of C7: the file `b.c` does not exist, the state holds a line of `a.c`. -/
theorem onLine_missing_file_witness :
    (Reporter.onLine (fun f => f == "a.c")
        (Reporter.onLine (fun f => f == "a.c") Reporter.init "a.c" 10 4096) "b.c" 3 8192
      = Reporter.onLine (fun f => f == "a.c") Reporter.init "a.c" 10 4096) ∧
    (Reporter.onLine (fun f => f == "a.c")
        (Reporter.onLine (fun f => f == "a.c") Reporter.init "a.c" 10 4096) "b.c" 3 8192).lineIsCode
      "b.c" 3 = false :=
  have h := onLine_missing_file (fun f => f == "a.c")
    (Reporter.onLine (fun f => f == "a.c") Reporter.init "a.c" 10 4096) "b.c" 3 8192
    (by decide) (by decide)
  ⟨h.1, h.2.2.2.2.2⟩

/-! ## Preservation of the invariant -/

theorem sameShape_refl (m : List (LineId × Line)) : SameShape m m :=
  ⟨rfl, fun _ l h => ⟨l, h, rfl⟩⟩

theorem sameShape_trans {m₁ m₂ m₃ : List (LineId × Line)} (h₁ : SameShape m₁ m₂)
    (h₂ : SameShape m₂ m₃) : SameShape m₁ m₃ := by
  refine ⟨h₂.1.trans h₁.1, ?_⟩
  intro id l hl
  obtain ⟨l', hl', hk'⟩ := h₁.2 id l hl
  obtain ⟨l'', hl'', hk''⟩ := h₂.2 id l' hl'
  exact ⟨l'', hl'', hk''.trans hk'⟩

theorem sameShape_assign {m : List (LineId × Line)} {id : LineId} {l l' : Line}
    (h : mapFind id m = some l) (hk : l'.m_addrs.map Prod.fst = l.m_addrs.map Prod.fst) :
    SameShape m (mapAssign id l' m) := by
  refine ⟨keys_mapAssign_of_some h l', ?_⟩
  intro id₁ l₁ h₁
  by_cases hid : id₁ = id
  · subst hid
    rw [h] at h₁
    cases h₁
    exact ⟨l', mapFind_assign_same _ _ _, hk⟩
  · exact ⟨l₁, by rw [mapFind_assign_ne hid]; exact h₁, rfl⟩

theorem bitsOK_assign {m : List (LineId × Line)} (hm : BitsOK m) (id : LineId) {l' : Line}
    (hl' : ∀ p ∈ l'.m_addrs, p.2 ≤ 1) : BitsOK (mapAssign id l' m) := by
  intro e he
  rcases mem_mapAssign he with h | h
  · subst h
    exact hl'
  · exact hm e h

theorem bitsOK_of_find {m : List (LineId × Line)} (hm : BitsOK m) {id : LineId} {l : Line}
    (h : mapFind id m = some l) : ∀ p ∈ l.m_addrs, p.2 ≤ 1 :=
  hm _ (mapFind_mem h)

theorem bits_mapAssign {addrs : List (Nat × Nat)} (h : ∀ p ∈ addrs, p.2 ≤ 1) (a v : Nat)
    (hv : v ≤ 1) : ∀ p ∈ mapAssign a v addrs, p.2 ≤ 1 := by
  intro p hp
  rcases mem_mapAssign hp with h' | h'
  · subst h'
    exact hv
  · exact h p h'

theorem bits_clearHits (l : Line) : ∀ p ∈ l.clearHits.m_addrs, p.2 ≤ 1 := by
  intro p hp
  simp only [Line.clearHits, List.mem_map] at hp
  obtain ⟨q, _, rfl⟩ := hp
  simp

theorem keys_clearHits (l : Line) :
    l.clearHits.m_addrs.map Prod.fst = l.m_addrs.map Prod.fst := by
  simp [Line.clearHits, List.map_map, Function.comp_def]

theorem indexOK_of_sameShape {r r' : Reporter} (h : IndexOK r)
    (hs : SameShape r.m_lines r'.m_lines) (hi : r'.m_addrToLine = r.m_addrToLine) :
    IndexOK r' := by
  intro x hx id hid
  rw [hi] at hx
  obtain ⟨l, hl, ha⟩ := h x hx id hid
  obtain ⟨l', hl', hk⟩ := hs.2 id l hl
  refine ⟨l', hl', ?_⟩
  rw [mapFind_isSome_iff] at ha ⊢
  rw [hk]
  exact ha

/-- What `onLine` does when it does not return early. -/
theorem Reporter.onLine_cases (fileExists : String → Bool) (r : Reporter) (file : String)
    (lineNr addr : Nat) :
    (r.onLine fileExists file lineNr addr = r ∧
      mapFind (LineId.mk file lineNr) r.m_lines = none ∧ fileExists file = false) ∨
    ∃ l₀, ((mapFind (LineId.mk file lineNr) r.m_lines = some l₀ ∧
            (r.onLine fileExists file lineNr addr).m_nrLines = r.m_nrLines) ∨
          (mapFind (LineId.mk file lineNr) r.m_lines = none ∧ fileExists file = true ∧
            l₀ = Line.new (LineId.mk file lineNr) ∧
            (r.onLine fileExists file lineNr addr).m_nrLines = r.m_nrLines + 1)) ∧
      (r.onLine fileExists file lineNr addr).m_lines
        = mapAssign (LineId.mk file lineNr) (l₀.addAddress addr) r.m_lines ∧
      (r.onLine fileExists file lineNr addr).m_addrToLine
        = mapAssign addr (some (LineId.mk file lineNr)) r.m_addrToLine ∧
      (r.onLine fileExists file lineNr addr).m_nrExecutedLines = r.m_nrExecutedLines := by
  unfold Reporter.onLine
  cases hf : mapFind (LineId.mk file lineNr) r.m_lines with
  | none =>
    cases he : fileExists file with
    | false => exact Or.inl (by simp [hf, he])
    | true => exact Or.inr ⟨Line.new (LineId.mk file lineNr), by simp [hf, he]⟩
  | some l => exact Or.inr ⟨l, by simp [hf]⟩

theorem inv_onLine {r : Reporter} (h : Inv r) (fileExists : String → Bool) (file : String)
    (lineNr addr : Nat) : Inv (r.onLine fileExists file lineNr addr) := by
  rcases Reporter.onLine_cases fileExists r file lineNr addr with hc | ⟨l₀, hl₀, hm, hi, _⟩
  · rw [hc.1]; exact h
  · have hbits₀ : ∀ p ∈ l₀.m_addrs, p.2 ≤ 1 := by
      rcases hl₀ with hl₀ | hl₀
      · exact bitsOK_of_find h.1 hl₀.1
      · rw [hl₀.2.2.1]; simp [Line.new]
    refine ⟨?_, ?_⟩
    · rw [hm]
      exact bitsOK_assign h.1 _ (bits_mapAssign hbits₀ addr 0 (by omega))
    · intro x hx id hid
      rw [hm]
      rw [hi] at hx
      rcases mem_mapAssign hx with hx | hx
      · subst hx
        simp only [Option.some.injEq] at hid
        subst hid
        exact ⟨_, mapFind_assign_same _ _ _, by simp [Line.addAddress, mapFind_assign_same]⟩
      · obtain ⟨l, hl, ha⟩ := h.2 x hx id hid
        by_cases hk : id = LineId.mk file lineNr
        · subst hk
          refine ⟨_, mapFind_assign_same _ _ _, ?_⟩
          have : l₀ = l := by
            rcases hl₀ with hl₀ | hl₀
            · rw [hl₀.1] at hl; exact Option.some.inj hl
            · rw [hl₀.1] at hl; cases hl
          subst this
          simp only [Line.addAddress, mapFind_assign]
          split
          · rfl
          · exact ha
        · exact ⟨l, by rw [mapFind_assign_ne hk]; exact hl, ha⟩

theorem registerHitAt_some {m : List (LineId × Line)} {id : LineId} {a : Nat} {l : Line}
    (h : mapFind id m = some l) :
    Reporter.registerHitAt m (some id) a
      = some ((l.registerHit a).1, mapAssign id (l.registerHit a).2 m) := by
  simp [Reporter.registerHitAt, h]

theorem registerHitAt_inv {m m' : List (LineId × Line)} {line : Option LineId} {a out : Nat}
    (h : Reporter.registerHitAt m line a = some (out, m')) :
    ∃ id l, line = some id ∧ mapFind id m = some l ∧ out = (l.registerHit a).1 ∧
      m' = mapAssign id (l.registerHit a).2 m := by
  unfold Reporter.registerHitAt at h
  cases line with
  | none => simp at h
  | some id =>
    cases hf : mapFind id m with
    | none => simp [hf] at h
    | some l =>
      simp only [hf, Option.some.injEq, Prod.mk.injEq] at h
      exact ⟨id, l, rfl, hf, h.1.symm, h.2.symm⟩

theorem keys_registerHit {l : Line} {a : Nat} (h : (mapFind a l.m_addrs).isSome = true) :
    (l.registerHit a).2.m_addrs.map Prod.fst = l.m_addrs.map Prod.fst := by
  obtain ⟨v, hv⟩ := Option.isSome_iff_exists.1 h
  simp [Line.registerHit, keys_mapAssign_of_some hv]

theorem bits_registerHit {l : Line} (h : ∀ p ∈ l.m_addrs, p.2 ≤ 1) (a : Nat) :
    ∀ p ∈ (l.registerHit a).2.m_addrs, p.2 ≤ 1 := by
  simp only [Line.registerHit]
  exact bits_mapAssign h a 1 (by omega)

/-- One `registerHit` through a pointer to a line that holds the address keeps the
shape of the lines and the 0/1 hit states. -/
theorem registerHitAt_ok {m : List (LineId × Line)} {id : LineId} {a : Nat} {l : Line}
    (hl : mapFind id m = some l) (ha : (mapFind a l.m_addrs).isSome = true)
    (hb : BitsOK m) :
    SameShape m (mapAssign id (l.registerHit a).2 m) ∧
    BitsOK (mapAssign id (l.registerHit a).2 m) :=
  ⟨sameShape_assign hl (keys_registerHit ha),
    bitsOK_assign hb id (bits_registerHit (bitsOK_of_find hb hl) a)⟩

theorem registerHits_ok (id : LineId) (a : Nat) (hits : Nat) :
    ∀ (m : List (LineId × Line)) (l : Line), mapFind id m = some l →
      (mapFind a l.m_addrs).isSome = true → BitsOK m →
      ∃ m', Reporter.registerHits m (some id) a hits = some m' ∧ SameShape m m' ∧ BitsOK m' := by
  induction hits with
  | zero =>
    intro m l _ _ hb
    exact ⟨m, rfl, sameShape_refl m, hb⟩
  | succ n ih =>
    intro m l hl ha hb
    obtain ⟨hs, hb'⟩ := registerHitAt_ok hl ha hb
    obtain ⟨l', hl', hk'⟩ := hs.2 id l hl
    have ha' : (mapFind a l'.m_addrs).isSome = true := by
      rw [mapFind_isSome_iff] at ha ⊢
      rw [hk']; exact ha
    obtain ⟨m', hm', hs', hb''⟩ := ih _ l' hl' ha' hb'
    refine ⟨m', ?_, sameShape_trans hs hs', hb''⟩
    simp only [Reporter.registerHits, registerHitAt_some hl]
    exact hm'

theorem clearAll_ok (idx : List (Nat × Option LineId)) :
    ∀ (m m' : List (LineId × Line)), Reporter.clearAll idx m = some m' → BitsOK m →
      SameShape m m' ∧ BitsOK m' := by
  induction idx with
  | nil =>
    intro m m' h hb
    simp only [Reporter.clearAll, Option.some.injEq] at h
    subst h
    exact ⟨sameShape_refl m, hb⟩
  | cons x t ih =>
    intro m m' h hb
    obtain ⟨a, v⟩ := x
    cases v with
    | none => simp [Reporter.clearAll] at h
    | some id =>
      cases hf : mapFind id m with
      | none => simp [Reporter.clearAll, hf] at h
      | some l =>
        simp only [Reporter.clearAll, hf] at h
        obtain ⟨hs, hb'⟩ := ih _ _ h (bitsOK_assign hb id (bits_clearHits l))
        exact ⟨sameShape_trans (sameShape_assign hf (keys_clearHits l)) hs, hb'⟩

theorem inv_init : Inv Reporter.init := by
  refine ⟨?_, ?_⟩
  · intro e he
    simp [Reporter.init] at he
  · intro x hx
    simp [Reporter.init] at hx

theorem indexOK_find {r : Reporter} (h : IndexOK r) {a : Nat} {id : LineId}
    (hf : mapFind a r.m_addrToLine = some (some id)) :
    ∃ l, mapFind id r.m_lines = some l ∧ (mapFind a l.m_addrs).isSome = true :=
  h (a, some id) (mapFind_mem hf) id rfl

/-- Under the invariant the body of the entry loop never faults; it keeps the
invariant, the keys and addresses of all lines, and `m_nrLines`. -/
theorem unMarshalEntry_ok {r : Reporter} (h : Inv r) (addr hits : Nat) :
    ∃ r', r.unMarshalEntry addr hits = some r' ∧ Inv r' ∧
      SameShape r.m_lines r'.m_lines ∧ r'.m_nrLines = r.m_nrLines := by
  unfold Reporter.unMarshalEntry
  cases hf : mapFind addr r.m_addrToLine with
  | none =>
    refine ⟨{ r with m_addrToLine := mapAssign addr none r.m_addrToLine }, by simp only [hf],
      ⟨h.1, ?_⟩, sameShape_refl _, rfl⟩
    intro x hx id hid
    rcases mem_mapAssign hx with hx | hx
    · subst hx
      simp at hid
    · exact h.2 x hx id hid
  | some v =>
    cases v with
    | none => exact ⟨r, by simp only [hf], h, sameShape_refl _, rfl⟩
    | some id =>
      by_cases hz : hits = 0
      · exact ⟨r, by simp [hf, hz], h, sameShape_refl _, rfl⟩
      · obtain ⟨l, hl, ha⟩ := indexOK_find h.2 hf
        obtain ⟨m', hm', hs, hb⟩ := registerHits_ok id addr
          (if hits > l.possibleHits then l.possibleHits else hits) r.m_lines l hl ha h.1
        refine ⟨{ r with m_lines := m', m_nrExecutedLines := r.m_nrExecutedLines + 1 }, ?_,
          ⟨hb, ?_⟩, hs, rfl⟩
        · simp only [hf, hz, if_false, hl, hm']
        · exact @indexOK_of_sameShape r _ h.2 hs rfl

theorem unMarshalLoop_eq_applyEntries (n : Nat) :
    ∀ (p : List Byte) (r : Reporter),
      Reporter.unMarshalLoop n p r = applyEntries r (decodeEntries n p) := by
  induction n with
  | zero => intro p r; rfl
  | succ n ih =>
    intro p r
    simp only [Reporter.unMarshalLoop, applyEntries, decodeEntries]
    cases Reporter.unMarshalEntry r (Line.unMarshal p).2.1 (Line.unMarshal p).2.2 with
    | none => rfl
    | some r' => exact ih _ _

theorem applyEntries_ok (es : List (Nat × Nat)) :
    ∀ r : Reporter, Inv r →
      ∃ r', applyEntries r es = some r' ∧ Inv r' ∧
        SameShape r.m_lines r'.m_lines ∧ r'.m_nrLines = r.m_nrLines := by
  induction es with
  | nil => intro r h; exact ⟨r, rfl, h, sameShape_refl _, rfl⟩
  | cons e t ih =>
    intro r h
    obtain ⟨r₁, h₁, hi₁, hs₁, hn₁⟩ := unMarshalEntry_ok h e.1 e.2
    obtain ⟨r₂, h₂, hi₂, hs₂, hn₂⟩ := ih r₁ hi₁
    refine ⟨r₂, ?_, hi₂, sameShape_trans hs₁ hs₂, hn₂.trans hn₁⟩
    simp only [applyEntries, h₁]
    exact h₂

/-- The two stages of `unMarshal`: the reset loop, then the entry loop. -/
theorem Reporter.unMarshal_eq (r : Reporter) (data : List Byte) :
    r.unMarshal data =
      match Reporter.clearAll r.m_addrToLine r.m_lines with
      | none => none
      | some lines =>
        (applyEntries { r with m_lines := lines, m_nrExecutedLines := 0 }
          (decodeEntries (data.length / 16) data)).map (fun r' => (r', true)) := by
  unfold Reporter.unMarshal
  simp only [Reporter.unMarshalHeader, Reporter.getMarshalEntrySize, Nat.sub_self, Nat.sub_zero,
    unMarshalLoop_eq_applyEntries]
  cases Reporter.clearAll r.m_addrToLine r.m_lines with
  | none => rfl
  | some lines =>
    simp only []
    cases applyEntries { r with m_lines := lines, m_nrExecutedLines := 0 }
      (decodeEntries (data.length / 16) data) <;> rfl

/-- A completed `unMarshal` keeps the invariant, the keys and addresses of all
lines and `m_nrLines`, and returns `true`. -/
theorem unMarshal_ok {r r' : Reporter} {data : List Byte} {b : Bool} (h : Inv r)
    (hu : r.unMarshal data = some (r', b)) :
    Inv r' ∧ SameShape r.m_lines r'.m_lines ∧ r'.m_nrLines = r.m_nrLines ∧ b = true := by
  rw [Reporter.unMarshal_eq] at hu
  cases hc : Reporter.clearAll r.m_addrToLine r.m_lines with
  | none => simp [hc] at hu
  | some lines =>
    simp only [hc] at hu
    obtain ⟨hs, hb⟩ := clearAll_ok _ _ _ hc h.1
    have hi : Inv { r with m_lines := lines, m_nrExecutedLines := 0 } :=
      ⟨hb, @indexOK_of_sameShape r _ h.2 hs rfl⟩
    obtain ⟨r₂, h₂, hi₂, hs₂, hn₂⟩ := applyEntries_ok (decodeEntries (data.length / 16) data) _ hi
    rw [h₂] at hu
    simp only [Option.map_some', Option.some.injEq, Prod.mk.injEq] at hu
    obtain ⟨rfl, rfl⟩ := hu
    exact ⟨hi₂, sameShape_trans hs hs₂, hn₂, rfl⟩

/-- The three ways `onBreakpoint` can go. -/
theorem Reporter.onBreakpoint_cases (r : Reporter) (addr : Nat) :
    (mapFind addr r.m_addrToLine = none ∧ r.onBreakpoint addr = some r) ∨
    (∃ id l, mapFind addr r.m_addrToLine = some (some id) ∧ mapFind id r.m_lines = some l ∧
      r.onBreakpoint addr = some { r with
        m_lines := mapAssign id (l.registerHit addr).2 r.m_lines
        m_nrExecutedLines := r.m_nrExecutedLines + (l.registerHit addr).1 }) ∨
    ((mapFind addr r.m_addrToLine = some none ∨
        ∃ id, mapFind addr r.m_addrToLine = some (some id) ∧ mapFind id r.m_lines = none) ∧
      r.onBreakpoint addr = none) := by
  unfold Reporter.onBreakpoint
  cases hf : mapFind addr r.m_addrToLine with
  | none => exact Or.inl ⟨rfl, by simp only [hf]⟩
  | some v =>
    cases v with
    | none => exact Or.inr (Or.inr ⟨Or.inl rfl, by simp [hf, Reporter.registerHitAt]⟩)
    | some id =>
      cases hl : mapFind id r.m_lines with
      | none =>
        exact Or.inr (Or.inr ⟨Or.inr ⟨id, rfl, hl⟩, by simp [hf, Reporter.registerHitAt, hl]⟩)
      | some l =>
        exact Or.inr (Or.inl ⟨id, l, rfl, hl, by simp [hf, Reporter.registerHitAt, hl]⟩)

theorem onBreakpoint_ok {r r' : Reporter} {addr : Nat} (h : Inv r)
    (hb : r.onBreakpoint addr = some r') :
    Inv r' ∧ SameShape r.m_lines r'.m_lines ∧ r'.m_nrLines = r.m_nrLines ∧
      r'.m_addrToLine = r.m_addrToLine := by
  rcases Reporter.onBreakpoint_cases r addr with hc | ⟨id, l, hf, hl, hc⟩ | hc
  · rw [hc.2] at hb
    cases hb
    exact ⟨h, sameShape_refl _, rfl, rfl⟩
  · rw [hc] at hb
    cases hb
    obtain ⟨l₁, hl₁, ha⟩ := indexOK_find h.2 hf
    rw [hl] at hl₁
    cases hl₁
    obtain ⟨hs, hbits⟩ := registerHitAt_ok hl ha h.1
    exact ⟨⟨hbits, @indexOK_of_sameShape r _ h.2 hs rfl⟩, hs, rfl, rfl⟩
  · rw [hc.2] at hb
    cases hb

theorem inv_step {fileExists : String → Bool} {r r' : Reporter} {e : Event} (h : Inv r)
    (hs : step fileExists r e = some r') : Inv r' := by
  cases e with
  | onLine file lineNr addr =>
    simp only [step, Option.some.injEq] at hs
    subst hs
    exact inv_onLine h _ _ _ _
  | onBreakpoint addr => exact (onBreakpoint_ok h hs).1
  | unMarshal data =>
    simp only [step, Option.map_eq_some'] at hs
    obtain ⟨⟨r₁, b⟩, hu, rfl⟩ := hs
    exact (unMarshal_ok h hu).1

theorem inv_run {fileExists : String → Bool} (evs : List Event) :
    ∀ {r r' : Reporter}, Inv r → run fileExists r evs = some r' → Inv r' := by
  induction evs with
  | nil =>
    intro r r' h hr
    simp only [run, Option.some.injEq] at hr
    subst hr
    exact h
  | cons e t ih =>
    intro r r' h hr
    simp only [run] at hr
    cases hs : step fileExists r e with
    | none => simp [hs] at hr
    | some r₁ =>
      simp only [hs] at hr
      exact ih (inv_step h hs) hr

theorem run_append (fileExists : String → Bool) (es₁ es₂ : List Event) (r : Reporter) :
    run fileExists r (es₁ ++ es₂) = (run fileExists r es₁).bind (fun r' => run fileExists r' es₂) := by
  induction es₁ generalizing r with
  | nil => rfl
  | cons e t ih =>
    simp only [List.cons_append, run]
    cases step fileExists r e with
    | none => rfl
    | some r₁ => exact ih r₁

/-- C3. In every state reached from the constructor by `onLine`, `onBreakpoint`
and `unMarshal` calls (any buffers), every line has
`0 ≤ hits() ≤ possibleHits()`. -/
theorem hits_le_possibleHits (fileExists : String → Bool) (evs : List Event) (r : Reporter)
    (hr : run fileExists Reporter.init evs = some r) :
    ∀ e ∈ r.m_lines, 0 ≤ e.2.hits ∧ e.2.hits ≤ e.2.possibleHits := by
  intro e he
  have hi : Inv r := inv_run evs inv_init hr
  refine ⟨Nat.zero_le _, ?_⟩
  rw [Line.hits_eq_sum, Line.possibleHits]
  exact sum_le_length_of_le_one _ (hi.1 e he)

/-- Witness of C3: after a breakpoint, a buffer whose entry for 0x1000 stores the
hit count 7 is loaded; the line still has `hits() = 1 ≤ 2 = possibleHits()`. -/
theorem hits_le_possibleHits_witness :
    run onlyA Reporter.init
        (lineEvents scenarioLines ++
          [Event.onBreakpoint 0x1004, Event.unMarshal (putU64 0x1000 ++ putU64 7)])
      = some { m_lines := [(lineA, { m_file := "a.c", m_lineNr := 10,
                                     m_addrs := [(0x1000, 1), (0x1004, 0)] })]
               m_addrToLine := [(0x1000, some lineA), (0x1004, some lineA)]
               m_nrLines := 1
               m_nrExecutedLines := 1 } ∧
    ∀ e ∈ [(lineA, ({ m_file := "a.c", m_lineNr := 10,
                      m_addrs := [(0x1000, 1), (0x1004, 0)] } : Line))],
      0 ≤ e.2.hits ∧ e.2.hits ≤ e.2.possibleHits :=
  ⟨by decide,
    hits_le_possibleHits onlyA
      (lineEvents scenarioLines ++
        [Event.onBreakpoint 0x1004, Event.unMarshal (putU64 0x1000 ++ putU64 7)])
      { m_lines := [(lineA, { m_file := "a.c", m_lineNr := 10,
                              m_addrs := [(0x1000, 1), (0x1004, 0)] })]
        m_addrToLine := [(0x1000, some lineA), (0x1004, some lineA)]
        m_nrLines := 1
        m_nrExecutedLines := 1 }
      (by decide)⟩

/-! ## Which keys are code -/

theorem lineIsCode_iff_mem (r : Reporter) (file : String) (lineNr : Nat) :
    r.lineIsCode file lineNr = true ↔ LineId.mk file lineNr ∈ r.m_lines.map Prod.fst := by
  simp only [Reporter.lineIsCode]
  exact mapFind_isSome_iff

theorem step_keys {fileExists : String → Bool} {r r' : Reporter} {e : Event} (h : Inv r)
    (hs : step fileExists r e = some r') (key : LineId) :
    key ∈ r'.m_lines.map Prod.fst ↔
      key ∈ r.m_lines.map Prod.fst ∨
        ((∃ addr, e = Event.onLine key.m_file key.m_lineNr addr) ∧
          fileExists key.m_file = true) := by
  cases e with
  | onLine file lineNr addr =>
    simp only [step, Option.some.injEq] at hs
    subst hs
    rcases Reporter.onLine_cases fileExists r file lineNr addr with hc | ⟨l₀, hl₀, hm, _, _⟩
    · rw [hc.1]
      constructor
      · exact Or.inl
      · rintro (h₁ | ⟨⟨a, ha⟩, hf⟩)
        · exact h₁
        · simp only [Event.onLine.injEq] at ha
          rw [← ha.1, hc.2.2] at hf
          cases hf
    · rw [hm]
      rcases hl₀ with hl₀ | hl₀
      · rw [keys_mapAssign_of_some hl₀.1]
        constructor
        · exact Or.inl
        · rintro (h₁ | ⟨⟨a, ha⟩, _⟩)
          · exact h₁
          · simp only [Event.onLine.injEq] at ha
            have hk : key = LineId.mk file lineNr := by
              cases key; simp only [LineId.mk.injEq]; exact ⟨ha.1.symm, ha.2.1.symm⟩
            rw [hk, ← mapFind_isSome_iff, hl₀.1]
            rfl
      · rw [keys_mapAssign_of_none hl₀.1, List.mem_append, List.mem_singleton]
        constructor
        · rintro (h₁ | h₁)
          · exact Or.inl h₁
          · subst h₁
            exact Or.inr ⟨⟨addr, rfl⟩, hl₀.2.1⟩
        · rintro (h₁ | ⟨⟨a, ha⟩, _⟩)
          · exact Or.inl h₁
          · simp only [Event.onLine.injEq] at ha
            refine Or.inr ?_
            cases key; simp only [LineId.mk.injEq]; exact ⟨ha.1.symm, ha.2.1.symm⟩
  | onBreakpoint addr =>
    rw [(onBreakpoint_ok h hs).2.1.1]
    simp
  | unMarshal data =>
    simp only [step, Option.map_eq_some'] at hs
    obtain ⟨⟨r₁, b⟩, hu, rfl⟩ := hs
    rw [(unMarshal_ok h hu).2.1.1]
    simp

theorem run_keys {fileExists : String → Bool} (evs : List Event) :
    ∀ {r r' : Reporter}, Inv r → run fileExists r evs = some r' → ∀ key : LineId,
      (key ∈ r'.m_lines.map Prod.fst ↔
        key ∈ r.m_lines.map Prod.fst ∨
          ((∃ addr, Event.onLine key.m_file key.m_lineNr addr ∈ evs) ∧
            fileExists key.m_file = true)) := by
  induction evs with
  | nil =>
    intro r r' _ hr key
    simp only [run, Option.some.injEq] at hr
    subst hr
    simp
  | cons e t ih =>
    intro r r' h hr key
    simp only [run] at hr
    cases hs : step fileExists r e with
    | none => simp [hs] at hr
    | some r₁ =>
      simp only [hs] at hr
      rw [ih (inv_step h hs) hr key, step_keys h hs key]
      constructor
      · rintro ((h₁ | ⟨⟨a, ha⟩, hf⟩) | ⟨⟨a, ha⟩, hf⟩)
        · exact Or.inl h₁
        · exact Or.inr ⟨⟨a, by simp [ha]⟩, hf⟩
        · exact Or.inr ⟨⟨a, List.mem_cons_of_mem _ ha⟩, hf⟩
      · rintro (h₁ | ⟨⟨a, ha⟩, hf⟩)
        · exact Or.inl (Or.inl h₁)
        · rcases List.mem_cons.1 ha with ha | ha
          · exact Or.inl (Or.inr ⟨⟨a, ha.symm⟩, hf⟩)
          · exact Or.inr ⟨⟨a, ha⟩, hf⟩

/-- C8. In every state reached from the constructor, `lineIsCode(file, lineNr)` is
true exactly when an earlier `onLine(file, lineNr, _)` call was made and the
file exists; where `lineIsCode` is false, `getLineExecutionCount` is `(0, 0)`. -/
theorem lineIsCode_iff_registered (fileExists : String → Bool) (evs : List Event)
    (r : Reporter) (hr : run fileExists Reporter.init evs = some r) (file : String)
    (lineNr : Nat) :
    (r.lineIsCode file lineNr = true ↔
      (∃ addr, Event.onLine file lineNr addr ∈ evs) ∧ fileExists file = true) ∧
    (r.lineIsCode file lineNr = false → r.getLineExecutionCount file lineNr = (0, 0)) := by
  constructor
  · rw [lineIsCode_iff_mem, run_keys evs inv_init hr (LineId.mk file lineNr)]
    simp [Reporter.init]
  · intro hf
    simp only [Reporter.lineIsCode] at hf
    cases hm : mapFind (LineId.mk file lineNr) r.m_lines with
    | none => simp [Reporter.getLineExecutionCount, hm]
    | some l => simp [hm] at hf

/-- Witness of C8: in the scenario, line 10 of `a.c` is code; line 3 of the
missing file `b.c` is not, although `onLine` was called for it. -/
theorem lineIsCode_iff_registered_witness :
    ((scenarioStatic.lineIsCode "a.c" 10 = true ↔
        (∃ addr, Event.onLine "a.c" 10 addr ∈ lineEvents (("b.c", 3, 0x2000) :: scenarioLines)) ∧
          onlyA "a.c" = true) ∧
      (scenarioStatic.lineIsCode "a.c" 10 = false →
        scenarioStatic.getLineExecutionCount "a.c" 10 = (0, 0))) ∧
    ((scenarioStatic.lineIsCode "b.c" 3 = true ↔
        (∃ addr, Event.onLine "b.c" 3 addr ∈ lineEvents (("b.c", 3, 0x2000) :: scenarioLines)) ∧
          onlyA "b.c" = true) ∧
      (scenarioStatic.lineIsCode "b.c" 3 = false →
        scenarioStatic.getLineExecutionCount "b.c" 3 = (0, 0))) ∧
    scenarioStatic.lineIsCode "a.c" 10 = true ∧ scenarioStatic.lineIsCode "b.c" 3 = false :=
  ⟨lineIsCode_iff_registered onlyA (lineEvents (("b.c", 3, 0x2000) :: scenarioLines))
      scenarioStatic (by decide) "a.c" 10,
    lineIsCode_iff_registered onlyA (lineEvents (("b.c", 3, 0x2000) :: scenarioLines))
      scenarioStatic (by decide) "b.c" 3,
    by decide, by decide⟩

/-! ## The `NULL` node left behind by `unMarshal` -/

/-- C4 (the code at the failing input). Loading a buffer whose only entry names the
unknown address 0x2000 succeeds but leaves a `NULL` node for 0x2000 in
`m_addrToLine`; the next `unMarshal`, even of the empty buffer, dereferences that
`NULL` in its reset loop. -/
theorem unMarshal_faults_after_unknown_address :
    run onlyA Reporter.init
        (lineEvents scenarioLines ++ [Event.unMarshal (putU64 0x2000 ++ putU64 1)])
      = some { scenarioStatic with
          m_addrToLine := [(0x1000, some lineA), (0x1004, some lineA), (0x2000, none)] } ∧
    Reporter.unMarshal { scenarioStatic with
        m_addrToLine := [(0x1000, some lineA), (0x1004, some lineA), (0x2000, none)] } []
      = none := by
  decide

/-- C5 (the code at the failing input). After a buffer naming the unknown address
0x2000 has been loaded, `onBreakpoint(0x2000)` finds the `NULL` node that
`unMarshal` inserted and dereferences it, although no `onLine` call ever
registered 0x2000. -/
theorem onBreakpoint_faults_after_unknown_address :
    run onlyA Reporter.init
        (lineEvents scenarioLines ++ [Event.unMarshal (putU64 0x2000 ++ putU64 1)])
      = some { scenarioStatic with
          m_addrToLine := [(0x1000, some lineA), (0x1004, some lineA), (0x2000, none)] } ∧
    (∀ x ∈ scenarioLines, x.2.2 ≠ 0x2000) ∧
    Reporter.onBreakpoint { scenarioStatic with
        m_addrToLine := [(0x1000, some lineA), (0x1004, some lineA), (0x2000, none)] } 0x2000
      = none := by
  decide

/-! ## Accounting of `onBreakpoint` -/

theorem mapAssign_self {K V : Type} [DecidableEq K] {k : K} {v : V} {m : List (K × V)}
    (h : mapFind k m = some v) : mapAssign k v m = m := by
  induction m with
  | nil => simp [mapFind] at h
  | cons e t ih =>
    obtain ⟨k', v'⟩ := e
    by_cases hk : k' = k
    · simp only [mapFind, hk, if_true, Option.some.injEq] at h
      simp [mapAssign, hk, h]
    · simp only [mapFind, hk, if_false] at h
      simp [mapAssign, hk, ih h]

theorem registerHit_of_reached {l : Line} {a : Nat} (h : mapFind a l.m_addrs = some 1) :
    l.registerHit a = (0, l) := by
  simp [Line.registerHit, h, mapAssign_self h]

theorem registerHit_fst_of_clear {l : Line} {a : Nat} (h : mapFind a l.m_addrs = some 0) :
    (l.registerHit a).1 = 1 := by
  simp [Line.registerHit, h]

theorem registerHit_hits_of_clear {l : Line} {a : Nat} (h : mapFind a l.m_addrs = some 0) :
    (l.registerHit a).2.hits = l.hits + 1 := by
  have := sum_mapAssign (fun v : Nat => v) h 1
  simp only [Line.hits_eq_sum, Line.registerHit]
  have e : (fun e : Nat × Nat => e.2) = Prod.snd := rfl
  rw [e] at this
  omega

theorem registerHit_possibleHits {l : Line} {a : Nat}
    (h : (mapFind a l.m_addrs).isSome = true) :
    (l.registerHit a).2.possibleHits = l.possibleHits := by
  have := congrArg List.length (keys_registerHit h)
  simpa [Line.possibleHits] using this

theorem find_le_one {l : List (Nat × Nat)} (hb : ∀ p ∈ l, p.2 ≤ 1) {a h : Nat}
    (hf : mapFind a l = some h) : h = 0 ∨ h = 1 := by
  have := hb _ (mapFind_mem hf)
  simp only at this
  omega

/-- One `onBreakpoint` on a resolvable, not yet reached address. -/
theorem onBreakpoint_of_clear {r : Reporter} {a : Nat} {id : LineId} {l : Line}
    (hidx : mapFind a r.m_addrToLine = some (some id)) (hl : mapFind id r.m_lines = some l)
    (ha : mapFind a l.m_addrs = some 0) :
    r.onBreakpoint a = some { r with
      m_lines := mapAssign id (l.registerHit a).2 r.m_lines
      m_nrExecutedLines := r.m_nrExecutedLines + 1 } := by
  rcases Reporter.onBreakpoint_cases r a with hc | ⟨id', l', hf, hl', hc⟩ | hc
  · rw [hc.1] at hidx; cases hidx
  · rw [hidx] at hf
    cases hf
    rw [hl] at hl'
    cases hl'
    rw [hc, registerHit_fst_of_clear ha]
  · rcases hc.1 with hc' | ⟨id', hf, hl'⟩
    · rw [hidx] at hc'; cases hc'
    · rw [hidx] at hf
      cases hf
      rw [hl] at hl'; cases hl'

/-- One `onBreakpoint` on a resolvable, already reached address. -/
theorem onBreakpoint_of_reached {r : Reporter} {a : Nat} {id : LineId} {l : Line}
    (hidx : mapFind a r.m_addrToLine = some (some id)) (hl : mapFind id r.m_lines = some l)
    (ha : mapFind a l.m_addrs = some 1) :
    r.onBreakpoint a = some r := by
  rcases Reporter.onBreakpoint_cases r a with hc | ⟨id', l', hf, hl', hc⟩ | hc
  · rw [hc.1] at hidx; cases hidx
  · rw [hidx] at hf
    cases hf
    rw [hl] at hl'
    cases hl'
    rw [hc, registerHit_of_reached ha, mapAssign_self hl]
    rfl
  · rcases hc.1 with hc' | ⟨id', hf, hl'⟩
    · rw [hidx] at hc'; cases hc'
    · rw [hidx] at hf
      cases hf
      rw [hl] at hl'; cases hl'

/-- Breakpoints on pairwise distinct, not yet reached addresses of one line: each
of them counts. -/
theorem breakpoints_of_clear (fileExists : String → Bool) (id : LineId) (as : List Nat) :
    ∀ (r : Reporter) (l : Line), mapFind id r.m_lines = some l → as.Nodup →
      (∀ x ∈ as, mapFind x r.m_addrToLine = some (some id) ∧ mapFind x l.m_addrs = some 0) →
      ∃ r' l', run fileExists r (breakpointEvents as) = some r' ∧
        mapFind id r'.m_lines = some l' ∧ l'.hits = l.hits + as.length ∧
        l'.possibleHits = l.possibleHits ∧
        r'.m_nrExecutedLines = r.m_nrExecutedLines + as.length ∧
        r'.m_nrLines = r.m_nrLines := by
  induction as with
  | nil =>
    intro r l hl _ _
    exact ⟨r, l, rfl, hl, rfl, rfl, rfl, rfl⟩
  | cons x t ih =>
    intro r l hl hn hall
    obtain ⟨hx, hcl⟩ := hall x (List.mem_cons_self _ _)
    have hstep := onBreakpoint_of_clear hx hl hcl
    have hn' := List.nodup_cons.1 hn
    obtain ⟨r', l', hr', hl', hh', hp', he', hn''⟩ :=
      ih { r with m_lines := mapAssign id (l.registerHit x).2 r.m_lines
                  m_nrExecutedLines := r.m_nrExecutedLines + 1 }
        (l.registerHit x).2 (mapFind_assign_same _ _ _) hn'.2
        (by
          intro y hy
          have hne : y ≠ x := fun h => hn'.1 (h ▸ hy)
          refine ⟨(hall y (List.mem_cons_of_mem _ hy)).1, ?_⟩
          simp only [Line.registerHit, mapFind_assign_ne hne]
          exact (hall y (List.mem_cons_of_mem _ hy)).2)
    refine ⟨r', l', ?_, hl', ?_, ?_, ?_, hn''⟩
    · simp only [breakpointEvents, List.map_cons, run, step, hstep]
      exact hr'
    · rw [hh', registerHit_hits_of_clear hcl, List.length_cons]; omega
    · rw [hp', registerHit_possibleHits (by rw [hcl]; rfl)]
    · rw [he', List.length_cons]; simp only; omega

/-- C2. In a state reached from the constructor, let the address index resolve `a`
to the line of key `id`.  That line exists and stores a hit state `h ∈ {0, 1}`
for `a`.  If `h = 0`, `onBreakpoint(a)` raises `hits()` of the line and
`nrExecutedLines` by exactly 1, sets the hit state of `a`, changes no other hit
state, no `possibleHits()` and not `nrLines`, and a second `onBreakpoint(a)`
changes nothing.  If `h = 1`, `onBreakpoint(a)` changes nothing.  Breakpoints on
`k` distinct, not yet reached addresses of the line raise `hits()` and
`nrExecutedLines` by `k`. -/
theorem onBreakpoint_accounting (fileExists : String → Bool) (evs : List Event) (r : Reporter)
    (hr : run fileExists Reporter.init evs = some r) (a : Nat) (id : LineId)
    (hidx : mapFind a r.m_addrToLine = some (some id)) :
    ∃ l h, mapFind id r.m_lines = some l ∧ mapFind a l.m_addrs = some h ∧ (h = 0 ∨ h = 1) ∧
      (h = 0 → ∃ r' l', r.onBreakpoint a = some r' ∧ mapFind id r'.m_lines = some l' ∧
        l'.hits = l.hits + 1 ∧ l'.possibleHits = l.possibleHits ∧
        r'.m_nrExecutedLines = r.m_nrExecutedLines + 1 ∧ r'.m_nrLines = r.m_nrLines ∧
        hitBit r' id a = some 1 ∧
        (∀ id' a', (id', a') ≠ (id, a) → hitBit r' id' a' = hitBit r id' a') ∧
        r'.onBreakpoint a = some r') ∧
      (h = 1 → r.onBreakpoint a = some r) ∧
      (∀ as : List Nat, as.Nodup →
        (∀ x ∈ as, mapFind x r.m_addrToLine = some (some id) ∧ mapFind x l.m_addrs = some 0) →
        ∃ r' l', run fileExists r (breakpointEvents as) = some r' ∧
          mapFind id r'.m_lines = some l' ∧ l'.hits = l.hits + as.length ∧
          l'.possibleHits = l.possibleHits ∧
          r'.m_nrExecutedLines = r.m_nrExecutedLines + as.length ∧
          r'.m_nrLines = r.m_nrLines) := by
  have hi : Inv r := inv_run evs inv_init hr
  obtain ⟨l, hl, ha⟩ := indexOK_find hi.2 hidx
  obtain ⟨h, hh⟩ := Option.isSome_iff_exists.1 ha
  refine ⟨l, h, hl, hh, find_le_one (bitsOK_of_find hi.1 hl) hh, ?_, ?_, ?_⟩
  · intro h0
    subst h0
    have hstep := onBreakpoint_of_clear hidx hl hh
    have hbit : mapFind a (l.registerHit a).2.m_addrs = some 1 := by
      simp [Line.registerHit, mapFind_assign_same]
    refine ⟨_, (l.registerHit a).2, hstep, mapFind_assign_same _ _ _,
      registerHit_hits_of_clear hh, registerHit_possibleHits ha, rfl, rfl, ?_, ?_, ?_⟩
    · simp [hitBit, mapFind_assign_same, hbit]
    · intro id' a' hne
      by_cases hid : id' = id
      · subst hid
        have hne' : a' ≠ a := fun e => hne (by rw [e])
        simp [hitBit, mapFind_assign_same, hl, Line.registerHit, mapFind_assign_ne hne']
      · simp [hitBit, mapFind_assign_ne hid]
    · exact @onBreakpoint_of_reached
        { r with m_lines := mapAssign id (l.registerHit a).2 r.m_lines
                 m_nrExecutedLines := r.m_nrExecutedLines + 1 }
        a id _ hidx (mapFind_assign_same _ _ _) hbit
  · intro h1
    subst h1
    exact onBreakpoint_of_reached hidx hl hh
  · intro as hn hall
    exact breakpoints_of_clear fileExists id as r l hl hn hall

/-- Witness of C2: the scenario of the specification.  After the two `onLine`
calls, 0x1000 resolves to line 10 of `a.c`; reaching 0x1000 and 0x1004 gives
`(2, 2)` and `nrExecutedLines = 2` while `nrLines = 1`. -/
theorem onBreakpoint_accounting_witness :
    run onlyA Reporter.init (lineEvents scenarioLines) = some scenarioStatic ∧
    mapFind 0x1000 scenarioStatic.m_addrToLine = some (some lineA) ∧
    (∃ l h, mapFind lineA scenarioStatic.m_lines = some l ∧
      mapFind 0x1000 l.m_addrs = some h ∧ (h = 0 ∨ h = 1) ∧
      (h = 0 → ∃ r' l', scenarioStatic.onBreakpoint 0x1000 = some r' ∧
        mapFind lineA r'.m_lines = some l' ∧
        l'.hits = l.hits + 1 ∧ l'.possibleHits = l.possibleHits ∧
        r'.m_nrExecutedLines = scenarioStatic.m_nrExecutedLines + 1 ∧
        r'.m_nrLines = scenarioStatic.m_nrLines ∧
        hitBit r' lineA 0x1000 = some 1 ∧
        (∀ id' a', (id', a') ≠ (lineA, 0x1000) →
          hitBit r' id' a' = hitBit scenarioStatic id' a') ∧
        r'.onBreakpoint 0x1000 = some r') ∧
      (h = 1 → scenarioStatic.onBreakpoint 0x1000 = some scenarioStatic) ∧
      (∀ as : List Nat, as.Nodup →
        (∀ x ∈ as, mapFind x scenarioStatic.m_addrToLine = some (some lineA) ∧
          mapFind x l.m_addrs = some 0) →
        ∃ r' l', run onlyA scenarioStatic (breakpointEvents as) = some r' ∧
          mapFind lineA r'.m_lines = some l' ∧ l'.hits = l.hits + as.length ∧
          l'.possibleHits = l.possibleHits ∧
          r'.m_nrExecutedLines = scenarioStatic.m_nrExecutedLines + as.length ∧
          r'.m_nrLines = scenarioStatic.m_nrLines)) ∧
    run onlyA scenarioStatic (breakpointEvents [0x1000, 0x1004]) = some scenarioHit ∧
    scenarioHit.getLineExecutionCount "a.c" 10 = (2, 2) ∧
    scenarioHit.getExecutionSummary = (1, 2) :=
  ⟨by decide, by decide,
    onBreakpoint_accounting onlyA (lineEvents scenarioLines) scenarioStatic (by decide)
      0x1000 lineA (by decide),
    by decide, by decide, by decide⟩

/-! ## Entries with an unknown address -/

theorem noNull_onLine {r : Reporter} (h : NoNull r) (fileExists : String → Bool)
    (file : String) (lineNr addr : Nat) : NoNull (r.onLine fileExists file lineNr addr) := by
  rcases Reporter.onLine_cases fileExists r file lineNr addr with hc | ⟨l₀, _, _, hi, _⟩
  · rw [hc.1]; exact h
  · intro x hx
    rw [hi] at hx
    rcases mem_mapAssign hx with hx | hx
    · subst hx; simp
    · exact h x hx

/-- States reached without `unMarshal` calls: the invariant holds and the
address index holds no `NULL`. -/
theorem run_noNull {fileExists : String → Bool} (evs : List Event) :
    ∀ {r r' : Reporter}, Inv r → NoNull r → (∀ data, Event.unMarshal data ∉ evs) →
      run fileExists r evs = some r' → Inv r' ∧ NoNull r' := by
  induction evs with
  | nil =>
    intro r r' h hn _ hr
    simp only [run, Option.some.injEq] at hr
    subst hr
    exact ⟨h, hn⟩
  | cons e t ih =>
    intro r r' h hn hev hr
    simp only [run] at hr
    cases hs : step fileExists r e with
    | none => simp [hs] at hr
    | some r₁ =>
      simp only [hs] at hr
      have hev' : ∀ data, Event.unMarshal data ∉ t :=
        fun data hd => hev data (List.mem_cons_of_mem _ hd)
      have hn₁ : NoNull r₁ := by
        cases e with
        | onLine file lineNr addr =>
          simp only [step, Option.some.injEq] at hs
          subst hs
          exact noNull_onLine hn _ _ _ _
        | onBreakpoint addr =>
          intro x hx
          rw [(onBreakpoint_ok h hs).2.2.2] at hx
          exact hn x hx
        | unMarshal data => exact absurd (List.mem_cons_self _ _) (hev data)
      exact ih (inv_step h hs) hn₁ hev' hr

theorem noNull_init : NoNull Reporter.init := by
  intro x hx
  simp [Reporter.init] at hx

/-- The reset loop completes when no node holds `NULL` and every pointer points
to a line. -/
theorem clearAll_total (idx : List (Nat × Option LineId)) :
    ∀ m : List (LineId × Line),
      (∀ x ∈ idx, ∃ id, x.2 = some id ∧ (mapFind id m).isSome = true) →
      ∃ m', Reporter.clearAll idx m = some m' := by
  induction idx with
  | nil => intro m _; exact ⟨m, rfl⟩
  | cons x t ih =>
    intro m h
    obtain ⟨a, v⟩ := x
    obtain ⟨id, hv, hs⟩ := h (a, v) (List.mem_cons_self _ _)
    simp only at hv
    subst hv
    obtain ⟨l, hl⟩ := Option.isSome_iff_exists.1 hs
    simp only [Reporter.clearAll, hl]
    apply ih
    intro y hy
    obtain ⟨id', hv', hs'⟩ := h y (List.mem_cons_of_mem _ hy)
    refine ⟨id', hv', ?_⟩
    rw [mapFind_assign]
    split
    · rfl
    · exact hs'

theorem clearAll_of_inv {r : Reporter} (h : Inv r) (hn : NoNull r) :
    ∃ m', Reporter.clearAll r.m_addrToLine r.m_lines = some m' ∧
      Inv { r with m_lines := m', m_nrExecutedLines := 0 } ∧ SameShape r.m_lines m' := by
  obtain ⟨m', hm'⟩ := clearAll_total r.m_addrToLine r.m_lines (by
    intro x hx
    cases hv : x.2 with
    | none => exact absurd hv (hn x hx)
    | some id =>
      obtain ⟨l, hl, _⟩ := h.2 x hx id hv
      exact ⟨id, rfl, by rw [hl]; rfl⟩)
  obtain ⟨hs, hb⟩ := clearAll_ok _ _ _ hm' h.1
  exact ⟨m', hm', ⟨hb, @indexOK_of_sameShape r _ h.2 hs rfl⟩, hs⟩

/-- Reading one entry that is followed by `q`. -/
theorem unMarshal_append {p₁ : List Byte} (h : p₁.length = 16) (q : List Byte) :
    Line.unMarshal (p₁ ++ q) = (q, getU64 p₁ % 2 ^ 64, getU64 (p₁.drop 8) % 2 ^ 32) := by
  have h₁ : (p₁ ++ q).drop 16 = q := List.drop_left' h
  have h₂ : (p₁ ++ q).take 8 = p₁.take 8 := List.take_append_of_le_length (by omega)
  have h₃ : (p₁ ++ q).drop 8 = p₁.drop 8 ++ q := List.drop_append_of_le_length (by omega)
  have h₄ : (p₁.drop 8 ++ q).take 8 = (p₁.drop 8).take 8 :=
    List.take_append_of_le_length (by simp [h])
  simp only [Line.unMarshal, getU64, h₁, h₂, h₃, h₄]

theorem unMarshal_take_append {p : List Byte} (h : 16 ≤ p.length) (q : List Byte) :
    Line.unMarshal (p.take 16 ++ q) = (q, (Line.unMarshal p).2.1, (Line.unMarshal p).2.2) := by
  have hl : (p.take 16).length = 16 := by simp [List.length_take]; omega
  have := unMarshal_append hl (p.drop 16)
  rw [List.take_append_drop] at this
  rw [unMarshal_append hl q, this]

theorem decodeEntries_removeUnknown (idx : List (Nat × Option LineId)) (n : Nat) :
    ∀ p : List Byte, p.length / 16 = n →
      decodeEntries ((removeUnknown idx n p).length / 16) (removeUnknown idx n p)
        = (decodeEntries n p).filter (fun e => (mapFind e.1 idx).isSome) := by
  induction n with
  | zero =>
    intro p hp
    simp [removeUnknown, hp, decodeEntries]
  | succ n ih =>
    intro p hp
    have hlen : 16 ≤ p.length := by
      by_contra hlt
      have : p.length / 16 = 0 := Nat.div_eq_of_lt (by omega)
      omega
    have hrest : (p.drop 16).length / 16 = n := by
      rw [List.length_drop]
      omega
    have ih' := ih (p.drop 16) hrest
    have hd : (Line.unMarshal p).1 = p.drop 16 := rfl
    simp only [removeUnknown, decodeEntries, List.filter_cons, hd]
    split
    · have hl : (p.take 16 ++ removeUnknown idx n (p.drop 16)).length / 16
          = (removeUnknown idx n (p.drop 16)).length / 16 + 1 := by
        rw [List.length_append, List.length_take]
        omega
      rw [hl]
      simp only [decodeEntries, unMarshal_take_append hlen]
      rw [ih']
    · exact ih'

/-- An entry whose address has no line touches neither lines nor counters. -/
theorem unMarshalEntry_unknown {s s' : Reporter} {a h : Nat}
    (hu : mapFind a s.m_addrToLine = none ∨ mapFind a s.m_addrToLine = some none)
    (he : s.unMarshalEntry a h = some s') :
    s'.m_lines = s.m_lines ∧ s'.m_nrLines = s.m_nrLines ∧
    s'.m_nrExecutedLines = s.m_nrExecutedLines ∧
    mapFind a s'.m_addrToLine = some none ∧
    ∀ a', a' ≠ a → mapFind a' s'.m_addrToLine = mapFind a' s.m_addrToLine := by
  unfold Reporter.unMarshalEntry at he
  rcases hu with hu | hu
  · simp only [hu, Option.some.injEq] at he
    subst he
    exact ⟨rfl, rfl, rfl, mapFind_assign_same _ _ _, fun a' ha' => mapFind_assign_ne ha' _ _⟩
  · simp only [hu, Option.some.injEq] at he
    subst he
    exact ⟨rfl, rfl, rfl, hu, fun _ _ => rfl⟩

/-- An entry whose address has a node does the same to two states with the same
node, lines and counter, and leaves the address index alone. -/
theorem unMarshalEntry_congr {s₁ s₂ s₁' : Reporter} {a h : Nat} {v : Option LineId}
    (h₁ : mapFind a s₁.m_addrToLine = some v) (h₂ : mapFind a s₂.m_addrToLine = some v)
    (hm : s₁.m_lines = s₂.m_lines) (hc : s₁.m_nrExecutedLines = s₂.m_nrExecutedLines)
    (he : s₁.unMarshalEntry a h = some s₁') :
    ∃ s₂', s₂.unMarshalEntry a h = some s₂' ∧ s₁'.m_lines = s₂'.m_lines ∧
      s₁'.m_nrExecutedLines = s₂'.m_nrExecutedLines ∧
      s₁'.m_addrToLine = s₁.m_addrToLine ∧ s₂'.m_addrToLine = s₂.m_addrToLine ∧
      s₁'.m_nrLines = s₁.m_nrLines ∧ s₂'.m_nrLines = s₂.m_nrLines := by
  unfold Reporter.unMarshalEntry at he ⊢
  rw [h₁] at he
  rw [h₂, ← hm, ← hc]
  cases v with
  | none =>
    simp only [Option.some.injEq] at he
    subst he
    exact ⟨s₂, rfl, hm, hc, rfl, rfl, rfl, rfl⟩
  | some id =>
    simp only at he ⊢
    by_cases hz : h = 0
    · simp only [hz, if_true, Option.some.injEq] at he ⊢
      subst he
      exact ⟨s₂, rfl, hm, hc, rfl, rfl, rfl, rfl⟩
    · simp only [hz, if_false] at he ⊢
      cases hl : mapFind id s₁.m_lines with
      | none => simp [hl] at he
      | some l =>
        simp only [hl] at he ⊢
        cases hr : Reporter.registerHits s₁.m_lines (some id) a
            (if h > l.possibleHits then l.possibleHits else h) with
        | none => simp [hr] at he
        | some lines =>
          simp only [hr, Option.some.injEq] at he ⊢
          subst he
          exact ⟨_, rfl, rfl, rfl, rfl, rfl, rfl, rfl⟩

theorem applyEntries_filter (idx : List (Nat × Option LineId)) (es : List (Nat × Nat)) :
    ∀ s₁ s₂ : Reporter, Inv s₁ → AgreeUpToNull idx s₁ s₂ →
      ∃ s₁' s₂', applyEntries s₁ es = some s₁' ∧
        applyEntries s₂ (es.filter (fun e => (mapFind e.1 idx).isSome)) = some s₂' ∧
        AgreeUpToNull idx s₁' s₂' := by
  induction es with
  | nil => intro s₁ s₂ _ hr; exact ⟨s₁, s₂, rfl, rfl, hr⟩
  | cons e t ih =>
    intro s₁ s₂ hi hr
    obtain ⟨hidx, hm, hn, hc, hfind⟩ := hr
    obtain ⟨s₁', he₁, hi₁, _, _⟩ := unMarshalEntry_ok hi e.1 e.2
    cases hk : mapFind e.1 idx with
    | some v =>
      have h₁ : mapFind e.1 s₁.m_addrToLine = some v := by
        rcases hfind e.1 with hf | hf
        · rw [hf, hk]
        · rw [hk] at hf; cases hf.1
      have h₂ : mapFind e.1 s₂.m_addrToLine = some v := by rw [hidx, hk]
      obtain ⟨s₂', he₂, hm', hc', hi₁', hi₂', hn₁', hn₂'⟩ :=
        unMarshalEntry_congr h₁ h₂ hm hc he₁
      have hr' : AgreeUpToNull idx s₁' s₂' :=
        ⟨hi₂'.trans hidx, hm', by rw [hn₁', hn₂', hn], hc', by rw [hi₁']; exact hfind⟩
      obtain ⟨t₁, t₂, ht₁, ht₂, hrt⟩ := ih s₁' s₂' hi₁ hr'
      refine ⟨t₁, t₂, ?_, ?_, hrt⟩
      · simp only [applyEntries, he₁]; exact ht₁
      · simp only [List.filter_cons, hk, Option.isSome_some, if_true, applyEntries, he₂]
        exact ht₂
    | none =>
      have hu : mapFind e.1 s₁.m_addrToLine = none ∨ mapFind e.1 s₁.m_addrToLine = some none := by
        rcases hfind e.1 with hf | hf
        · rw [hk] at hf; exact Or.inl hf
        · exact Or.inr hf.2
      obtain ⟨hm', hn', hc', hnull, hother⟩ := unMarshalEntry_unknown hu he₁
      have hr' : AgreeUpToNull idx s₁' s₂ := by
        refine ⟨hidx, hm'.trans hm, hn'.trans hn, hc'.trans hc, ?_⟩
        intro a
        by_cases ha : a = e.1
        · subst ha
          exact Or.inr ⟨hk, hnull⟩
        · rw [hother a ha]
          exact hfind a
      obtain ⟨t₁, t₂, ht₁, ht₂, hrt⟩ := ih s₁' s₂ hi₁ hr'
      refine ⟨t₁, t₂, ?_, ?_, hrt⟩
      · simp only [applyEntries, he₁]; exact ht₁
      · simp only [List.filter_cons, hk, Option.isSome_none]
        exact ht₂

theorem unMarshalEntry_of_none (s : Reporter) (a h : Nat)
    (hu : mapFind a s.m_addrToLine = none) :
    ∃ s', s.unMarshalEntry a h = some s' ∧ s'.m_lines = s.m_lines ∧
      s'.m_nrLines = s.m_nrLines ∧ s'.m_nrExecutedLines = s.m_nrExecutedLines :=
  ⟨{ s with m_addrToLine := mapAssign a none s.m_addrToLine },
    by simp only [Reporter.unMarshalEntry, hu], rfl, rfl, rfl⟩

/-- C6. In a state reached by `onLine` and `onBreakpoint` calls, `unMarshal` of any
buffer and `unMarshal` of the same buffer without the entries whose address is
not in the address index both complete and yield the same `nrLines` (the one
before the call), the same `nrExecutedLines`, the same lines and hence the same
`getLineExecutionCount` everywhere.  The loop body, run on an entry whose
address is not in the index, changes no line and no counter. -/
theorem unMarshal_ignores_unknown (fileExists : String → Bool) (evs : List Event)
    (r : Reporter) (hev : ∀ data, Event.unMarshal data ∉ evs)
    (hr : run fileExists Reporter.init evs = some r) (data : List Byte) :
    (∃ r₁ r₂, r.unMarshal data = some (r₁, true) ∧
      r.unMarshal (r.dropUnknownEntries data) = some (r₂, true) ∧
      r₁.m_nrLines = r₂.m_nrLines ∧ r₁.m_nrLines = r.m_nrLines ∧
      r₁.m_nrExecutedLines = r₂.m_nrExecutedLines ∧ r₁.m_lines = r₂.m_lines ∧
      ∀ file lineNr,
        r₁.getLineExecutionCount file lineNr = r₂.getLineExecutionCount file lineNr) ∧
    (∀ (s : Reporter) (a h : Nat), mapFind a s.m_addrToLine = none →
      ∃ s', s.unMarshalEntry a h = some s' ∧ s'.m_lines = s.m_lines ∧
        s'.m_nrLines = s.m_nrLines ∧ s'.m_nrExecutedLines = s.m_nrExecutedLines) := by
  refine ⟨?_, unMarshalEntry_of_none⟩
  obtain ⟨hi, hn⟩ := run_noNull evs inv_init noNull_init hev hr
  obtain ⟨m', hm', hi', _⟩ := clearAll_of_inv hi hn
  have hagree : AgreeUpToNull r.m_addrToLine { r with m_lines := m', m_nrExecutedLines := 0 }
      { r with m_lines := m', m_nrExecutedLines := 0 } :=
    ⟨rfl, rfl, rfl, rfl, fun _ => Or.inl rfl⟩
  obtain ⟨s₁, s₂, hs₁, hs₂, _, hlines, hnr, hex, _⟩ :=
    applyEntries_filter r.m_addrToLine (decodeEntries (data.length / 16) data) _ _ hi' hagree
  obtain ⟨s₁', hs₁', _, _, hnr₁⟩ :=
    applyEntries_ok (decodeEntries (data.length / 16) data) _ hi'
  rw [hs₁] at hs₁'
  cases hs₁'
  refine ⟨s₁, s₂, ?_, ?_, hnr, hnr₁, hex, hlines, ?_⟩
  · rw [Reporter.unMarshal_eq, hm']
    simp only [hs₁, Option.map_some']
  · rw [Reporter.unMarshal_eq, hm']
    simp only [Reporter.dropUnknownEntries]
    rw [decodeEntries_removeUnknown r.m_addrToLine (data.length / 16) data rfl, hs₂]
    rfl
  · intro file lineNr
    simp only [Reporter.getLineExecutionCount, hlines]

/-- Witness of C6: in the scenario with both addresses reached, a buffer with an
entry for the unknown address 0x2000, an entry for 0x1000 and three trailing
bytes is loaded. -/
theorem unMarshal_ignores_unknown_witness :
    (∀ data, Event.unMarshal data ∉
      lineEvents scenarioLines ++ breakpointEvents [0x1000, 0x1004]) ∧
    run onlyA Reporter.init (lineEvents scenarioLines ++ breakpointEvents [0x1000, 0x1004])
      = some scenarioHit ∧
    scenarioHit.dropUnknownEntries
        (putU64 0x2000 ++ putU64 1 ++ putU64 0x1000 ++ putU64 1 ++ [1, 2, 3])
      = putU64 0x1000 ++ putU64 1 ++ [1, 2, 3] ∧
    ((∃ r₁ r₂,
      scenarioHit.unMarshal (putU64 0x2000 ++ putU64 1 ++ putU64 0x1000 ++ putU64 1 ++ [1, 2, 3])
        = some (r₁, true) ∧
      scenarioHit.unMarshal (scenarioHit.dropUnknownEntries
          (putU64 0x2000 ++ putU64 1 ++ putU64 0x1000 ++ putU64 1 ++ [1, 2, 3]))
        = some (r₂, true) ∧
      r₁.m_nrLines = r₂.m_nrLines ∧ r₁.m_nrLines = scenarioHit.m_nrLines ∧
      r₁.m_nrExecutedLines = r₂.m_nrExecutedLines ∧ r₁.m_lines = r₂.m_lines ∧
      ∀ file lineNr,
        r₁.getLineExecutionCount file lineNr = r₂.getLineExecutionCount file lineNr) ∧
    (∀ (s : Reporter) (a h : Nat), mapFind a s.m_addrToLine = none →
      ∃ s', s.unMarshalEntry a h = some s' ∧ s'.m_lines = s.m_lines ∧
        s'.m_nrLines = s.m_nrLines ∧ s'.m_nrExecutedLines = s.m_nrExecutedLines)) :=
  have hev : ∀ data, Event.unMarshal data ∉
      lineEvents scenarioLines ++ breakpointEvents [0x1000, 0x1004] := by
    intro data h
    simp [lineEvents, breakpointEvents, scenarioLines] at h
  ⟨hev, by decide, by decide,
    unMarshal_ignores_unknown onlyA _ scenarioHit hev (by decide)
      (putU64 0x2000 ++ putU64 1 ++ putU64 0x1000 ++ putU64 1 ++ [1, 2, 3])⟩

/-! ## Decoding what `marshal` encodes -/

theorem getU64_putU64 (x : Nat) : getU64 (putU64 x) = x % 2 ^ 64 := by
  simp only [putU64, getU64, List.range_succ, List.range_zero, List.nil_append, List.map_append,
    List.map_cons, List.map_nil, List.cons_append, List.take, List.foldr]
  norm_num
  omega

theorem getU64_append (p q : List Byte) (h : p.length = 8) : getU64 (p ++ q) = getU64 p := by
  simp only [getU64]
  rw [List.take_left' h, List.take_of_length_le (by omega)]

theorem unMarshal_putEntry (e : Nat × Nat) (q : List Byte) :
    Line.unMarshal (putEntry e ++ q) = (q, e.1 % 2 ^ 64, e.2 % 2 ^ 64 % 2 ^ 32) := by
  rw [unMarshal_append (length_putEntry e) q]
  have h₁ : getU64 (putEntry e) = e.1 % 2 ^ 64 := by
    rw [putEntry, getU64_append _ _ (length_putU64 _), getU64_putU64]
  have h₂ : (putEntry e).drop 8 = putU64 e.2 := by
    rw [putEntry]
    exact List.drop_left' (length_putU64 _)
  rw [h₁, h₂, getU64_putU64]
  have : e.1 % 2 ^ 64 % 2 ^ 64 = e.1 % 2 ^ 64 := Nat.mod_mod _ _
  rw [this]

theorem decodeEntries_encodeEntries (es : List (Nat × Nat))
    (h : ∀ e ∈ es, e.1 < 2 ^ 64 ∧ e.2 < 2 ^ 32) (q : List Byte) :
    decodeEntries es.length (encodeEntries es ++ q) = es := by
  induction es with
  | nil => rfl
  | cons e t ih =>
    obtain ⟨h₁, h₂⟩ := h e (List.mem_cons_self _ _)
    have ht := ih (fun x hx => h x (List.mem_cons_of_mem _ hx))
    have hc : encodeEntries (e :: t) ++ q = putEntry e ++ (encodeEntries t ++ q) := by
      simp [encodeEntries]
    simp only [List.length_cons, decodeEntries, hc, unMarshal_putEntry, ht]
    have e₁ : e.1 % 2 ^ 64 = e.1 := Nat.mod_eq_of_lt h₁
    have e₂ : e.2 % 2 ^ 64 % 2 ^ 32 = e.2 := by
      rw [Nat.mod_eq_of_lt (by omega : e.2 < 2 ^ 64), Nat.mod_eq_of_lt h₂]
    rw [e₁, e₂]

theorem decodeEntries_length_encodeEntries (es : List (Nat × Nat))
    (h : ∀ e ∈ es, e.1 < 2 ^ 64 ∧ e.2 < 2 ^ 32) :
    decodeEntries ((encodeEntries es).length / 16) (encodeEntries es) = es := by
  have hl : (encodeEntries es).length / 16 = es.length := by
    rw [length_encodeEntries]
    omega
  have := decodeEntries_encodeEntries es h []
  rw [List.append_nil] at this
  rw [hl, this]

/-! ## The invariants of the static and of the runtime phase -/

theorem staticInv_init : StaticInv Reporter.init := by
  refine ⟨by simp [Reporter.init], ?_, ?_, rfl⟩
  · intro e he; simp [Reporter.init] at he
  · intro e he; simp [Reporter.init] at he

theorem staticInv_onLine {r : Reporter} (h : StaticInv r) (fileExists : String → Bool)
    (file : String) (lineNr addr : Nat) (haddr : addr < 2 ^ 64) :
    StaticInv (r.onLine fileExists file lineNr addr) := by
  rcases Reporter.onLine_cases fileExists r file lineNr addr with hc | ⟨l₀, hl₀, hm, hi, hx⟩
  · rw [hc.1]; exact h
  · obtain ⟨hn₁, hn₂, hd, he⟩ := h
    have h₀ : (l₀.m_addrs.map Prod.fst).Nodup ∧ ∀ p ∈ l₀.m_addrs, p.1 < 2 ^ 64 ∧ p.2 = 0 ∧
        ∃ id, mapFind p.1 r.m_addrToLine = some (some id) := by
      rcases hl₀ with hl₀ | hl₀
      · exact ⟨hn₂ _ (mapFind_mem hl₀.1), hd _ (mapFind_mem hl₀.1)⟩
      · rw [hl₀.2.2.1]; simp [Line.new]
    have hidx : ∀ a, (∃ id, mapFind a r.m_addrToLine = some (some id)) →
        ∃ id, mapFind a (mapAssign addr (some (LineId.mk file lineNr)) r.m_addrToLine)
          = some (some id) := by
      intro a ha
      rw [mapFind_assign]
      split
      · exact ⟨_, rfl⟩
      · exact ha
    refine ⟨?_, ?_, ?_, by rw [hx]; exact he⟩
    · rw [hm]; exact nodup_keys_mapAssign hn₁ _ _
    · intro e hmem
      rw [hm] at hmem
      rcases mem_mapAssign hmem with hmem | hmem
      · subst hmem
        exact nodup_keys_mapAssign h₀.1 _ _
      · exact hn₂ e hmem
    · intro e hmem p hp
      rw [hm] at hmem
      rw [hi]
      rcases mem_mapAssign hmem with hmem | hmem
      · subst hmem
        rcases mem_mapAssign hp with hp | hp
        · subst hp
          exact ⟨haddr, rfl, _, mapFind_assign_same _ _ _⟩
        · obtain ⟨h₁, h₂, h₃⟩ := h₀.2 p hp
          exact ⟨h₁, h₂, hidx _ h₃⟩
      · obtain ⟨h₁, h₂, h₃⟩ := hd e hmem p hp
        exact ⟨h₁, h₂, hidx _ h₃⟩

theorem run_lineEvents (fileExists : String → Bool) (ls : List (String × Nat × Nat)) :
    ∀ r : Reporter, StaticInv r → (∀ x ∈ ls, x.2.2 < 2 ^ 64) →
      ∃ r', run fileExists r (lineEvents ls) = some r' ∧ StaticInv r' := by
  induction ls with
  | nil => intro r h _; exact ⟨r, rfl, h⟩
  | cons x t ih =>
    intro r h hb
    obtain ⟨r', hr', hs'⟩ := ih (r.onLine fileExists x.1 x.2.1 x.2.2)
      (staticInv_onLine h _ _ _ _ (hb x (List.mem_cons_self _ _)))
      (fun y hy => hb y (List.mem_cons_of_mem _ hy))
    exact ⟨r', by simpa [lineEvents, run, step] using hr', hs'⟩

theorem hits_eq_zero {l : Line} (h : ∀ p ∈ l.m_addrs, p.2 = 0) : l.hits = 0 := by
  rw [Line.hits_eq_sum]
  apply List.sum_eq_zero
  intro x hx
  obtain ⟨p, hp, rfl⟩ := List.mem_map.1 hx
  exact h p hp

theorem staticInv_runtimeInv {r : Reporter} (h : StaticInv r) : RuntimeInv r := by
  obtain ⟨hn₁, hn₂, hd, he⟩ := h
  refine ⟨hn₁, hn₂, ?_, ?_⟩
  · intro e hmem p hp
    obtain ⟨h₁, h₂, h₃⟩ := hd e hmem p hp
    exact ⟨h₁, by omega, h₃, fun h1 => by omega⟩
  · rw [he]
    symm
    apply List.sum_eq_zero
    intro x hx
    obtain ⟨e, hmem, rfl⟩ := List.mem_map.1 hx
    exact hits_eq_zero (fun p hp => (hd e hmem p hp).2.1)

theorem registerHit_hits {l : Line} {a h : Nat} (hf : mapFind a l.m_addrs = some h)
    (hle : h ≤ 1) : (l.registerHit a).2.hits = l.hits + (l.registerHit a).1 := by
  have := sum_mapAssign (fun v : Nat => v) hf 1
  have e : (fun e : Nat × Nat => e.2) = Prod.snd := rfl
  rw [e] at this
  simp only [Line.hits_eq_sum, Line.registerHit, hf, Option.getD_some]
  split <;> omega

theorem runtimeInv_onBreakpoint {r r' : Reporter} {addr : Nat} (hi : Inv r)
    (h : RuntimeInv r) (hb : r.onBreakpoint addr = some r') : RuntimeInv r' := by
  rcases Reporter.onBreakpoint_cases r addr with hc | ⟨id, l, hf, hl, hc⟩ | hc
  · rw [hc.2] at hb
    cases hb
    exact h
  · rw [hc] at hb
    cases hb
    obtain ⟨hn₁, hn₂, hd, he⟩ := h
    obtain ⟨l₁, hl₁, ha⟩ := indexOK_find hi.2 hf
    rw [hl] at hl₁
    cases hl₁
    obtain ⟨v, hv⟩ := Option.isSome_iff_exists.1 ha
    have hmem : (id, l) ∈ r.m_lines := mapFind_mem hl
    have hvle : v ≤ 1 := (hd _ hmem _ (mapFind_mem hv)).2.1
    refine ⟨?_, ?_, ?_, ?_⟩
    · exact nodup_keys_mapAssign hn₁ _ _
    · intro e hmem'
      rcases mem_mapAssign hmem' with hmem' | hmem'
      · subst hmem'
        rw [keys_registerHit ha]
        exact hn₂ _ hmem
      · exact hn₂ e hmem'
    · intro e hmem' p hp
      rcases mem_mapAssign hmem' with hmem' | hmem'
      · subst hmem'
        simp only [Line.registerHit] at hp
        rcases mem_mapAssign hp with hp | hp
        · subst hp
          exact ⟨(hd _ hmem _ (mapFind_mem hv)).1, le_refl _, ⟨id, hf⟩, fun _ => hf⟩
        · exact hd _ hmem p hp
      · exact hd e hmem' p hp
    · have hs := sum_mapAssign (fun l : Line => l.hits) hl (l.registerHit addr).2
      have hh := registerHit_hits hv hvle
      simp only at hs ⊢
      rw [he]
      omega
  · rw [hc.2] at hb
    cases hb

theorem run_breakpointEvents (fileExists : String → Bool) (bs : List Nat) :
    ∀ r : Reporter, Inv r → NoNull r → RuntimeInv r →
      ∃ r', run fileExists r (breakpointEvents bs) = some r' ∧
        Inv r' ∧ NoNull r' ∧ RuntimeInv r' := by
  induction bs with
  | nil => intro r h₁ h₂ h₃; exact ⟨r, rfl, h₁, h₂, h₃⟩
  | cons b t ih =>
    intro r h₁ h₂ h₃
    have hstep : ∃ r₁, r.onBreakpoint b = some r₁ := by
      rcases Reporter.onBreakpoint_cases r b with hc | ⟨id, l, _, _, hc⟩ | hc
      · exact ⟨_, hc.2⟩
      · exact ⟨_, hc⟩
      · rcases hc.1 with hc' | ⟨id, hf, hl⟩
        · exact absurd rfl (h₂ _ (mapFind_mem hc'))
        · obtain ⟨l, hl', _⟩ := indexOK_find h₁.2 hf
          rw [hl] at hl'; cases hl'
    obtain ⟨r₁, hr₁⟩ := hstep
    have hok := onBreakpoint_ok h₁ hr₁
    have hnn : NoNull r₁ := by
      intro x hx
      rw [hok.2.2.2] at hx
      exact h₂ x hx
    obtain ⟨r', hr', hres⟩ := ih r₁ hok.1 hnn (runtimeInv_onBreakpoint h₁ h₃ hr₁)
    exact ⟨r', by simpa [breakpointEvents, run, step, hr₁] using hr', hres⟩

/-- The states of the claims on the round trip: `onLine` calls with 64-bit
addresses, then `onBreakpoint` calls.  No call faults. -/
theorem run_static_then_runtime (fileExists : String → Bool) (ls : List (String × Nat × Nat))
    (bs : List Nat) (hls : ∀ x ∈ ls, x.2.2 < 2 ^ 64) :
    ∃ r, run fileExists Reporter.init (lineEvents ls ++ breakpointEvents bs) = some r ∧
      Inv r ∧ NoNull r ∧ RuntimeInv r := by
  obtain ⟨r₀, hr₀, hs₀⟩ := run_lineEvents fileExists ls Reporter.init staticInv_init hls
  have hev : ∀ data, Event.unMarshal data ∉ lineEvents ls := by
    intro data hd
    simp [lineEvents] at hd
  obtain ⟨hi₀, hn₀⟩ := run_noNull (lineEvents ls) inv_init noNull_init hev hr₀
  obtain ⟨r, hr, hres⟩ := run_breakpointEvents fileExists bs r₀ hi₀ hn₀ (staticInv_runtimeInv hs₀)
  exact ⟨r, by rw [run_append, hr₀]; exact hr, hres⟩

/-! ## The round trip -/

theorem clearHits_clearHits (l : Line) : l.clearHits.clearHits = l.clearHits := by
  simp [Line.clearHits, List.map_map, Function.comp_def]

theorem clearHits_eq_self {l : Line} (h : ∀ p ∈ l.m_addrs, p.2 = 0) : l.clearHits = l := by
  have : l.m_addrs.map (fun p => (p.1, 0)) = l.m_addrs := by
    conv_rhs => rw [← List.map_id l.m_addrs]
    apply List.map_congr_left
    intro p hp
    have := h p hp
    cases p
    simp only at this
    simp [this]
  simp only [Line.clearHits, this]

/-- With pairwise distinct keys, the reset loop clears exactly the lines that
some node of the address index points to. -/
theorem clearAll_eq_map (idx : List (Nat × Option LineId)) :
    ∀ (m m' : List (LineId × Line)), (m.map Prod.fst).Nodup →
      Reporter.clearAll idx m = some m' →
      m' = m.map (fun e =>
        (e.1, if some e.1 ∈ idx.map Prod.snd then e.2.clearHits else e.2)) := by
  induction idx with
  | nil =>
    intro m m' _ h
    simp only [Reporter.clearAll, Option.some.injEq] at h
    subst h
    simp
  | cons x t ih =>
    intro m m' hn h
    obtain ⟨a, v⟩ := x
    cases v with
    | none => simp [Reporter.clearAll] at h
    | some id =>
      cases hf : mapFind id m with
      | none => simp [Reporter.clearAll, hf] at h
      | some l =>
        simp only [Reporter.clearAll, hf] at h
        have hn' : ((mapAssign id l.clearHits m).map Prod.fst).Nodup :=
          nodup_keys_mapAssign hn _ _
        rw [ih _ _ hn' h, mapAssign_eq_map hn hf, List.map_map]
        apply List.map_congr_left
        intro e he
        have he₂ : e.1 = id → e.2 = l := by
          intro hid
          have := mapFind_of_mem hn (show (e.1, e.2) ∈ m from he)
          rw [hid, hf] at this
          exact (Option.some.inj this).symm
        by_cases hid : e.1 = id
        · have := he₂ hid
          simp only [Function.comp_apply, hid, if_true, List.map_cons, List.mem_cons, true_or,
            this, clearHits_clearHits, ite_self]
        · have hne : ¬ (some e.1 = some id) := fun hh => hid (Option.some.inj hh)
          simp only [Function.comp_apply, hid, if_false, List.map_cons, List.mem_cons, hne,
            false_or]

theorem restoreLine_nil (l : Line) : restoreLine [] l = l.clearHits := by
  simp [restoreLine, Line.clearHits]

/-- In a state of the runtime phase the reset loop clears every line. -/
theorem clearAll_runtime {r : Reporter} (hi : Inv r) (hn : NoNull r) (h : RuntimeInv r) :
    Reporter.clearAll r.m_addrToLine r.m_lines = some (restored r []).m_lines := by
  obtain ⟨m', hm', _, _⟩ := clearAll_of_inv hi hn
  rw [hm', clearAll_eq_map _ _ _ h.1 hm']
  simp only [restored, Option.some.injEq]
  apply List.map_congr_left
  intro e he
  rw [restoreLine_nil]
  split
  · rfl
  · rename_i hnot
    rw [clearHits_eq_self]
    intro p hp
    obtain ⟨_, hle, _, h1⟩ := h.2.2.1 e he p hp
    by_contra hp0
    have hp1 : p.2 = 1 := by omega
    exact hnot (List.mem_map.2 ⟨(p.1, some e.1), mapFind_mem (h1 hp1), rfl⟩)

theorem restoreLine_congr {s₁ s₂ : List (Nat × Nat)} (l : Line)
    (h : ∀ p ∈ l.m_addrs, p.2 = 1 → ((p.1, 1) ∈ s₁ ↔ (p.1, 1) ∈ s₂)) :
    restoreLine s₁ l = restoreLine s₂ l := by
  simp only [restoreLine]
  congr 1
  apply List.map_congr_left
  intro p hp
  by_cases h1 : p.2 = 1
  · simp only [h1, true_and, h p hp h1]
  · simp only [h1, false_and]

theorem mem_marshalEntries {r : Reporter} {p : Nat × Nat} :
    p ∈ r.marshalEntries ↔ ∃ e ∈ r.m_lines, p ∈ e.2.m_addrs := by
  simp [Reporter.marshalEntries, List.mem_flatMap]

/-- One entry of the marshalled state with hit count 0: nothing happens. -/
theorem restored_step_zero {r : Reporter} (h : RuntimeInv r) (seen : List (Nat × Nat))
    {a : Nat} (hmem : (a, 0) ∈ r.marshalEntries) :
    (restored r seen).unMarshalEntry a 0 = some (restored r (seen ++ [(a, 0)])) := by
  obtain ⟨e, he, hp⟩ := mem_marshalEntries.1 hmem
  obtain ⟨_, _, ⟨id, hid⟩, _⟩ := h.2.2.1 e he _ hp
  have hst : restored r (seen ++ [(a, 0)]) = restored r seen := by
    simp only [restored, List.map_append, List.sum_append, List.map_cons, List.map_nil,
      List.sum_cons, List.sum_nil, Nat.add_zero]
    congr 1
    apply List.map_congr_left
    intro e' _
    rw [restoreLine_congr]
    intro p _ _
    simp
  rw [hst]
  have : mapFind a (restored r seen).m_addrToLine = some (some id) := hid
  simp only [Reporter.unMarshalEntry, this, if_true]

/-- One entry of the marshalled state with hit count 1: the address is marked
in the line that marked it, and counted. -/
theorem restored_step_one {r : Reporter} (h : RuntimeInv r) (seen : List (Nat × Nat))
    {a : Nat} (hmem : (a, 1) ∈ r.marshalEntries) :
    (restored r seen).unMarshalEntry a 1 = some (restored r (seen ++ [(a, 1)])) := by
  obtain ⟨e, he, hp⟩ := mem_marshalEntries.1 hmem
  obtain ⟨hn₁, hn₂, hd, _⟩ := h
  obtain ⟨_, _, _, hid⟩ := hd e he _ hp
  have hidx : mapFind a (restored r seen).m_addrToLine = some (some e.1) := hid rfl
  have hfind : mapFind e.1 r.m_lines = some e.2 := mapFind_of_mem hn₁ he
  have hl : mapFind e.1 (restored r seen).m_lines = some (restoreLine seen e.2) := by
    simp only [restored]
    rw [mapFind_map_values (fun _ l => restoreLine seen l), hfind]
    rfl
  have hfa : mapFind a e.2.m_addrs = some 1 := mapFind_of_mem (hn₂ e he) hp
  obtain ⟨v₀, hfa'⟩ : ∃ v₀, mapFind a (restoreLine seen e.2).m_addrs = some v₀ := by
    simp only [restoreLine]
    rw [mapFind_map_values (fun a' v => if v = 1 ∧ (a', 1) ∈ seen then 1 else 0), hfa]
    exact ⟨_, rfl⟩
  have hpos : ¬ (1 > (restoreLine seen e.2).possibleHits) := by
    have : 0 < e.2.m_addrs.length := List.length_pos_of_mem hp
    simp only [Line.possibleHits, restoreLine, List.length_map]
    omega
  have hkeys : ((restored r seen).m_lines.map Prod.fst).Nodup := by
    simp only [restored]
    rw [keys_map_values (fun _ l => restoreLine seen l)]
    exact hn₁
  have hkeysA : ((restoreLine seen e.2).m_addrs.map Prod.fst).Nodup := by
    simp only [restoreLine]
    rw [keys_map_values (fun a' v => if v = 1 ∧ (a', 1) ∈ seen then 1 else 0)]
    exact hn₂ e he
  simp only [Reporter.unMarshalEntry, hidx, hl, hpos, if_false, Reporter.registerHits,
    registerHitAt_some hl, Nat.one_ne_zero]
  simp only [restored, Option.some.injEq, List.map_append, List.sum_append, List.map_cons,
    List.map_nil, List.sum_cons, List.sum_nil, Nat.add_zero, Reporter.mk.injEq, and_true,
    true_and]
  have hlines := mapAssign_eq_map hkeys hl ((restoreLine seen e.2).registerHit a).2
  simp only [restored] at hlines
  rw [hlines, List.map_map]
  apply List.map_congr_left
  intro e' he'
  simp only [Function.comp_apply, Prod.mk.injEq, true_and]
  by_cases hk : e'.1 = e.1
  · have he₂ : e'.2 = e.2 := by
      have := mapFind_of_mem hn₁ (show (e'.1, e'.2) ∈ r.m_lines from he')
      rw [hk, hfind] at this
      exact (Option.some.inj this).symm
    simp only [hk, if_true, he₂]
    simp only [Line.registerHit, restoreLine, Line.mk.injEq, true_and]
    have := mapAssign_eq_map hkeysA hfa' 1
    simp only [restoreLine] at this
    rw [this, List.map_map]
    apply List.map_congr_left
    intro p hp'
    simp only [Function.comp_apply, Prod.mk.injEq, true_and, List.mem_append, List.mem_singleton]
    by_cases hpa : p.1 = a
    · have hp1 : p.2 = 1 := by
        have := mapFind_of_mem (hn₂ e he) (show (p.1, p.2) ∈ e.2.m_addrs from hp')
        rw [hpa, hfa] at this
        exact (Option.some.inj this).symm
      simp [hpa, hp1]
    · simp [hpa]
  · simp only [hk, if_false]
    apply restoreLine_congr
    intro p hp' hp1
    have hpa : p.1 ≠ a := by
      intro hpa
      have h₁ := (hd e' he' p hp').2.2.2 hp1
      rw [hpa] at h₁
      have h₂ : mapFind a r.m_addrToLine = some (some e.1) := hid rfl
      rw [h₂] at h₁
      exact hk (Option.some.inj (Option.some.inj h₁)).symm
    simp [hpa]

theorem applyEntries_restored {r : Reporter} (h : RuntimeInv r) (es : List (Nat × Nat)) :
    ∀ seen : List (Nat × Nat), (∀ e ∈ es, e ∈ r.marshalEntries) →
      applyEntries (restored r seen) es = some (restored r (seen ++ es)) := by
  induction es with
  | nil => intro seen _; simp [applyEntries]
  | cons e t ih =>
    intro seen hall
    obtain ⟨a, v⟩ := e
    have hmem := hall (a, v) (List.mem_cons_self _ _)
    obtain ⟨e', he', hp⟩ := mem_marshalEntries.1 hmem
    have hv : v ≤ 1 := (h.2.2.1 e' he' _ hp).2.1
    have hstep : (restored r seen).unMarshalEntry a v = some (restored r (seen ++ [(a, v)])) := by
      rcases Nat.le_one_iff_eq_zero_or_eq_one.1 hv with hv | hv
      · subst hv; exact restored_step_zero h seen hmem
      · subst hv; exact restored_step_one h seen hmem
    simp only [applyEntries, hstep]
    rw [ih (seen ++ [(a, v)]) (fun x hx => hall x (List.mem_cons_of_mem _ hx))]
    simp

theorem sum_marshalEntries (m : List (LineId × Line)) :
    ((m.flatMap (fun e => e.2.m_addrs)).map Prod.snd).sum = (m.map (fun e => e.2.hits)).sum := by
  induction m with
  | nil => simp
  | cons e t ih =>
    simp only [List.flatMap_cons, List.map_append, List.sum_append, ih, List.map_cons,
      List.sum_cons, Line.hits_eq_sum]

/-- Once all marshalled entries have been processed, in any order, the state is
the marshalled state again. -/
theorem restored_perm {r : Reporter} (h : RuntimeInv r) {es : List (Nat × Nat)}
    (hp : es.Perm r.marshalEntries) : restored r es = r := by
  obtain ⟨_, _, hd, he⟩ := h
  have hl : r.m_lines.map (fun e => (e.1, restoreLine es e.2)) = r.m_lines := by
    conv_rhs => rw [← List.map_id r.m_lines]
    apply List.map_congr_left
    intro e hmem
    have : restoreLine es e.2 = e.2 := by
      have hm : e.2.m_addrs.map (fun p => (p.1, if p.2 = 1 ∧ (p.1, 1) ∈ es then 1 else 0))
          = e.2.m_addrs := by
        conv_rhs => rw [← List.map_id e.2.m_addrs]
        apply List.map_congr_left
        intro p hpm
        have hle := (hd e hmem p hpm).2.1
        rcases Nat.le_one_iff_eq_zero_or_eq_one.1 hle with h0 | h1
        · cases p
          simp only at h0
          simp [h0]
        · have : (p.1, 1) ∈ es := by
            rw [hp.mem_iff, mem_marshalEntries]
            refine ⟨e, hmem, ?_⟩
            cases p
            simp only at h1
            subst h1
            exact hpm
          cases p
          simp only at h1 this
          simp [h1, this]
      simp only [restoreLine, hm]
    rw [this]
    rfl
  have hs : (es.map Prod.snd).sum = r.m_nrExecutedLines := by
    rw [he, (hp.map Prod.snd).sum_eq, Reporter.marshalEntries, sum_marshalEntries]
  simp only [restored, hl, hs]

/-- The round trip on a state of the runtime phase, for every order in which the
marshalled entries may have been written: `unMarshal` completes, returns `true`
and yields the marshalled state. -/
theorem unMarshal_marshalled {r : Reporter} (hi : Inv r) (hn : NoNull r) (h : RuntimeInv r)
    {es : List (Nat × Nat)} (hp : es.Perm r.marshalEntries) :
    r.unMarshal (encodeEntries es) = some (r, true) := by
  have hb : ∀ e ∈ es, e.1 < 2 ^ 64 ∧ e.2 < 2 ^ 32 := by
    intro e he
    obtain ⟨e', he', hp'⟩ := mem_marshalEntries.1 (hp.mem_iff.1 he)
    obtain ⟨h₁, h₂, _⟩ := h.2.2.1 e' he' e hp'
    exact ⟨h₁, by omega⟩
  rw [Reporter.unMarshal_eq, clearAll_runtime hi hn h, decodeEntries_length_encodeEntries es hb]
  have h0 : ({ r with m_lines := (restored r []).m_lines, m_nrExecutedLines := 0 } : Reporter)
      = restored r [] := by
    simp [restored]
  simp only [h0]
  rw [applyEntries_restored h es [] (fun e he => hp.mem_iff.1 he), List.nil_append,
    restored_perm h hp]
  rfl

/-- C1. For every state reached by `onLine` calls (with 64-bit addresses) followed
by `onBreakpoint` calls, `marshal()` and then `unMarshal()` of the returned
buffer completes, returns `true` and leaves `getLineExecutionCount(file, line)`
as it was, for every `(file, line)`; the same holds for every order in which
the unordered maps may have emitted the entries. -/
theorem marshal_unMarshal_lineCounts (fileExists : String → Bool)
    (ls : List (String × Nat × Nat)) (bs : List Nat) (hls : ∀ x ∈ ls, x.2.2 < 2 ^ 64) :
    ∃ r, run fileExists Reporter.init (lineEvents ls ++ breakpointEvents bs) = some r ∧
      (∃ r', r.unMarshal r.marshal.1 = some (r', true) ∧
        ∀ file lineNr,
          r'.getLineExecutionCount file lineNr = r.getLineExecutionCount file lineNr) ∧
      (∀ es : List (Nat × Nat), es.Perm r.marshalEntries →
        ∃ r', r.unMarshal (encodeEntries es) = some (r', true) ∧
          ∀ file lineNr,
            r'.getLineExecutionCount file lineNr = r.getLineExecutionCount file lineNr) := by
  obtain ⟨r, hr, hi, hn, hrt⟩ := run_static_then_runtime fileExists ls bs hls
  refine ⟨r, hr, ⟨r, ?_, fun _ _ => rfl⟩, ?_⟩
  · have : r.marshal.1 = encodeEntries r.marshalEntries := Reporter.marshalWritten_eq r
    rw [this]
    exact unMarshal_marshalled hi hn hrt (List.Perm.refl _)
  · intro es hp
    exact ⟨r, unMarshal_marshalled hi hn hrt hp, fun _ _ => rfl⟩

/-- Witness of C1: the scenario with only 0x1000 reached; line 10 of `a.c` has
`(1, 2)` before and after the round trip. -/
theorem marshal_unMarshal_lineCounts_witness :
    (∀ x ∈ scenarioLines, x.2.2 < 2 ^ 64) ∧
    (∃ r, run onlyA Reporter.init (lineEvents scenarioLines ++ breakpointEvents [0x1000])
        = some r ∧
      (∃ r', r.unMarshal r.marshal.1 = some (r', true) ∧
        ∀ file lineNr,
          r'.getLineExecutionCount file lineNr = r.getLineExecutionCount file lineNr) ∧
      (∀ es : List (Nat × Nat), es.Perm r.marshalEntries →
        ∃ r', r.unMarshal (encodeEntries es) = some (r', true) ∧
          ∀ file lineNr,
            r'.getLineExecutionCount file lineNr = r.getLineExecutionCount file lineNr)) ∧
    (run onlyA Reporter.init (lineEvents scenarioLines ++ breakpointEvents [0x1000])).map
        (fun r => r.getLineExecutionCount "a.c" 10) = some (1, 2) ∧
    ((run onlyA Reporter.init (lineEvents scenarioLines ++ breakpointEvents [0x1000])).bind
        (fun r => r.unMarshal r.marshal.1)).map
        (fun x => x.1.getLineExecutionCount "a.c" 10) = some (1, 2) :=
  ⟨by decide,
    marshal_unMarshal_lineCounts onlyA scenarioLines [0x1000] (by decide),
    by decide, by decide⟩

/-- C9. For every state reached by `onLine` calls (with 64-bit addresses) followed
by `onBreakpoint` calls, `marshal()` and then `unMarshal()` of that exact buffer
completes, returns `true` and leaves `getExecutionSummary()`, the pair
`(nrLines, nrExecutedLines)`, as it was; the same holds for every order in
which the unordered maps may have emitted the entries. -/
theorem marshal_unMarshal_summary (fileExists : String → Bool)
    (ls : List (String × Nat × Nat)) (bs : List Nat) (hls : ∀ x ∈ ls, x.2.2 < 2 ^ 64) :
    ∃ r, run fileExists Reporter.init (lineEvents ls ++ breakpointEvents bs) = some r ∧
      (∃ r', r.unMarshal r.marshal.1 = some (r', true) ∧
        r'.getExecutionSummary = r.getExecutionSummary) ∧
      (∀ es : List (Nat × Nat), es.Perm r.marshalEntries →
        ∃ r', r.unMarshal (encodeEntries es) = some (r', true) ∧
          r'.getExecutionSummary = r.getExecutionSummary) := by
  obtain ⟨r, hr, hi, hn, hrt⟩ := run_static_then_runtime fileExists ls bs hls
  refine ⟨r, hr, ⟨r, ?_, rfl⟩, ?_⟩
  · have : r.marshal.1 = encodeEntries r.marshalEntries := Reporter.marshalWritten_eq r
    rw [this]
    exact unMarshal_marshalled hi hn hrt (List.Perm.refl _)
  · intro es hp
    exact ⟨r, unMarshal_marshalled hi hn hrt hp, rfl⟩

/-- Witness of C9: the scenario of the specification; the summary is `(1, 2)`
before and after the round trip. -/
theorem marshal_unMarshal_summary_witness :
    (∀ x ∈ scenarioLines, x.2.2 < 2 ^ 64) ∧
    (∃ r, run onlyA Reporter.init
        (lineEvents scenarioLines ++ breakpointEvents [0x1000, 0x1004]) = some r ∧
      (∃ r', r.unMarshal r.marshal.1 = some (r', true) ∧
        r'.getExecutionSummary = r.getExecutionSummary) ∧
      (∀ es : List (Nat × Nat), es.Perm r.marshalEntries →
        ∃ r', r.unMarshal (encodeEntries es) = some (r', true) ∧
          r'.getExecutionSummary = r.getExecutionSummary)) ∧
    scenarioHit.getExecutionSummary = (1, 2) ∧
    (scenarioHit.unMarshal scenarioHit.marshal.1).map (fun x => x.1.getExecutionSummary)
      = some (1, 2) :=
  ⟨by decide,
    marshal_unMarshal_summary onlyA scenarioLines [0x1000, 0x1004] (by decide),
    by decide, by decide⟩

/-! ## The structural invariant -/

theorem mapAssign_ne_nil {K V : Type} [DecidableEq K] (k : K) (v : V) (m : List (K × V)) :
    mapAssign k v m ≠ [] := by
  cases m with
  | nil => simp [mapAssign]
  | cons e t =>
    obtain ⟨k', v'⟩ := e
    by_cases hk : k' = k <;> simp [mapAssign, hk]

theorem mem_keys_mapAssign {K V : Type} [DecidableEq K] {k k' : K} {v : V} {m : List (K × V)}
    (h : k' ∈ (mapAssign k v m).map Prod.fst) : k' = k ∨ k' ∈ m.map Prod.fst := by
  obtain ⟨x, hx, rfl⟩ := List.mem_map.1 h
  rcases mem_mapAssign hx with hx | hx
  · subst hx
    exact Or.inl rfl
  · exact Or.inr (List.mem_map.2 ⟨x, hx, rfl⟩)

/-- A property of the address sets carries over to lines of the same shape. -/
theorem sameShape_transfer (P : List Nat → Prop) {m m' : List (LineId × Line)}
    (hs : SameShape m m') (hn : (m.map Prod.fst).Nodup)
    (h : ∀ e ∈ m, P (e.2.m_addrs.map Prod.fst)) :
    ∀ e ∈ m', P (e.2.m_addrs.map Prod.fst) := by
  intro e he
  have hn' : (m'.map Prod.fst).Nodup := by rw [hs.1]; exact hn
  have hk : e.1 ∈ m.map Prod.fst := by
    rw [← hs.1]
    exact List.mem_map.2 ⟨e, he, rfl⟩
  obtain ⟨l, hl⟩ := Option.isSome_iff_exists.1 (mapFind_isSome_iff.2 hk)
  obtain ⟨l', hl', hkeys⟩ := hs.2 e.1 l hl
  have : mapFind e.1 m' = some e.2 := mapFind_of_mem hn' (show (e.1, e.2) ∈ m' from he)
  rw [this] at hl'
  cases hl'
  rw [hkeys]
  exact h _ (mapFind_mem hl)

theorem keysInv_init : KeysInv Reporter.init := by
  refine ⟨by simp [Reporter.init], ?_, rfl⟩
  intro e he
  simp [Reporter.init] at he

theorem keysInv_onLine {r : Reporter} (h : KeysInv r) (fileExists : String → Bool)
    (file : String) (lineNr addr : Nat) : KeysInv (r.onLine fileExists file lineNr addr) := by
  rcases Reporter.onLine_cases fileExists r file lineNr addr with hc | ⟨l₀, hl₀, hm, _, _⟩
  · rw [hc.1]; exact h
  · obtain ⟨hn₁, hn₂, hcount⟩ := h
    have h₀ : (l₀.m_addrs.map Prod.fst).Nodup := by
      rcases hl₀ with hl₀ | hl₀
      · exact (hn₂ _ (mapFind_mem hl₀.1)).1
      · rw [hl₀.2.2.1]; simp [Line.new]
    refine ⟨?_, ?_, ?_⟩
    · rw [hm]; exact nodup_keys_mapAssign hn₁ _ _
    · intro e he
      rw [hm] at he
      rcases mem_mapAssign he with he | he
      · subst he
        exact ⟨nodup_keys_mapAssign h₀ _ _, mapAssign_ne_nil _ _ _⟩
      · exact hn₂ e he
    · rw [hm]
      rcases hl₀ with hl₀ | hl₀
      · rw [hl₀.2, length_mapAssign_of_some hl₀.1]
        exact hcount
      · have := congrArg List.length (keys_mapAssign_of_none hl₀.1
          ((Line.new (LineId.mk file lineNr)).addAddress addr))
        simp only [List.length_map, List.length_append, List.length_singleton] at this
        rw [hl₀.2.2.2, hl₀.2.2.1, this, hcount]

theorem keysInv_of_sameShape {r r' : Reporter} (h : KeysInv r)
    (hs : SameShape r.m_lines r'.m_lines) (hn : r'.m_nrLines = r.m_nrLines) : KeysInv r' := by
  obtain ⟨hn₁, hn₂, hcount⟩ := h
  refine ⟨by rw [hs.1]; exact hn₁, ?_, ?_⟩
  · have := sameShape_transfer (fun ks => ks.Nodup ∧ ks ≠ []) hs hn₁ (by
      intro e he
      exact ⟨(hn₂ e he).1, by simpa using (hn₂ e he).2⟩)
    intro e he
    exact ⟨(this e he).1, by simpa using (this e he).2⟩
  · have := congrArg List.length hs.1
    simp only [List.length_map] at this
    rw [hn, hcount, this]

theorem keysInv_step {fileExists : String → Bool} {r r' : Reporter} {e : Event} (hi : Inv r)
    (h : KeysInv r) (hs : step fileExists r e = some r') : KeysInv r' := by
  cases e with
  | onLine file lineNr addr =>
    simp only [step, Option.some.injEq] at hs
    subst hs
    exact keysInv_onLine h _ _ _ _
  | onBreakpoint addr =>
    have := onBreakpoint_ok hi hs
    exact keysInv_of_sameShape h this.2.1 this.2.2.1
  | unMarshal data =>
    simp only [step, Option.map_eq_some'] at hs
    obtain ⟨⟨r₁, b⟩, hu, rfl⟩ := hs
    have := unMarshal_ok hi hu
    exact keysInv_of_sameShape h this.2.1 this.2.2.1

theorem keysInv_run {fileExists : String → Bool} (evs : List Event) :
    ∀ {r r' : Reporter}, Inv r → KeysInv r → run fileExists r evs = some r' → KeysInv r' := by
  induction evs with
  | nil =>
    intro r r' _ h hr
    simp only [run, Option.some.injEq] at hr
    subst hr
    exact h
  | cons e t ih =>
    intro r r' hi h hr
    simp only [run] at hr
    cases hs : step fileExists r e with
    | none => simp [hs] at hr
    | some r₁ =>
      simp only [hs] at hr
      exact ih (inv_step hi hs) (keysInv_step hi h hs) hr

theorem addrBound_step {fileExists : String → Bool} {r r' : Reporter} {e : Event} (hi : Inv r)
    (hk : KeysInv r) (h : AddrBound r.m_lines)
    (he : ∀ file lineNr addr, e = Event.onLine file lineNr addr → addr < 2 ^ 64)
    (hs : step fileExists r e = some r') : AddrBound r'.m_lines := by
  cases e with
  | onLine file lineNr addr =>
    simp only [step, Option.some.injEq] at hs
    subst hs
    rcases Reporter.onLine_cases fileExists r file lineNr addr with hc | ⟨l₀, hl₀, hm, _, _⟩
    · rw [hc.1]; exact h
    · rw [hm]
      intro x hx a ha
      rcases mem_mapAssign hx with hx | hx
      · subst hx
        rcases mem_keys_mapAssign ha with ha | ha
        · rw [ha]; exact he file lineNr addr rfl
        · rcases hl₀ with hl₀ | hl₀
          · exact h _ (mapFind_mem hl₀.1) a ha
          · rw [hl₀.2.2.1] at ha
            simp [Line.new] at ha
      · exact h x hx a ha
  | onBreakpoint addr =>
    exact sameShape_transfer (fun ks => ∀ a ∈ ks, a < 2 ^ 64) (onBreakpoint_ok hi hs).2.1 hk.1 h
  | unMarshal data =>
    simp only [step, Option.map_eq_some'] at hs
    obtain ⟨⟨r₁, b⟩, hu, rfl⟩ := hs
    exact sameShape_transfer (fun ks => ∀ a ∈ ks, a < 2 ^ 64) (unMarshal_ok hi hu).2.1 hk.1 h

theorem addrBound_run {fileExists : String → Bool} (evs : List Event) :
    ∀ {r r' : Reporter}, Inv r → KeysInv r → AddrBound r.m_lines →
      (∀ file lineNr addr, Event.onLine file lineNr addr ∈ evs → addr < 2 ^ 64) →
      run fileExists r evs = some r' → AddrBound r'.m_lines := by
  induction evs with
  | nil =>
    intro r r' _ _ h _ hr
    simp only [run, Option.some.injEq] at hr
    subst hr
    exact h
  | cons e t ih =>
    intro r r' hi hk h he hr
    simp only [run] at hr
    cases hs : step fileExists r e with
    | none => simp [hs] at hr
    | some r₁ =>
      simp only [hs] at hr
      exact ih (inv_step hi hs) (keysInv_step hi hk hs)
        (addrBound_step hi hk h (fun f n a hfa => he f n a (hfa ▸ List.mem_cons_self _ _)) hs)
        (fun f n a hfa => he f n a (List.mem_cons_of_mem _ hfa)) hr

/-- The invariants of a state reached from the constructor. -/
theorem reachable_inv {fileExists : String → Bool} {evs : List Event} {r : Reporter}
    (hr : run fileExists Reporter.init evs = some r) : Inv r ∧ KeysInv r :=
  ⟨inv_run evs inv_init hr, keysInv_run evs inv_init keysInv_init hr⟩

/-! ## The line count -/

/-- C17. In every state reached from the constructor, the keys of the lines are
pairwise distinct and `nrLines` of `getExecutionSummary()` is the number of
lines, which is the number of keys for which `lineIsCode` is true; `onLine` for
a key that is code already does not change `nrLines`. -/
theorem nrLines_eq_number_of_keys (fileExists : String → Bool) (evs : List Event)
    (r : Reporter) (hr : run fileExists Reporter.init evs = some r) :
    ((r.m_lines.map Prod.fst).Nodup ∧ r.getExecutionSummary.1 = r.m_lines.length) ∧
    (∃ S : Finset LineId,
      (∀ id : LineId, id ∈ S ↔ r.lineIsCode id.m_file id.m_lineNr = true) ∧
      r.getExecutionSummary.1 = S.card) ∧
    (∀ file lineNr addr, r.lineIsCode file lineNr = true →
      (r.onLine fileExists file lineNr addr).getExecutionSummary.1
        = r.getExecutionSummary.1) := by
  obtain ⟨hn, _, hcount⟩ := (reachable_inv hr).2
  refine ⟨⟨hn, hcount⟩, ⟨(r.m_lines.map Prod.fst).toFinset, ?_, ?_⟩, ?_⟩
  · intro id
    rw [List.mem_toFinset, lineIsCode_iff_mem]
  · rw [List.toFinset_card_of_nodup hn, List.length_map]
    exact hcount
  · intro file lineNr addr hc
    simp only [Reporter.lineIsCode] at hc
    obtain ⟨l, hl⟩ := Option.isSome_iff_exists.1 hc
    rcases Reporter.onLine_cases fileExists r file lineNr addr with h | ⟨l₀, h, _⟩
    · rw [h.1]
    · rcases h with h | h
      · exact h.2
      · rw [h.1] at hl; cases hl

/-- Witness of C17: the scenario; two `onLine` calls for line 10 of `a.c` and one
for the missing file `b.c` give `nrLines = 1`. -/
theorem nrLines_eq_number_of_keys_witness :
    run onlyA Reporter.init (lineEvents (("b.c", 3, 0x2000) :: scenarioLines))
      = some scenarioStatic ∧
    (((scenarioStatic.m_lines.map Prod.fst).Nodup ∧
        scenarioStatic.getExecutionSummary.1 = scenarioStatic.m_lines.length) ∧
      (∃ S : Finset LineId,
        (∀ id : LineId, id ∈ S ↔ scenarioStatic.lineIsCode id.m_file id.m_lineNr = true) ∧
        scenarioStatic.getExecutionSummary.1 = S.card) ∧
      (∀ file lineNr addr, scenarioStatic.lineIsCode file lineNr = true →
        (scenarioStatic.onLine onlyA file lineNr addr).getExecutionSummary.1
          = scenarioStatic.getExecutionSummary.1)) ∧
    scenarioStatic.getExecutionSummary.1 = 1 :=
  ⟨by decide,
    nrLines_eq_number_of_keys onlyA (lineEvents (("b.c", 3, 0x2000) :: scenarioLines))
      scenarioStatic (by decide),
    by decide⟩

/-! ## Lines have addresses -/

/-- C19. In every state reached from the constructor every line has at least one
address; `lineIsCode(file, lineNr)` is true exactly when
`getLineExecutionCount(file, lineNr)` has `possibleHits ≥ 1`, and the result
`(0, 0)` is returned exactly for the keys that are not code. -/
theorem lineIsCode_iff_possibleHits (fileExists : String → Bool) (evs : List Event)
    (r : Reporter) (hr : run fileExists Reporter.init evs = some r) (file : String)
    (lineNr : Nat) :
    (∀ e ∈ r.m_lines, 1 ≤ e.2.possibleHits) ∧
    (r.lineIsCode file lineNr = true ↔ 1 ≤ (r.getLineExecutionCount file lineNr).2) ∧
    (r.getLineExecutionCount file lineNr = (0, 0) ↔ r.lineIsCode file lineNr = false) := by
  obtain ⟨_, hn₂, _⟩ := (reachable_inv hr).2
  have hpos : ∀ e ∈ r.m_lines, 1 ≤ e.2.possibleHits := by
    intro e he
    have := (hn₂ e he).2
    simp only [Line.possibleHits]
    exact Nat.one_le_iff_ne_zero.2 (fun h0 => this (List.length_eq_zero.1 h0))
  refine ⟨hpos, ?_, ?_⟩
  · simp only [Reporter.lineIsCode, Reporter.getLineExecutionCount]
    cases hf : mapFind (LineId.mk file lineNr) r.m_lines with
    | none => simp
    | some l => simpa using hpos _ (mapFind_mem hf)
  · simp only [Reporter.lineIsCode, Reporter.getLineExecutionCount]
    cases hf : mapFind (LineId.mk file lineNr) r.m_lines with
    | none => simp
    | some l =>
      have := hpos _ (mapFind_mem hf)
      simp only [Option.isSome_some, Prod.mk.injEq]
      constructor
      · intro h
        simp only at this
        omega
      · intro h
        cases h

/-- Witness of C19: in the scenario, line 10 of `a.c` has `possibleHits = 2`. -/
theorem lineIsCode_iff_possibleHits_witness :
    run onlyA Reporter.init (lineEvents scenarioLines) = some scenarioStatic ∧
    ((∀ e ∈ scenarioStatic.m_lines, 1 ≤ e.2.possibleHits) ∧
      (scenarioStatic.lineIsCode "a.c" 10 = true ↔
        1 ≤ (scenarioStatic.getLineExecutionCount "a.c" 10).2) ∧
      (scenarioStatic.getLineExecutionCount "a.c" 10 = (0, 0) ↔
        scenarioStatic.lineIsCode "a.c" 10 = false)) ∧
    scenarioStatic.getLineExecutionCount "a.c" 10 = (0, 2) ∧
    scenarioStatic.getLineExecutionCount "a.c" 11 = (0, 0) :=
  ⟨by decide,
    lineIsCode_iff_possibleHits onlyA (lineEvents scenarioLines) scenarioStatic (by decide)
      "a.c" 10,
    by decide, by decide⟩

/-! ## Address sets at runtime -/

/-- Lines of the same shape answer `lineIsCode` and `possibleHits()` alike. -/
theorem sameShape_observations {r r' : Reporter} (hs : SameShape r.m_lines r'.m_lines)
    (file : String) (lineNr : Nat) :
    (r'.getLineExecutionCount file lineNr).2 = (r.getLineExecutionCount file lineNr).2 ∧
    r'.lineIsCode file lineNr = r.lineIsCode file lineNr := by
  simp only [Reporter.getLineExecutionCount, Reporter.lineIsCode]
  cases hf : mapFind (LineId.mk file lineNr) r.m_lines with
  | some l =>
    obtain ⟨l', hl', hk⟩ := hs.2 _ l hf
    have := congrArg List.length hk
    simp only [List.length_map] at this
    simp [hl', Line.possibleHits, this]
  | none =>
    have hn : mapFind (LineId.mk file lineNr) r'.m_lines = none := by
      rw [mapFind_eq_none_iff] at hf ⊢
      rw [hs.1]
      exact hf
    simp [hn]

/-- C15. In every state reached from the constructor, a completed `onBreakpoint` or
`unMarshal` leaves the address set and hence `possibleHits()` of every line,
the answer of `lineIsCode` for every key, and `nrLines` unchanged; whenever the
address index resolves an address to a line, that line holds the address
already, so `registerHit` does not insert an address. -/
theorem address_sets_frozen (fileExists : String → Bool) (evs : List Event) (r : Reporter)
    (hr : run fileExists Reporter.init evs = some r) :
    (∀ addr r', r.onBreakpoint addr = some r' →
      SameShape r.m_lines r'.m_lines ∧ r'.m_nrLines = r.m_nrLines ∧
      ∀ file lineNr,
        (r'.getLineExecutionCount file lineNr).2 = (r.getLineExecutionCount file lineNr).2 ∧
        r'.lineIsCode file lineNr = r.lineIsCode file lineNr) ∧
    (∀ data r' b, r.unMarshal data = some (r', b) →
      SameShape r.m_lines r'.m_lines ∧ r'.m_nrLines = r.m_nrLines ∧
      ∀ file lineNr,
        (r'.getLineExecutionCount file lineNr).2 = (r.getLineExecutionCount file lineNr).2 ∧
        r'.lineIsCode file lineNr = r.lineIsCode file lineNr) ∧
    (∀ addr id, mapFind addr r.m_addrToLine = some (some id) →
      ∃ l, mapFind id r.m_lines = some l ∧ (mapFind addr l.m_addrs).isSome = true ∧
        (l.registerHit addr).2.m_addrs.map Prod.fst = l.m_addrs.map Prod.fst) := by
  have hi := (reachable_inv hr).1
  refine ⟨?_, ?_, ?_⟩
  · intro addr r' hb
    have := onBreakpoint_ok hi hb
    exact ⟨this.2.1, this.2.2.1, sameShape_observations this.2.1⟩
  · intro data r' b hu
    have := unMarshal_ok hi hu
    exact ⟨this.2.1, this.2.2.1, sameShape_observations this.2.1⟩
  · intro addr id hf
    obtain ⟨l, hl, ha⟩ := indexOK_find hi.2 hf
    exact ⟨l, hl, ha, keys_registerHit ha⟩

/-- Witness of C15: the scenario after the static phase; `onBreakpoint(0x1000)`
and the load of a buffer with an oversized hit count both complete. -/
theorem address_sets_frozen_witness :
    run onlyA Reporter.init (lineEvents scenarioLines) = some scenarioStatic ∧
    ((∀ addr r', scenarioStatic.onBreakpoint addr = some r' →
      SameShape scenarioStatic.m_lines r'.m_lines ∧ r'.m_nrLines = scenarioStatic.m_nrLines ∧
      ∀ file lineNr,
        (r'.getLineExecutionCount file lineNr).2
          = (scenarioStatic.getLineExecutionCount file lineNr).2 ∧
        r'.lineIsCode file lineNr = scenarioStatic.lineIsCode file lineNr) ∧
    (∀ data r' b, scenarioStatic.unMarshal data = some (r', b) →
      SameShape scenarioStatic.m_lines r'.m_lines ∧ r'.m_nrLines = scenarioStatic.m_nrLines ∧
      ∀ file lineNr,
        (r'.getLineExecutionCount file lineNr).2
          = (scenarioStatic.getLineExecutionCount file lineNr).2 ∧
        r'.lineIsCode file lineNr = scenarioStatic.lineIsCode file lineNr) ∧
    (∀ addr id, mapFind addr scenarioStatic.m_addrToLine = some (some id) →
      ∃ l, mapFind id scenarioStatic.m_lines = some l ∧
        (mapFind addr l.m_addrs).isSome = true ∧
        (l.registerHit addr).2.m_addrs.map Prod.fst = l.m_addrs.map Prod.fst)) ∧
    (scenarioStatic.onBreakpoint 0x1000).isSome = true ∧
    (scenarioStatic.unMarshal (putU64 0x1000 ++ putU64 7)).isSome = true :=
  ⟨by decide,
    address_sets_frozen onlyA (lineEvents scenarioLines) scenarioStatic (by decide),
    by decide, by decide⟩

/-! ## What `marshal` writes -/

theorem readPairs_encodeEntries (es : List (Nat × Nat))
    (h : ∀ e ∈ es, e.1 < 2 ^ 64 ∧ e.2 < 2 ^ 64) (q : List Byte) :
    readPairs es.length (encodeEntries es ++ q) = es := by
  induction es with
  | nil => rfl
  | cons e t ih =>
    obtain ⟨h₁, h₂⟩ := h e (List.mem_cons_self _ _)
    have ht := ih (fun x hx => h x (List.mem_cons_of_mem _ hx))
    have hc : encodeEntries (e :: t) ++ q = putEntry e ++ (encodeEntries t ++ q) := by
      simp [encodeEntries]
    have hu := unMarshal_putEntry e (encodeEntries t ++ q)
    simp only [Line.unMarshal, Prod.mk.injEq] at hu
    have g₁ : getU64 (putEntry e ++ (encodeEntries t ++ q)) = e.1 := by
      have : putEntry e ++ (encodeEntries t ++ q)
          = putU64 e.1 ++ (putU64 e.2 ++ (encodeEntries t ++ q)) := by
        simp [putEntry]
      rw [this, getU64_append _ _ (length_putU64 _), getU64_putU64, Nat.mod_eq_of_lt h₁]
    have g₂ : getU64 ((putEntry e ++ (encodeEntries t ++ q)).drop 8) = e.2 := by
      have : (putEntry e ++ (encodeEntries t ++ q)).drop 8
          = putU64 e.2 ++ (encodeEntries t ++ q) := by
        have : putEntry e ++ (encodeEntries t ++ q)
            = putU64 e.1 ++ (putU64 e.2 ++ (encodeEntries t ++ q)) := by
          simp [putEntry]
        rw [this]
        exact List.drop_left' (length_putU64 _)
      rw [this, getU64_append _ _ (length_putU64 _), getU64_putU64, Nat.mod_eq_of_lt h₂]
    simp only [List.length_cons, readPairs, hc, g₁, g₂, hu.1, ht]

/-- C11. In every state reached from the constructor (with 64-bit addresses in the
`onLine` calls), the buffer returned by `marshal()`, read as pairs of 64-bit
unsigned integers, is the list of the pairs `(address, hit state)` of all
lines: one pair per line and address of its address set (the addresses of a
line are pairwise distinct, as are the keys of the lines), the second component
is the hit state stored for the address and is 0 or 1.  The same holds for any
other order in which the entries may be written. -/
theorem marshal_content (fileExists : String → Bool) (evs : List Event) (r : Reporter)
    (haddr : ∀ file lineNr addr, Event.onLine file lineNr addr ∈ evs → addr < 2 ^ 64)
    (hr : run fileExists Reporter.init evs = some r) :
    readPairs (r.marshal.1.length / 16) r.marshal.1
      = r.m_lines.flatMap (fun e => e.2.m_addrs) ∧
    (∀ es : List (Nat × Nat), es.Perm (r.m_lines.flatMap (fun e => e.2.m_addrs)) →
      readPairs ((encodeEntries es).length / 16) (encodeEntries es) = es) ∧
    (r.m_lines.map Prod.fst).Nodup ∧
    (∀ e ∈ r.m_lines, (e.2.m_addrs.map Prod.fst).Nodup ∧
      ∀ p ∈ e.2.m_addrs, mapFind p.1 e.2.m_addrs = some p.2 ∧ (p.2 = 0 ∨ p.2 = 1)) := by
  obtain ⟨hi, hk⟩ := reachable_inv hr
  have hb : AddrBound r.m_lines :=
    addrBound_run evs inv_init keysInv_init (by intro e he; simp [Reporter.init] at he) haddr hr
  have hperm : ∀ es : List (Nat × Nat), es.Perm (r.m_lines.flatMap (fun e => e.2.m_addrs)) →
      readPairs ((encodeEntries es).length / 16) (encodeEntries es) = es := by
    intro es hp
    have hbound : ∀ x ∈ es, x.1 < 2 ^ 64 ∧ x.2 < 2 ^ 64 := by
      intro x hx
      obtain ⟨e, he, hxe⟩ := List.mem_flatMap.1 (hp.mem_iff.1 hx)
      have h₁ := hb e he x.1 (List.mem_map.2 ⟨x, hxe, rfl⟩)
      have h₂ := hi.1 e he x hxe
      exact ⟨h₁, by omega⟩
    have hl : (encodeEntries es).length / 16 = es.length := by
      rw [length_encodeEntries]
      omega
    have := readPairs_encodeEntries es hbound []
    rw [List.append_nil] at this
    rw [hl, this]
  refine ⟨?_, hperm, hk.1, ?_⟩
  · have hm : r.marshal.1 = encodeEntries (r.m_lines.flatMap (fun e => e.2.m_addrs)) :=
      Reporter.marshalWritten_eq r
    rw [hm]
    exact hperm _ (List.Perm.refl _)
  · intro e he
    refine ⟨(hk.2.1 e he).1, ?_⟩
    intro p hp
    refine ⟨mapFind_of_mem (hk.2.1 e he).1 (show (p.1, p.2) ∈ e.2.m_addrs from hp), ?_⟩
    have := hi.1 e he p hp
    omega

/-- Witness of C11: the scenario with only 0x1000 reached marshals to the pairs
`(0x1000, 1)` and `(0x1004, 0)`. -/
theorem marshal_content_witness :
    (∀ file lineNr addr,
      Event.onLine file lineNr addr ∈ lineEvents scenarioLines ++ breakpointEvents [0x1000] →
      addr < 2 ^ 64) ∧
    run onlyA Reporter.init (lineEvents scenarioLines ++ breakpointEvents [0x1000])
      = some { scenarioStatic with
          m_lines := [(lineA, { m_file := "a.c", m_lineNr := 10,
                                m_addrs := [(0x1000, 1), (0x1004, 0)] })]
          m_nrExecutedLines := 1 } ∧
    readPairs 2 (Reporter.marshal { scenarioStatic with
          m_lines := [(lineA, { m_file := "a.c", m_lineNr := 10,
                                m_addrs := [(0x1000, 1), (0x1004, 0)] })]
          m_nrExecutedLines := 1 }).1
      = [(0x1000, 1), (0x1004, 0)] :=
  have haddr : ∀ file lineNr addr,
      Event.onLine file lineNr addr ∈ lineEvents scenarioLines ++ breakpointEvents [0x1000] →
      addr < 2 ^ 64 := by
    intro file lineNr addr h
    simp only [lineEvents, scenarioLines, breakpointEvents, List.map_cons, List.map_nil,
      List.cons_append, List.nil_append, List.mem_cons, Event.onLine.injEq, List.mem_nil_iff,
      or_false, reduceCtorEq] at h
    rcases h with h | h <;> omega
  ⟨haddr, by decide,
    (marshal_content onlyA (lineEvents scenarioLines ++ breakpointEvents [0x1000])
      { scenarioStatic with
          m_lines := [(lineA, { m_file := "a.c", m_lineNr := 10,
                                m_addrs := [(0x1000, 1), (0x1004, 0)] })]
          m_nrExecutedLines := 1 } haddr (by decide)).1⟩

/-! ## Truncated buffers -/

theorem getU64_take (p : List Byte) {k : Nat} (h : 8 ≤ k) : getU64 (p.take k) = getU64 p := by
  simp only [getU64, List.take_take, Nat.min_eq_left h]

theorem unMarshal_take (p : List Byte) {k : Nat} (h : 16 ≤ k) :
    Line.unMarshal (p.take k)
      = ((p.drop 16).take (k - 16), (Line.unMarshal p).2.1, (Line.unMarshal p).2.2) := by
  simp only [Line.unMarshal, List.drop_take, getU64_take p (by omega : 8 ≤ k),
    getU64_take (p.drop 8) (by omega : 8 ≤ k - 8)]

/-- The first `n` entries only depend on the first `16 * n` bytes. -/
theorem decodeEntries_take (n : Nat) :
    ∀ p : List Byte, decodeEntries n (p.take (16 * n)) = decodeEntries n p := by
  induction n with
  | zero => intro p; rfl
  | succ n ih =>
    intro p
    have h16 : 16 ≤ 16 * (n + 1) := by omega
    have hsub : 16 * (n + 1) - 16 = 16 * n := by omega
    simp only [decodeEntries, unMarshal_take p h16, hsub]
    rw [ih]
    rfl

theorem length_decodeEntries (n : Nat) (p : List Byte) : (decodeEntries n p).length = n := by
  induction n generalizing p with
  | zero => rfl
  | succ n ih => simp [decodeEntries, ih]

/-- C13. For every state and every buffer, `unMarshal` runs its entry loop on
exactly `floor(sz / 16)` entries, which only depend on the first
`16 * floor(sz / 16)` bytes: `unMarshal` of the buffer is `unMarshal` of that
prefix, and up to 15 bytes after whole entries change nothing. -/
theorem unMarshal_truncated (r : Reporter) (data : List Byte) :
    r.unMarshal data = r.unMarshal (data.take (16 * (data.length / 16))) ∧
    (r.unMarshal data =
      match Reporter.clearAll r.m_addrToLine r.m_lines with
      | none => none
      | some lines =>
        (applyEntries { r with m_lines := lines, m_nrExecutedLines := 0 }
          (decodeEntries (data.length / 16) data)).map (fun r' => (r', true))) ∧
    (decodeEntries (data.length / 16) data).length = data.length / 16 ∧
    (∀ extra : List Byte, data.length % 16 = 0 → extra.length < 16 →
      r.unMarshal (data ++ extra) = r.unMarshal data) := by
  have key : ∀ d : List Byte,
      r.unMarshal d = r.unMarshal (d.take (16 * (d.length / 16))) := by
    intro d
    have hl : (d.take (16 * (d.length / 16))).length / 16 = d.length / 16 := by
      rw [List.length_take]
      omega
    rw [Reporter.unMarshal_eq r d, Reporter.unMarshal_eq r (d.take (16 * (d.length / 16))), hl,
      decodeEntries_take]
  refine ⟨key data, Reporter.unMarshal_eq r data, length_decodeEntries _ _, ?_⟩
  intro extra hmod hlt
  have h₁ : (data ++ extra).length / 16 = data.length / 16 := by
    rw [List.length_append]
    omega
  have h₂ : 16 * (data.length / 16) = data.length := by omega
  rw [key (data ++ extra), h₁, h₂, List.take_left' rfl]

/-! ## Registering a present address again -/

/-- C14 (the claim fails). After `onLine("a.c", 10, 0x1000)` and
`onBreakpoint(0x1000)` the address 0x1000 belongs to line 10 of `a.c`, which has
`(hits, possibleHits) = (1, 1)`; calling `onLine("a.c", 10, 0x1000)` again gives
`(0, 1)` while `nrExecutedLines` stays 1. -/
theorem onLine_again_clears_hit :
    run onlyA Reporter.init [Event.onLine "a.c" 10 0x1000, Event.onBreakpoint 0x1000]
      = some { m_lines := [(lineA, { m_file := "a.c", m_lineNr := 10, m_addrs := [(0x1000, 1)] })]
               m_addrToLine := [(0x1000, some lineA)]
               m_nrLines := 1
               m_nrExecutedLines := 1 } ∧
    Reporter.getLineExecutionCount
        { m_lines := [(lineA, { m_file := "a.c", m_lineNr := 10, m_addrs := [(0x1000, 1)] })]
          m_addrToLine := [(0x1000, some lineA)]
          m_nrLines := 1
          m_nrExecutedLines := 1 } "a.c" 10 = (1, 1) ∧
    Reporter.getLineExecutionCount
        (Reporter.onLine onlyA
          { m_lines := [(lineA, { m_file := "a.c", m_lineNr := 10, m_addrs := [(0x1000, 1)] })]
            m_addrToLine := [(0x1000, some lineA)]
            m_nrLines := 1
            m_nrExecutedLines := 1 } "a.c" 10 0x1000) "a.c" 10 = (0, 1) ∧
    Reporter.getExecutionSummary
        (Reporter.onLine onlyA
          { m_lines := [(lineA, { m_file := "a.c", m_lineNr := 10, m_addrs := [(0x1000, 1)] })]
            m_addrToLine := [(0x1000, some lineA)]
            m_nrLines := 1
            m_nrExecutedLines := 1 } "a.c" 10 0x1000) = (1, 1) := by
  decide

/-- C14 (amended). In every state in which `addr` belongs to the address set of the
line for `(file, lineNr)` and is not marked reached there, `onLine(file, lineNr,
addr)` leaves the lines, hence `getLineExecutionCount` of every line, and
`getExecutionSummary()` unchanged. -/
theorem onLine_again_of_clear (fileExists : String → Bool) (r : Reporter) (file : String)
    (lineNr addr : Nat) (l : Line)
    (hl : mapFind (LineId.mk file lineNr) r.m_lines = some l)
    (ha : mapFind addr l.m_addrs = some 0) :
    (r.onLine fileExists file lineNr addr).m_lines = r.m_lines ∧
    (∀ f n, (r.onLine fileExists file lineNr addr).getLineExecutionCount f n
      = r.getLineExecutionCount f n) ∧
    (r.onLine fileExists file lineNr addr).getExecutionSummary = r.getExecutionSummary := by
  rcases Reporter.onLine_cases fileExists r file lineNr addr with hc | ⟨l₀, hl₀, hm, _, hx⟩
  · rw [hc.1]
    exact ⟨rfl, fun _ _ => rfl, rfl⟩
  · rcases hl₀ with hl₀ | hl₀
    · rw [hl] at hl₀
      have hl₀' := Option.some.inj hl₀.1
      subst hl₀'
      have hlines : (r.onLine fileExists file lineNr addr).m_lines = r.m_lines := by
        rw [hm]
        have : l.addAddress addr = l := by
          simp only [Line.addAddress, mapAssign_self ha]
        rw [this, mapAssign_self hl]
      refine ⟨hlines, ?_, ?_⟩
      · intro f n
        simp only [Reporter.getLineExecutionCount, hlines]
      · simp only [Reporter.getExecutionSummary, hl₀.2, hx]
    · rw [hl] at hl₀
      cases hl₀.1

/-- Witness of C14 (amended): after the static phase of the scenario, 0x1000 is
registered for line 10 of `a.c` once more. -/
theorem onLine_again_of_clear_witness :
    mapFind (LineId.mk "a.c" 10) scenarioStatic.m_lines
      = some { m_file := "a.c", m_lineNr := 10, m_addrs := [(0x1000, 0), (0x1004, 0)] } ∧
    mapFind 0x1000 [((0x1000 : Nat), (0 : Nat)), (0x1004, 0)] = some 0 ∧
    (scenarioStatic.onLine onlyA "a.c" 10 0x1000).m_lines = scenarioStatic.m_lines ∧
    (∀ f n, (scenarioStatic.onLine onlyA "a.c" 10 0x1000).getLineExecutionCount f n
      = scenarioStatic.getLineExecutionCount f n) ∧
    (scenarioStatic.onLine onlyA "a.c" 10 0x1000).getExecutionSummary
      = scenarioStatic.getExecutionSummary :=
  ⟨by decide, by decide,
    onLine_again_of_clear onlyA scenarioStatic "a.c" 10 0x1000
      { m_file := "a.c", m_lineNr := 10, m_addrs := [(0x1000, 0), (0x1004, 0)] }
      (by decide) (by decide)⟩

/-! ## The counter of the runtime phase -/

theorem sum_eq_count_ones (l : List (Nat × Nat)) (h : ∀ p ∈ l, p.2 ≤ 1) :
    (l.map Prod.snd).sum = (l.filter (fun p => p.2 = 1)).length := by
  induction l with
  | nil => rfl
  | cons a t ih =>
    have h₁ := h a (List.mem_cons_self _ _)
    have h₂ := ih (fun p hp => h p (List.mem_cons_of_mem _ hp))
    rcases Nat.le_one_iff_eq_zero_or_eq_one.1 h₁ with h0 | h1
    · simp [List.filter_cons, h0, h₂]
    · simp [List.filter_cons, h1, h₂]
      omega

theorem sum_hits_le_sum_possibleHits (m : List (LineId × Line)) (h : BitsOK m) :
    (m.map (fun e => e.2.hits)).sum ≤ (m.map (fun e => e.2.possibleHits)).sum := by
  induction m with
  | nil => simp
  | cons e t ih =>
    have h₁ : e.2.hits ≤ e.2.possibleHits := by
      rw [Line.hits_eq_sum, Line.possibleHits]
      exact sum_le_length_of_le_one _ (h e (List.mem_cons_self _ _))
    have h₂ := ih (fun x hx => h x (List.mem_cons_of_mem _ hx))
    simp only [List.map_cons, List.sum_cons]
    omega

/-- C18. In every state reached by `onLine` calls (with 64-bit addresses) followed
by `onBreakpoint` calls, `nrExecutedLines` is the sum of `hits()` over all
lines, which is the number of pairs (line, address) marked reached, and is at
most the sum of `possibleHits()` over all lines. -/
theorem nrExecutedLines_eq_sum_hits (fileExists : String → Bool)
    (ls : List (String × Nat × Nat)) (bs : List Nat) (hls : ∀ x ∈ ls, x.2.2 < 2 ^ 64) :
    ∃ r, run fileExists Reporter.init (lineEvents ls ++ breakpointEvents bs) = some r ∧
      r.getExecutionSummary.2 = (r.m_lines.map (fun e => e.2.hits)).sum ∧
      r.getExecutionSummary.2 = (r.marshalEntries.filter (fun p => p.2 = 1)).length ∧
      r.getExecutionSummary.2 ≤ (r.m_lines.map (fun e => e.2.possibleHits)).sum := by
  obtain ⟨r, hr, hi, _, hrt⟩ := run_static_then_runtime fileExists ls bs hls
  have hsum : r.getExecutionSummary.2 = (r.m_lines.map (fun e => e.2.hits)).sum := hrt.2.2.2
  refine ⟨r, hr, hsum, ?_, ?_⟩
  · rw [hsum, ← sum_marshalEntries]
    apply sum_eq_count_ones
    intro p hp
    obtain ⟨e, he, hpe⟩ := List.mem_flatMap.1 hp
    exact hi.1 e he p hpe
  · rw [hsum]
    exact sum_hits_le_sum_possibleHits _ hi.1

/-- Witness of C18: the scenario of the specification; both addresses of the one
line are reached and `nrExecutedLines = 2`. -/
theorem nrExecutedLines_eq_sum_hits_witness :
    (∀ x ∈ scenarioLines, x.2.2 < 2 ^ 64) ∧
    (∃ r, run onlyA Reporter.init
        (lineEvents scenarioLines ++ breakpointEvents [0x1000, 0x1004, 0x1000]) = some r ∧
      r.getExecutionSummary.2 = (r.m_lines.map (fun e => e.2.hits)).sum ∧
      r.getExecutionSummary.2 = (r.marshalEntries.filter (fun p => p.2 = 1)).length ∧
      r.getExecutionSummary.2 ≤ (r.m_lines.map (fun e => e.2.possibleHits)).sum) ∧
    run onlyA Reporter.init
        (lineEvents scenarioLines ++ breakpointEvents [0x1000, 0x1004, 0x1000])
      = some scenarioHit ∧
    scenarioHit.getExecutionSummary.2 = 2 :=
  ⟨by decide,
    nrExecutedLines_eq_sum_hits onlyA scenarioLines [0x1000, 0x1004, 0x1000] (by decide),
    by decide, by decide⟩

/-! ## The entry loop in closed form -/

/-- Repeating `registerHit` for the same address is the same as one call. -/
theorem registerHits_collapse (id : LineId) (a : Nat) (n : Nat) :
    ∀ (m : List (LineId × Line)) (l : Line), mapFind id m = some l →
      Reporter.registerHits m (some id) a (n + 1)
        = some (mapAssign id (l.registerHit a).2 m) := by
  induction n with
  | zero =>
    intro m l hl
    simp only [Reporter.registerHits, registerHitAt_some hl]
  | succ n ih =>
    intro m l hl
    have h1 : mapFind a (l.registerHit a).2.m_addrs = some 1 := by
      simp [Line.registerHit, mapFind_assign_same]
    have hl₁ : mapFind id (mapAssign id (l.registerHit a).2 m) = some (l.registerHit a).2 :=
      mapFind_assign_same _ _ _
    have := ih _ _ hl₁
    rw [registerHit_of_reached h1, mapAssign_self hl₁] at this
    rw [Reporter.registerHits, registerHitAt_some hl]
    exact this

/-- An entry with a resolved address and a hit count other than 0: the hit is
counted once and registered once, whatever the count. -/
theorem unMarshalEntry_resolved {s : Reporter} {a h : Nat} {id : LineId} {l : Line}
    (hidx : mapFind a s.m_addrToLine = some (some id)) (hl : mapFind id s.m_lines = some l)
    (ha : (mapFind a l.m_addrs).isSome = true) (hh : h ≠ 0) :
    s.unMarshalEntry a h = some { s with
      m_lines := mapAssign id (l.registerHit a).2 s.m_lines
      m_nrExecutedLines := s.m_nrExecutedLines + 1 } := by
  have hpos : 1 ≤ l.possibleHits := by
    obtain ⟨v, hv⟩ := Option.isSome_iff_exists.1 ha
    exact List.length_pos_of_mem (mapFind_mem hv)
  obtain ⟨k, hk⟩ : ∃ k, (if h > l.possibleHits then l.possibleHits else h) = k + 1 := by
    refine ⟨(if h > l.possibleHits then l.possibleHits else h) - 1, ?_⟩
    split <;> omega
  simp only [Reporter.unMarshalEntry, hidx, hh, if_false, hl, hk,
    registerHits_collapse id a k s.m_lines l hl]

/-- Under the invariant, a hit count other than 0 acts like the hit count 1. -/
theorem unMarshalEntry_saturate {s : Reporter} (hi : Inv s) (a h : Nat) (hh : h ≠ 0) :
    s.unMarshalEntry a h = s.unMarshalEntry a 1 := by
  cases hf : mapFind a s.m_addrToLine with
  | none => simp only [Reporter.unMarshalEntry, hf]
  | some v =>
    cases v with
    | none => simp only [Reporter.unMarshalEntry, hf]
    | some id =>
      obtain ⟨l, hl, ha⟩ := indexOK_find hi.2 hf
      rw [unMarshalEntry_resolved hf hl ha hh, unMarshalEntry_resolved hf hl ha Nat.one_ne_zero]

theorem applyEntries_saturate (es : List (Nat × Nat)) :
    ∀ s : Reporter, Inv s →
      applyEntries s (es.map (fun e => (e.1, if 1 ≤ e.2 then 1 else e.2))) = applyEntries s es := by
  induction es with
  | nil => intro s _; rfl
  | cons e t ih =>
    intro s hi
    have hstep : s.unMarshalEntry e.1 (if 1 ≤ e.2 then 1 else e.2) = s.unMarshalEntry e.1 e.2 := by
      split
      · exact (unMarshalEntry_saturate hi e.1 e.2 (by omega)).symm
      · rfl
    obtain ⟨s₁, h₁, hi₁, _, _⟩ := unMarshalEntry_ok hi e.1 e.2
    simp only [List.map_cons, applyEntries, hstep, h₁]
    exact ih s₁ hi₁

theorem length_saturateHits (w n : Nat) :
    ∀ p : List Byte, 16 * n ≤ p.length → (saturateHits w n p).length = p.length := by
  induction n with
  | zero => intro p _; rfl
  | succ n ih =>
    intro p hp
    have hrest : 16 * n ≤ (p.drop 16).length := by
      rw [List.length_drop]; omega
    simp only [saturateHits, List.length_append, List.length_take, ih _ hrest, List.length_drop]
    split
    · rw [length_putU64]; omega
    · rw [List.length_take, List.length_drop]; omega

/-- Reading a buffer whose hit counts have been replaced by 1 where the count, as
`unMarshal` reads it, is at least 1. -/
theorem decodeEntries_saturateHits (n : Nat) :
    ∀ p : List Byte, 16 * n ≤ p.length →
      decodeEntries n (saturateHits 32 n p)
        = (decodeEntries n p).map (fun e => (e.1, if 1 ≤ e.2 then 1 else e.2)) := by
  induction n with
  | zero => intro p _; rfl
  | succ n ih =>
    intro p hp
    have hrest : 16 * n ≤ (p.drop 16).length := by
      rw [List.length_drop]; omega
    have hA : (p.take 8).length = 8 := by
      rw [List.length_take]; omega
    have hM : (if 1 ≤ getU64 (p.drop 8) % 2 ^ 32 then putU64 1
        else (p.drop 8).take 8).length = 8 := by
      split
      · exact length_putU64 _
      · rw [List.length_take, List.length_drop]; omega
    have hAM : (p.take 8 ++ (if 1 ≤ getU64 (p.drop 8) % 2 ^ 32 then putU64 1
        else (p.drop 8).take 8)).length = 16 := by
      rw [List.length_append, hA, hM]
    have hu := unMarshal_append hAM (saturateHits 32 n (p.drop 16))
    have g₁ : getU64 (p.take 8 ++ (if 1 ≤ getU64 (p.drop 8) % 2 ^ 32 then putU64 1
        else (p.drop 8).take 8)) = getU64 p := by
      rw [getU64_append _ _ hA, getU64_take p (Nat.le_refl 8)]
    have g₂ : getU64 ((p.take 8 ++ (if 1 ≤ getU64 (p.drop 8) % 2 ^ 32 then putU64 1
        else (p.drop 8).take 8)).drop 8) % 2 ^ 32
        = if 1 ≤ getU64 (p.drop 8) % 2 ^ 32 then 1 else getU64 (p.drop 8) % 2 ^ 32 := by
      rw [List.drop_left' hA]
      split
      · rw [getU64_putU64]
        rfl
      · rw [getU64_take (p.drop 8) (Nat.le_refl 8)]
    rw [g₁, g₂] at hu
    simp only [saturateHits, decodeEntries, hu, ih _ hrest, List.map_cons]
    rfl

theorem markLine_nil (id : LineId) (l : Line) : markLine [] id l = l := by
  have : l.m_addrs.map (fun p => (p.1, if (id, p.1) ∈ ([] : List (LineId × Nat)) then 1 else p.2))
      = l.m_addrs := by
    conv_rhs => rw [← List.map_id l.m_addrs]
    apply List.map_congr_left
    intro p _
    simp
  simp only [markLine, this]

theorem markAll_nil (m : List (LineId × Line)) : markAll [] m = m := by
  simp only [markAll, markLine_nil]
  conv_rhs => rw [← List.map_id m]
  apply List.map_congr_left
  intro e _
  rfl

theorem markLine_congr {S₁ S₂ : List (LineId × Nat)} (id : LineId) (l : Line)
    (h : ∀ a, (id, a) ∈ S₁ ↔ (id, a) ∈ S₂) : markLine S₁ id l = markLine S₂ id l := by
  simp only [markLine]
  congr 1
  apply List.map_congr_left
  intro p _
  simp only [h p.1]

theorem markAll_congr {S₁ S₂ : List (LineId × Nat)} (m : List (LineId × Line))
    (h : ∀ x, x ∈ S₁ ↔ x ∈ S₂) : markAll S₁ m = markAll S₂ m := by
  simp only [markAll]
  apply List.map_congr_left
  intro e _
  rw [markLine_congr e.1 e.2 (fun a => h (e.1, a))]

theorem mapFind_markAll (S : List (LineId × Nat)) (id : LineId) (m : List (LineId × Line)) :
    mapFind id (markAll S m) = (mapFind id m).map (markLine S id) := by
  simp only [markAll]
  exact mapFind_map_values (fun id l => markLine S id l) id m

theorem mapFind_markLine (S : List (LineId × Nat)) (id : LineId) (l : Line) (a : Nat) :
    mapFind a (markLine S id l).m_addrs
      = (mapFind a l.m_addrs).map (fun v => if (id, a) ∈ S then 1 else v) := by
  simp only [markLine]
  exact mapFind_map_values (fun a v => if (id, a) ∈ S then 1 else v) a l.m_addrs

/-- Registering a hit for `(id, a)` in lines marked with `S` gives the lines
marked with `S` and `(id, a)`. -/
theorem markAll_step {m₀ : List (LineId × Line)} (hn₁ : (m₀.map Prod.fst).Nodup)
    (hn₂ : ∀ e ∈ m₀, (e.2.m_addrs.map Prod.fst).Nodup) (S : List (LineId × Nat))
    {id : LineId} {l : Line} {a : Nat} (hl : mapFind id m₀ = some l)
    (ha : (mapFind a l.m_addrs).isSome = true) :
    mapAssign id ((markLine S id l).registerHit a).2 (markAll S m₀)
      = markAll (S ++ [(id, a)]) m₀ := by
  have hkeys : ((markAll S m₀).map Prod.fst).Nodup := by
    simp only [markAll]
    rw [keys_map_values (fun id l => markLine S id l)]
    exact hn₁
  have hl' : mapFind id (markAll S m₀) = some (markLine S id l) := by
    rw [mapFind_markAll, hl]; rfl
  have hkeysA : ((markLine S id l).m_addrs.map Prod.fst).Nodup := by
    simp only [markLine]
    rw [keys_map_values (fun a v => if (id, a) ∈ S then 1 else v)]
    exact hn₂ _ (mapFind_mem hl)
  obtain ⟨v₀, hv₀⟩ : ∃ v₀, mapFind a (markLine S id l).m_addrs = some v₀ := by
    obtain ⟨v, hv⟩ := Option.isSome_iff_exists.1 ha
    rw [mapFind_markLine, hv]
    exact ⟨_, rfl⟩
  rw [mapAssign_eq_map hkeys hl']
  simp only [markAll, List.map_map]
  apply List.map_congr_left
  intro e he
  simp only [Function.comp_apply, Prod.mk.injEq, true_and]
  by_cases hk : e.1 = id
  · have he₂ : e.2 = l := by
      have := mapFind_of_mem hn₁ (show (e.1, e.2) ∈ m₀ from he)
      rw [hk, hl] at this
      exact (Option.some.inj this).symm
    simp only [hk, if_true, he₂]
    simp only [Line.registerHit]
    have hm := mapAssign_eq_map hkeysA hv₀ 1
    simp only [markLine] at hm ⊢
    rw [hm, List.map_map]
    simp only [Line.mk.injEq, true_and]
    apply List.map_congr_left
    intro p _
    simp only [Function.comp_apply, Prod.mk.injEq, true_and, List.mem_append, List.mem_singleton]
    by_cases hpa : p.1 = a
    · simp [hpa]
    · simp [hpa]
  · simp only [hk, if_false]
    apply markLine_congr
    intro a'
    simp only [List.mem_append, List.mem_singleton, Prod.mk.injEq, hk, false_and, or_false]

theorem resolve_eq_some {idx : List (Nat × Option LineId)} {a : Nat} {id : LineId} :
    resolve idx a = some id ↔ mapFind a idx = some (some id) := by
  simp only [resolve]
  cases mapFind a idx with
  | none => simp
  | some v => cases v <;> simp

theorem survivors_cons_skip {idx : List (Nat × Option LineId)} {e : Nat × Nat}
    (t : List (Nat × Nat)) (h : e.2 = 0 ∨ resolve idx e.1 = none) :
    survivors idx (e :: t) = survivors idx t := by
  simp only [survivors]
  apply List.filterMap_cons_none
  rcases h with h | h
  · simp [h]
  · simp [h]

theorem survivors_cons_keep {idx : List (Nat × Option LineId)} {e : Nat × Nat} {id : LineId}
    (t : List (Nat × Nat)) (h0 : e.2 ≠ 0) (hr : resolve idx e.1 = some id) :
    survivors idx (e :: t) = (id, e.1) :: survivors idx t := by
  simp only [survivors]
  apply List.filterMap_cons_some
  simp [h0, hr]

/-- The entry loop in closed form, over lines `m₀` with distinct keys and
addresses in which every resolved address is present. -/
theorem applyEntries_closed {m₀ : List (LineId × Line)} {idx₀ : List (Nat × Option LineId)}
    (hn₁ : (m₀.map Prod.fst).Nodup) (hn₂ : ∀ e ∈ m₀, (e.2.m_addrs.map Prod.fst).Nodup)
    (hidx : ∀ a id, resolve idx₀ a = some id →
      ∃ l, mapFind id m₀ = some l ∧ (mapFind a l.m_addrs).isSome = true)
    (es : List (Nat × Nat)) :
    ∀ (s : Reporter) (S : List (LineId × Nat)), s.m_lines = markAll S m₀ →
      (∀ a, resolve s.m_addrToLine a = resolve idx₀ a) →
      ∃ s', applyEntries s es = some s' ∧
        s'.m_lines = markAll (S ++ survivors idx₀ es) m₀ ∧
        s'.m_nrExecutedLines = s.m_nrExecutedLines + (survivors idx₀ es).length ∧
        s'.m_nrLines = s.m_nrLines ∧
        ∀ a, resolve s'.m_addrToLine a = resolve idx₀ a := by
  induction es with
  | nil =>
    intro s S hs hres
    exact ⟨s, rfl, by simp [survivors, hs], by simp [survivors], rfl, hres⟩
  | cons e t ih =>
    intro s S hs hres
    cases hf : mapFind e.1 s.m_addrToLine with
    | none =>
      have hr0 : resolve idx₀ e.1 = none := by
        rw [← hres e.1]; simp [resolve, hf]
      have hstep : s.unMarshalEntry e.1 e.2
          = some { s with m_addrToLine := mapAssign e.1 none s.m_addrToLine } := by
        simp only [Reporter.unMarshalEntry, hf]
      obtain ⟨s', h₁, h₂, h₃, h₄, h₅⟩ :=
        ih { s with m_addrToLine := mapAssign e.1 none s.m_addrToLine } S hs (by
          intro a
          simp only [resolve, mapFind_assign]
          by_cases ha : a = e.1
          · subst ha
            simp only [if_true, Option.join]
            exact hr0.symm
          · simp only [ha, if_false]
            exact hres a)
      refine ⟨s', ?_, ?_, ?_, h₄, h₅⟩
      · simp only [applyEntries, hstep]; exact h₁
      · rw [h₂, survivors_cons_skip t (Or.inr hr0)]
      · rw [h₃, survivors_cons_skip t (Or.inr hr0)]
    | some v =>
      cases v with
      | none =>
        have hr0 : resolve idx₀ e.1 = none := by
          rw [← hres e.1]; simp [resolve, hf]
        have hstep : s.unMarshalEntry e.1 e.2 = some s := by
          simp only [Reporter.unMarshalEntry, hf]
        obtain ⟨s', h₁, h₂, h₃, h₄, h₅⟩ := ih s S hs hres
        refine ⟨s', ?_, ?_, ?_, h₄, h₅⟩
        · simp only [applyEntries, hstep]; exact h₁
        · rw [h₂, survivors_cons_skip t (Or.inr hr0)]
        · rw [h₃, survivors_cons_skip t (Or.inr hr0)]
      | some id =>
        have hr0 : resolve idx₀ e.1 = some id := by
          rw [← hres e.1]; simp [resolve, hf]
        by_cases hz : e.2 = 0
        · have hstep : s.unMarshalEntry e.1 e.2 = some s := by
            simp only [Reporter.unMarshalEntry, hf, hz, if_true]
          obtain ⟨s', h₁, h₂, h₃, h₄, h₅⟩ := ih s S hs hres
          refine ⟨s', ?_, ?_, ?_, h₄, h₅⟩
          · simp only [applyEntries, hstep]; exact h₁
          · rw [h₂, survivors_cons_skip t (Or.inl hz)]
          · rw [h₃, survivors_cons_skip t (Or.inl hz)]
        · obtain ⟨l, hl, ha⟩ := hidx e.1 id hr0
          have hl' : mapFind id s.m_lines = some (markLine S id l) := by
            rw [hs, mapFind_markAll, hl]; rfl
          have ha' : (mapFind e.1 (markLine S id l).m_addrs).isSome = true := by
            rw [mapFind_markLine]
            obtain ⟨v, hv⟩ := Option.isSome_iff_exists.1 ha
            rw [hv]; rfl
          have hstep := unMarshalEntry_resolved hf hl' ha' hz
          rw [hs, markAll_step hn₁ hn₂ S hl ha] at hstep
          obtain ⟨s', h₁, h₂, h₃, h₄, h₅⟩ :=
            ih { s with m_lines := markAll (S ++ [(id, e.1)]) m₀
                        m_nrExecutedLines := s.m_nrExecutedLines + 1 }
              (S ++ [(id, e.1)]) rfl hres
          refine ⟨s', ?_, ?_, ?_, h₄, h₅⟩
          · simp only [applyEntries, hstep]; exact h₁
          · rw [h₂, survivors_cons_keep t hz hr0]; simp
          · rw [h₃, survivors_cons_keep t hz hr0]; simp only [List.length_cons]; omega

theorem clearHits_hits (l : Line) : l.clearHits.hits = 0 := by
  apply hits_eq_zero
  intro p hp
  simp only [Line.clearHits, List.mem_map] at hp
  obtain ⟨q, _, rfl⟩ := hp
  rfl

theorem mapFind_resetLines (idx : List (Nat × Option LineId)) (id : LineId)
    (m : List (LineId × Line)) :
    mapFind id (resetLines idx m)
      = (mapFind id m).map (fun l => if some id ∈ idx.map Prod.snd then l.clearHits else l) := by
  simp only [resetLines]
  exact mapFind_map_values
    (fun (id : LineId) (l : Line) => if some id ∈ idx.map Prod.snd then l.clearHits else l) id m

/-- The reset loop on a state without `NULL` nodes. -/
theorem clearAll_eq_resetLines {r : Reporter} (hi : Inv r) (hk : KeysInv r) (hn : NoNull r) :
    Reporter.clearAll r.m_addrToLine r.m_lines = some (resetLines r.m_addrToLine r.m_lines) := by
  obtain ⟨m', hm', _, _⟩ := clearAll_of_inv hi hn
  rw [hm', clearAll_eq_map _ _ _ hk.1 hm']
  rfl

/-- The function `unMarshal` in closed form, on a state without `NULL` nodes:
the lines are reset, then the surviving entries are marked and counted. -/
theorem unMarshal_closed {r : Reporter} (hi : Inv r) (hk : KeysInv r) (hn : NoNull r)
    (data : List Byte) :
    ∃ r', r.unMarshal data = some (r', true) ∧
      r'.m_lines = markAll (survivors r.m_addrToLine (decodeEntries (data.length / 16) data))
        (resetLines r.m_addrToLine r.m_lines) ∧
      r'.m_nrExecutedLines
        = (survivors r.m_addrToLine (decodeEntries (data.length / 16) data)).length ∧
      r'.m_nrLines = r.m_nrLines ∧
      ∀ a, resolve r'.m_addrToLine a = resolve r.m_addrToLine a := by
  have hn₁ : ((resetLines r.m_addrToLine r.m_lines).map Prod.fst).Nodup := by
    have : (resetLines r.m_addrToLine r.m_lines).map Prod.fst = r.m_lines.map Prod.fst := by
      simp [resetLines, List.map_map, Function.comp_def]
    rw [this]
    exact hk.1
  have hn₂ : ∀ e ∈ resetLines r.m_addrToLine r.m_lines, (e.2.m_addrs.map Prod.fst).Nodup := by
    intro e he
    simp only [resetLines, List.mem_map] at he
    obtain ⟨e₀, he₀, rfl⟩ := he
    simp only
    split
    · rw [keys_clearHits]; exact (hk.2.1 e₀ he₀).1
    · exact (hk.2.1 e₀ he₀).1
  have hidx : ∀ a id, resolve r.m_addrToLine a = some id →
      ∃ l, mapFind id (resetLines r.m_addrToLine r.m_lines) = some l ∧
        (mapFind a l.m_addrs).isSome = true := by
    intro a id hres
    obtain ⟨l, hl, ha⟩ := indexOK_find hi.2 (resolve_eq_some.1 hres)
    refine ⟨_, by rw [mapFind_resetLines, hl]; rfl, ?_⟩
    split
    · rw [mapFind_isSome_iff] at ha ⊢
      rw [keys_clearHits]; exact ha
    · exact ha
  obtain ⟨s', h₁, h₂, h₃, h₄, h₅⟩ := applyEntries_closed hn₁ hn₂ hidx
    (decodeEntries (data.length / 16) data)
    { r with m_lines := resetLines r.m_addrToLine r.m_lines, m_nrExecutedLines := 0 } []
    (markAll_nil _).symm (fun _ => rfl)
  refine ⟨s', ?_, ?_, ?_, h₄, h₅⟩
  · rw [Reporter.unMarshal_eq, clearAll_eq_resetLines hi hk hn]
    simp only [h₁, Option.map_some']
  · rw [h₂, List.nil_append]
  · rw [h₃]; simp

/-! ## `unMarshal` resets before it loads -/

/-- C16 (the code at the failing input). The address 0x1000 is registered for line
10 of `a.c`, reached, and then registered for line 11: the address index now
points to line 11 only.  The reset loop of `unMarshal` walks the address index,
so after `unMarshal` of the empty buffer `nrExecutedLines` is 0, but line 10,
which is code, still has `hits() = 1`. -/
theorem unMarshal_empty_keeps_hit :
    run onlyA Reporter.init
        [Event.onLine "a.c" 10 0x1000, Event.onBreakpoint 0x1000, Event.onLine "a.c" 11 0x1000]
      = some { m_lines := [(lineA, { m_file := "a.c", m_lineNr := 10, m_addrs := [(0x1000, 1)] }),
                           ({ m_file := "a.c", m_lineNr := 11 },
                            { m_file := "a.c", m_lineNr := 11, m_addrs := [(0x1000, 0)] })]
               m_addrToLine := [(0x1000, some { m_file := "a.c", m_lineNr := 11 })]
               m_nrLines := 2
               m_nrExecutedLines := 1 } ∧
    Reporter.unMarshal
        { m_lines := [(lineA, { m_file := "a.c", m_lineNr := 10, m_addrs := [(0x1000, 1)] }),
                      ({ m_file := "a.c", m_lineNr := 11 },
                       { m_file := "a.c", m_lineNr := 11, m_addrs := [(0x1000, 0)] })]
          m_addrToLine := [(0x1000, some { m_file := "a.c", m_lineNr := 11 })]
          m_nrLines := 2
          m_nrExecutedLines := 1 } []
      = some ({ m_lines := [(lineA, { m_file := "a.c", m_lineNr := 10, m_addrs := [(0x1000, 1)] }),
                            ({ m_file := "a.c", m_lineNr := 11 },
                             { m_file := "a.c", m_lineNr := 11, m_addrs := [(0x1000, 0)] })]
                m_addrToLine := [(0x1000, some { m_file := "a.c", m_lineNr := 11 })]
                m_nrLines := 2
                m_nrExecutedLines := 0 }, true) ∧
    Reporter.lineIsCode
        { m_lines := [(lineA, { m_file := "a.c", m_lineNr := 10, m_addrs := [(0x1000, 1)] }),
                      ({ m_file := "a.c", m_lineNr := 11 },
                       { m_file := "a.c", m_lineNr := 11, m_addrs := [(0x1000, 0)] })]
          m_addrToLine := [(0x1000, some { m_file := "a.c", m_lineNr := 11 })]
          m_nrLines := 2
          m_nrExecutedLines := 0 } "a.c" 10 = true ∧
    Reporter.getLineExecutionCount
        { m_lines := [(lineA, { m_file := "a.c", m_lineNr := 10, m_addrs := [(0x1000, 1)] }),
                      ({ m_file := "a.c", m_lineNr := 11 },
                       { m_file := "a.c", m_lineNr := 11, m_addrs := [(0x1000, 0)] })]
          m_addrToLine := [(0x1000, some { m_file := "a.c", m_lineNr := 11 })]
          m_nrLines := 2
          m_nrExecutedLines := 0 } "a.c" 10 = (1, 1) := by
  decide

/-- What the reset loop of `unMarshal` reaches.  In every state reached by `onLine`
and `onBreakpoint` calls the loop completes and clears the hit states of exactly
the lines that a node of the address index points to; `nrExecutedLines` is set
to 0 and the entry loop follows.  A line that no node points to is passed over.
When every line that holds a reached address is pointed to by the address index,
all lines have `hits() = 0` after the loop. -/
theorem unMarshal_resets_indexed_lines (fileExists : String → Bool) (evs : List Event)
    (r : Reporter) (hev : ∀ data, Event.unMarshal data ∉ evs)
    (hr : run fileExists Reporter.init evs = some r) :
    Reporter.clearAll r.m_addrToLine r.m_lines
      = some (resetLines r.m_addrToLine r.m_lines) ∧
    (∀ data : List Byte, r.unMarshal data =
      (applyEntries
        { r with m_lines := resetLines r.m_addrToLine r.m_lines, m_nrExecutedLines := 0 }
        (decodeEntries (data.length / 16) data)).map (fun r' => (r', true))) ∧
    r.unMarshal []
      = some ({ r with m_lines := resetLines r.m_addrToLine r.m_lines,
                       m_nrExecutedLines := 0 }, true) ∧
    (∀ id, some id ∈ r.m_addrToLine.map Prod.snd →
      ∃ l, mapFind id r.m_lines = some l ∧
        mapFind id (resetLines r.m_addrToLine r.m_lines) = some l.clearHits ∧
        l.clearHits.hits = 0) ∧
    (∀ id, some id ∉ r.m_addrToLine.map Prod.snd →
      mapFind id (resetLines r.m_addrToLine r.m_lines) = mapFind id r.m_lines) ∧
    ((∀ e ∈ r.m_lines, ∀ p ∈ e.2.m_addrs, p.2 ≠ 0 → some e.1 ∈ r.m_addrToLine.map Prod.snd) →
      ∀ e ∈ resetLines r.m_addrToLine r.m_lines, e.2.hits = 0) := by
  obtain ⟨hi, hn⟩ := run_noNull evs inv_init noNull_init hev hr
  have hk := (reachable_inv hr).2
  have hc := clearAll_eq_resetLines hi hk hn
  have hall : ∀ data : List Byte, r.unMarshal data =
      (applyEntries
        { r with m_lines := resetLines r.m_addrToLine r.m_lines, m_nrExecutedLines := 0 }
        (decodeEntries (data.length / 16) data)).map (fun r' => (r', true)) := by
    intro data
    rw [Reporter.unMarshal_eq, hc]
  refine ⟨hc, hall, ?_, ?_, ?_, ?_⟩
  · rw [hall]
    rfl
  · intro id hid
    obtain ⟨x, hx, hx2⟩ := List.mem_map.1 hid
    obtain ⟨l, hl, _⟩ := hi.2 x hx id hx2
    refine ⟨l, hl, ?_, clearHits_hits l⟩
    rw [mapFind_resetLines, hl]
    simp [hid]
  · intro id hid
    rw [mapFind_resetLines]
    cases mapFind id r.m_lines with
    | none => rfl
    | some l => simp [hid]
  · intro hall' e he
    simp only [resetLines, List.mem_map] at he
    obtain ⟨e₀, he₀, rfl⟩ := he
    simp only
    split
    · exact clearHits_hits e₀.2
    · rename_i hnot
      apply hits_eq_zero
      intro p hp
      by_contra hne
      exact hnot (List.mem_map.1 (hall' e₀ he₀ p hp hne))

/-- The reset loop on the scenario with both addresses reached: `unMarshal` of the
empty buffer gives back the state after the static phase. -/
theorem unMarshal_resets_indexed_lines_witness :
    (∀ data, Event.unMarshal data ∉
      lineEvents scenarioLines ++ breakpointEvents [0x1000, 0x1004]) ∧
    run onlyA Reporter.init (lineEvents scenarioLines ++ breakpointEvents [0x1000, 0x1004])
      = some scenarioHit ∧
    scenarioHit.unMarshal []
      = some ({ scenarioHit with
          m_lines := resetLines scenarioHit.m_addrToLine scenarioHit.m_lines,
          m_nrExecutedLines := 0 }, true) ∧
    scenarioHit.unMarshal [] = some (scenarioStatic, true) :=
  have hev : ∀ data, Event.unMarshal data ∉
      lineEvents scenarioLines ++ breakpointEvents [0x1000, 0x1004] := by
    intro data h
    simp [lineEvents, breakpointEvents, scenarioLines] at h
  ⟨hev, by decide,
    (unMarshal_resets_indexed_lines onlyA _ scenarioHit hev (by decide)).2.2.1,
    by decide⟩

/-! ## Hit counts above 1 -/

/-- C12 (the claim fails). In the scenario after the static phase, the entry for
the known address 0x1000 stores the 64-bit count `2 ^ 32`, which is at least 1.
`unMarshal` reads the count into an `unsigned int`, gets 0 and skips the entry:
0x1000 is not reached and `nrExecutedLines` is 0.  With the count replaced by
1, 0x1000 is reached and `nrExecutedLines` is 1. -/
theorem unMarshal_truncates_hit_count :
    run onlyA Reporter.init (lineEvents scenarioLines) = some scenarioStatic ∧
    mapFind 0x1000 scenarioStatic.m_addrToLine = some (some lineA) ∧
    1 ≤ getU64 ((putU64 0x1000 ++ putU64 (2 ^ 32)).drop 8) ∧
    saturateHits 64 ((putU64 0x1000 ++ putU64 (2 ^ 32)).length / 16)
        (putU64 0x1000 ++ putU64 (2 ^ 32))
      = putU64 0x1000 ++ putU64 1 ∧
    scenarioStatic.unMarshal (putU64 0x1000 ++ putU64 (2 ^ 32)) = some (scenarioStatic, true) ∧
    scenarioStatic.unMarshal (putU64 0x1000 ++ putU64 1)
      = some ({ scenarioStatic with
          m_lines := [(lineA, { m_file := "a.c", m_lineNr := 10,
                                m_addrs := [(0x1000, 1), (0x1004, 0)] })]
          m_nrExecutedLines := 1 }, true) ∧
    scenarioStatic.unMarshal (saturateHits 64 ((putU64 0x1000 ++ putU64 (2 ^ 32)).length / 16)
        (putU64 0x1000 ++ putU64 (2 ^ 32)))
      ≠ scenarioStatic.unMarshal (putU64 0x1000 ++ putU64 (2 ^ 32)) := by
  decide

theorem mem_survivors {idx : List (Nat × Option LineId)} {es : List (Nat × Nat)}
    {e : Nat × Nat} {id : LineId} (he : e ∈ es) (h0 : e.2 ≠ 0)
    (hr : mapFind e.1 idx = some (some id)) : (id, e.1) ∈ survivors idx es := by
  simp only [survivors, List.mem_filterMap]
  exact ⟨e, he, by simp [h0, resolve, hr]⟩

theorem find_resetLines_present {r : Reporter} (hi : IndexOK r) {a : Nat} {id : LineId}
    (hid : mapFind a r.m_addrToLine = some (some id)) :
    ∃ l, mapFind id (resetLines r.m_addrToLine r.m_lines) = some l ∧
      ∃ v, mapFind a l.m_addrs = some v := by
  obtain ⟨l, hl, ha⟩ := indexOK_find hi hid
  refine ⟨_, by rw [mapFind_resetLines, hl]; rfl, ?_⟩
  apply Option.isSome_iff_exists.1
  split
  · rw [mapFind_isSome_iff] at ha ⊢
    rw [keys_clearHits]; exact ha
  · exact ha

/-- C12 (amended). In every state reached by `onLine` and `onBreakpoint` calls and
for every buffer, replacing the hit count of an entry by 1 whenever the count as
`unMarshal` reads it (the stored 64-bit word reduced modulo `2 ^ 32`) is at
least 1 does not change the result of `unMarshal`; `unMarshal` completes, and
every address that the address index resolves to a line and whose entry has
such a count is marked reached in that line afterwards. -/
theorem unMarshal_saturated_hits (fileExists : String → Bool) (evs : List Event)
    (r : Reporter) (hev : ∀ data, Event.unMarshal data ∉ evs)
    (hr : run fileExists Reporter.init evs = some r) (data : List Byte) :
    r.unMarshal (saturateHits 32 (data.length / 16) data) = r.unMarshal data ∧
    ∃ r', r.unMarshal data = some (r', true) ∧
      ∀ e ∈ decodeEntries (data.length / 16) data, 1 ≤ e.2 →
        ∀ id, mapFind e.1 r.m_addrToLine = some (some id) → hitBit r' id e.1 = some 1 := by
  obtain ⟨hi, hn⟩ := run_noNull evs inv_init noNull_init hev hr
  have hk := (reachable_inv hr).2
  constructor
  · have hlen : 16 * (data.length / 16) ≤ data.length := by omega
    have hl : (saturateHits 32 (data.length / 16) data).length / 16 = data.length / 16 := by
      rw [length_saturateHits 32 _ data hlen]
    rw [Reporter.unMarshal_eq, Reporter.unMarshal_eq r data, hl,
      decodeEntries_saturateHits _ data hlen]
    obtain ⟨m', hm', hi', _⟩ := clearAll_of_inv hi hn
    rw [hm']
    simp only [applyEntries_saturate _ _ hi']
  · obtain ⟨r', hu, hlines, _, _, _⟩ := unMarshal_closed hi hk hn data
    refine ⟨r', hu, ?_⟩
    intro e he h1 id hid
    obtain ⟨l, hl, v, hv⟩ := find_resetLines_present hi.2 hid
    have hmem := mem_survivors he (by omega : e.2 ≠ 0) hid
    simp only [hitBit, hlines, mapFind_markAll, hl, Option.map_some', Option.some_bind,
      mapFind_markLine, hv, hmem, if_true]

/-- Witness of C12 (amended): in the scenario after the static phase, an entry
for 0x1000 with the stored count 7 and an entry for 0x1004 with the stored count
`2 ^ 32`, which is read as 0. -/
theorem unMarshal_saturated_hits_witness :
    (∀ data, Event.unMarshal data ∉ lineEvents scenarioLines) ∧
    run onlyA Reporter.init (lineEvents scenarioLines) = some scenarioStatic ∧
    saturateHits 32 2 (putU64 0x1000 ++ putU64 7 ++ putU64 0x1004 ++ putU64 (2 ^ 32))
      = putU64 0x1000 ++ putU64 1 ++ putU64 0x1004 ++ putU64 (2 ^ 32) ∧
    scenarioStatic.unMarshal (saturateHits 32
        ((putU64 0x1000 ++ putU64 7 ++ putU64 0x1004 ++ putU64 (2 ^ 32)).length / 16)
        (putU64 0x1000 ++ putU64 7 ++ putU64 0x1004 ++ putU64 (2 ^ 32)))
      = scenarioStatic.unMarshal (putU64 0x1000 ++ putU64 7 ++ putU64 0x1004 ++ putU64 (2 ^ 32)) ∧
    scenarioStatic.unMarshal (putU64 0x1000 ++ putU64 7 ++ putU64 0x1004 ++ putU64 (2 ^ 32))
      = some ({ scenarioStatic with
          m_lines := [(lineA, { m_file := "a.c", m_lineNr := 10,
                                m_addrs := [(0x1000, 1), (0x1004, 0)] })]
          m_nrExecutedLines := 1 }, true) :=
  have hev : ∀ data, Event.unMarshal data ∉ lineEvents scenarioLines := by
    intro data h
    simp [lineEvents, scenarioLines] at h
  ⟨hev, by decide, by decide,
    (unMarshal_saturated_hits onlyA _ scenarioStatic hev (by decide)
      (putU64 0x1000 ++ putU64 7 ++ putU64 0x1004 ++ putU64 (2 ^ 32))).1,
    by decide⟩

/-! ## The order of the entries -/

theorem decodeEntries_eq_map_chunks16 (n : Nat) :
    ∀ p : List Byte, decodeEntries n p
      = (chunks16 n p).map (fun c => ((Line.unMarshal c).2.1, (Line.unMarshal c).2.2)) := by
  induction n with
  | zero => intro p; rfl
  | succ n ih =>
    intro p
    simp only [decodeEntries, chunks16, List.map_cons, unMarshal_take p (Nat.le_refl 16)]
    rw [← ih]
    rfl

theorem survivors_perm (idx : List (Nat × Option LineId)) {es es' : List (Nat × Nat)}
    (h : es.Perm es') : (survivors idx es).Perm (survivors idx es') := by
  simp only [survivors]
  exact h.filterMap _

/-- C20. In every state reached by `onLine` and `onBreakpoint` calls, for two
buffers whose sixteen-byte entries are permutations of each other (whatever
partial entry follows them), `unMarshal` completes on both and yields the same
`nrExecutedLines`, the same lines and hence the same `getLineExecutionCount`
for every line. -/
theorem unMarshal_order_independent (fileExists : String → Bool) (evs : List Event)
    (r : Reporter) (hev : ∀ data, Event.unMarshal data ∉ evs)
    (hr : run fileExists Reporter.init evs = some r) (data data' : List Byte)
    (hp : (chunks16 (data.length / 16) data).Perm (chunks16 (data'.length / 16) data')) :
    ∃ r₁ r₂, r.unMarshal data = some (r₁, true) ∧ r.unMarshal data' = some (r₂, true) ∧
      r₁.m_nrExecutedLines = r₂.m_nrExecutedLines ∧ r₁.m_lines = r₂.m_lines ∧
      ∀ file lineNr,
        r₁.getLineExecutionCount file lineNr = r₂.getLineExecutionCount file lineNr := by
  obtain ⟨hi, hn⟩ := run_noNull evs inv_init noNull_init hev hr
  have hk := (reachable_inv hr).2
  obtain ⟨r₁, hu₁, hl₁, hc₁, _, _⟩ := unMarshal_closed hi hk hn data
  obtain ⟨r₂, hu₂, hl₂, hc₂, _, _⟩ := unMarshal_closed hi hk hn data'
  have hperm : (decodeEntries (data.length / 16) data).Perm
      (decodeEntries (data'.length / 16) data') := by
    rw [decodeEntries_eq_map_chunks16, decodeEntries_eq_map_chunks16]
    exact hp.map _
  have hs := survivors_perm r.m_addrToLine hperm
  have hlines : r₁.m_lines = r₂.m_lines := by
    rw [hl₁, hl₂]
    exact markAll_congr _ (fun x => hs.mem_iff)
  refine ⟨r₁, r₂, hu₁, hu₂, ?_, hlines, ?_⟩
  · rw [hc₁, hc₂]
    exact hs.length_eq
  · intro file lineNr
    simp only [Reporter.getLineExecutionCount, hlines]

/-- Witness of C20: in the scenario after the static phase, the entries
`(0x1000, 1)`, `(0x2000, 5)`, `(0x1004, 3)` are loaded in two different orders,
the second buffer with two trailing bytes. -/
theorem unMarshal_order_independent_witness :
    (∀ data, Event.unMarshal data ∉ lineEvents scenarioLines) ∧
    run onlyA Reporter.init (lineEvents scenarioLines) = some scenarioStatic ∧
    (chunks16 ((putEntry (0x1000, 1) ++ putEntry (0x2000, 5) ++ putEntry (0x1004, 3)).length / 16)
        (putEntry (0x1000, 1) ++ putEntry (0x2000, 5) ++ putEntry (0x1004, 3))).Perm
      (chunks16
        ((putEntry (0x1004, 3) ++ putEntry (0x1000, 1) ++ putEntry (0x2000, 5) ++ [7, 7]).length
          / 16)
        (putEntry (0x1004, 3) ++ putEntry (0x1000, 1) ++ putEntry (0x2000, 5) ++ [7, 7])) ∧
    (∃ r₁ r₂,
      scenarioStatic.unMarshal
          (putEntry (0x1000, 1) ++ putEntry (0x2000, 5) ++ putEntry (0x1004, 3))
        = some (r₁, true) ∧
      scenarioStatic.unMarshal
          (putEntry (0x1004, 3) ++ putEntry (0x1000, 1) ++ putEntry (0x2000, 5) ++ [7, 7])
        = some (r₂, true) ∧
      r₁.m_nrExecutedLines = r₂.m_nrExecutedLines ∧ r₁.m_lines = r₂.m_lines ∧
      ∀ file lineNr,
        r₁.getLineExecutionCount file lineNr = r₂.getLineExecutionCount file lineNr) :=
  have hev : ∀ data, Event.unMarshal data ∉ lineEvents scenarioLines := by
    intro data h
    simp [lineEvents, scenarioLines] at h
  have hp : (chunks16
        ((putEntry (0x1000, 1) ++ putEntry (0x2000, 5) ++ putEntry (0x1004, 3)).length / 16)
        (putEntry (0x1000, 1) ++ putEntry (0x2000, 5) ++ putEntry (0x1004, 3))).Perm
      (chunks16
        ((putEntry (0x1004, 3) ++ putEntry (0x1000, 1) ++ putEntry (0x2000, 5) ++ [7, 7]).length
          / 16)
        (putEntry (0x1004, 3) ++ putEntry (0x1000, 1) ++ putEntry (0x2000, 5) ++ [7, 7])) := by
    decide
  ⟨hev, by decide, hp,
    unMarshal_order_independent onlyA _ scenarioStatic hev (by decide) _ _ hp⟩

/-- On the states of the two phases (`onLine` calls, then `onBreakpoint` calls)
the reset loop reaches every line: `unMarshal` of the empty buffer completes,
every line has `hits() = 0` and `nrExecutedLines` is 0. -/
theorem unMarshal_empty_two_phase (fileExists : String → Bool)
    (ls : List (String × Nat × Nat)) (bs : List Nat) (hls : ∀ x ∈ ls, x.2.2 < 2 ^ 64) :
    ∃ r, run fileExists Reporter.init (lineEvents ls ++ breakpointEvents bs) = some r ∧
      ∃ r', r.unMarshal [] = some (r', true) ∧ r'.m_nrExecutedLines = 0 ∧
        (∀ e ∈ r'.m_lines, e.2.hits = 0) ∧
        ∀ file lineNr, r.lineIsCode file lineNr = true →
          (r'.getLineExecutionCount file lineNr).1 = 0 := by
  obtain ⟨r, hr, hi, hn, hrt⟩ := run_static_then_runtime fileExists ls bs hls
  have hu : r.unMarshal []
      = some ({ r with m_lines := (restored r []).m_lines, m_nrExecutedLines := 0 }, true) := by
    rw [Reporter.unMarshal_eq, clearAll_runtime hi hn hrt]
    rfl
  have hz : ∀ e ∈ (restored r []).m_lines, e.2.hits = 0 := by
    intro e he
    simp only [restored, List.mem_map] at he
    obtain ⟨e₀, _, rfl⟩ := he
    simp only [restoreLine_nil]
    exact clearHits_hits e₀.2
  refine ⟨r, hr, _, hu, rfl, hz, ?_⟩
  intro file lineNr _
  simp only [Reporter.getLineExecutionCount]
  cases hf : mapFind (LineId.mk file lineNr) (restored r []).m_lines with
  | none => rfl
  | some l => exact hz _ (mapFind_mem hf)

end Kcov
